import Mathlib

/-!
# FEBio surface kernel: a shallow embedding of `FEBio/FESurface.cpp`

The C++ code computes with `double`.  The embedding reads it in two ways, and every
statement says which one it is about.

* In `double` arithmetic (`F64`, sections "Binary64 arithmetic" and "The surface functions
  in `double` arithmetic"): a `double` is an IEEE 754 binary64 value, with the two zeros,
  the infinities and NaN, and every operation of the source is one operation rounded to
  nearest, ties to even (no fused multiply-add, no extended precision).  A division by a
  zero determinant gives an infinity or a NaN and the call goes on.
* In exact arithmetic (`ℚ`): a `double` is a rational number and every operation is exact,
  so that a statement over this reading is a statement about the algorithm.  Two places
  need care there:
  * `sqrt`: the only use of the square root in `ProjectToSurface` is the test
    `normu > 1e-5` with `normu = sqrt(u0*u0 + u1*u1)`.  The exact reading keeps the square
    `normu2 = u0*u0 + u1*u1` and tests `normu2 > (1e-5)^2`
    (see `sqrt_gt_tol_iff` for the equivalence over the reals).
  * division by a zero determinant: an infinity or a NaN is not a number of the exact
    reading, which ends such a run with `Stop.divisionByZero`; this is not an error
    raised by the code, it marks the point where the code leaves exact arithmetic.

Calls are embedded in `Run α = Except Stop α`.
-/

namespace FEBio

/-! ## Outcomes -/

/-- Error kinds named by the error taxonomy of the specification (section 7). -/
inductive ErrorKind where
  | DegenerateProjection
  | ProjectionNonConvergence
  | AugmentationLimitExceeded
  | InvalidSurfaceTopology
  deriving DecidableEq, Repr

/-- Ways in which a run of the embedded code ends without a value of the exact model.
`raised e`: the code reports the error `e` to its caller.
`divisionByZero n`: in pass `n` of the Newton loop (counted from 1) the code evaluated
a quotient with divisor `D = 0`; the C++ call continues with non-finite numbers.
`indexOutOfRange`: the code indexes an array outside its bounds (undefined behaviour).
`assertFailed`: the code reaches `assert(false)`.
`uninitialisedRead`: the code reads a variable or an array entry that was never assigned
(undefined behaviour).
`intOverflow`: an `int` expression leaves the range of `int` (undefined behaviour). -/
inductive Stop where
  | raised (e : ErrorKind)
  | divisionByZero (n : ℕ)
  | indexOutOfRange
  | assertFailed
  | uninitialisedRead
  | intOverflow
  deriving DecidableEq, Repr

/-- Result of running embedded code. -/
abbrev Run (α : Type) := Except Stop α

/-! ## Vectors -/

/-- Modelled from the spec: the class `vec3d` (FECore) is not among the sources; it is a
triple of coordinates `(x,y,z)` with the usual vector operations, and its default
constructor gives the zero vector. -/
@[ext]
structure Vec3 where
  x : ℚ
  y : ℚ
  z : ℚ
  deriving DecidableEq

namespace Vec3

/-- Modelled from the spec: `vec3d(0,0,0)`, also the value of a default-constructed `vec3d`. -/
def zero : Vec3 := ⟨0, 0, 0⟩

/-- Modelled from the spec: `a + b` of `vec3d` (also used for `a += b`). -/
def add (a b : Vec3) : Vec3 := ⟨a.x + b.x, a.y + b.y, a.z + b.z⟩

/-- Modelled from the spec: `a - b` of `vec3d`. -/
def sub (a b : Vec3) : Vec3 := ⟨a.x - b.x, a.y - b.y, a.z - b.z⟩

/-- Modelled from the spec: `a * g` of `vec3d`, a vector times a scalar. -/
def scale (a : Vec3) (g : ℚ) : Vec3 := ⟨a.x * g, a.y * g, a.z * g⟩

/-- Modelled from the spec: `a * b` of `vec3d`, the dot product of two vectors. -/
def dot (a b : Vec3) : ℚ := a.x * b.x + a.y * b.y + a.z * b.z

/-- Modelled from the spec: `a ^ b` of `vec3d`, the cross product of two vectors. -/
def cross (a b : Vec3) : Vec3 :=
  ⟨a.y * b.z - a.z * b.y, a.z * b.x - a.x * b.z, a.x * b.y - a.y * b.x⟩

instance : Zero Vec3 := ⟨zero⟩
instance : Add Vec3 := ⟨add⟩
instance : Sub Vec3 := ⟨sub⟩

end Vec3

/-! ## Mesh, surface elements, surface -/

/-- Modelled from the spec: a mesh node (class `FENode`, not among the sources) with its
reference position `m_r0` and its current position `m_rt`. -/
structure FENode where
  m_r0 : Vec3
  m_rt : Vec3

/-- Modelled from the spec: the mesh (class `FEMesh`, not among the sources), of which this
file reads the nodes only: `Nodes()` is the number of nodes and `Node(i)` the `i`-th. -/
structure FEMesh where
  m_Node : List FENode

/-- Number of mesh nodes, `mesh.Nodes()`. -/
def FEMesh.Nodes (mesh : FEMesh) : ℕ := mesh.m_Node.length

/-- Checked `mesh.Node(i)`. -/
def FEMesh.Node (mesh : FEMesh) (i : ℕ) : Run FENode :=
  match mesh.m_Node[i]? with
  | some nd => .ok nd
  | none => .error .indexOutOfRange

/-- Modelled from the spec: a surface element (class `FESurfaceElement`, not among the
sources), of which this file reads `m_node` (global node numbers), `m_lnode` (local node
numbers, one per entry of `m_node`) and `Nodes()`, the length of `m_node`. -/
structure FESurfaceElement where
  m_node : List ℕ
  m_lnode : List ℤ
  deriving DecidableEq, Repr

/-- Number of element nodes, `el.Nodes()`. -/
def FESurfaceElement.Nodes (el : FESurfaceElement) : ℕ := el.m_node.length

/-- Fields of `FESurface` used by the embedded functions: the mesh `*m_pmesh`, the elements
(`Elements()`, `Element(i)`) and the node index table `node`. -/
structure FESurface where
  m_pmesh : FEMesh
  m_el : List FESurfaceElement
  node : List ℕ

/-! ## `FESurface::Init` -/

/-- Body of the inner loop of `Init` for one global node number `m`:
`if (tag[m] == -1) tag[m] = nn++;` followed by the value `tag[m]` stored in `m_lnode[j]`.
Returns the new `tag`, the new `nn` and the local number. -/
def tagNode (tag : List ℤ) (nn : ℕ) (m : ℕ) : Run (List ℤ × ℕ × ℤ) :=
  match tag[m]? with
  | none => .error .indexOutOfRange
  | some t => if t = -1 then .ok (tag.set m (nn : ℤ), nn + 1, (nn : ℤ)) else .ok (tag, nn, t)

/-- Inner loop of `Init` over the nodes `j` of one element; the third component collects
the values written to `el.m_lnode[j]`. -/
def tagElement (tag : List ℤ) (nn : ℕ) : List ℕ → Run (List ℤ × ℕ × List ℤ)
  | [] => .ok (tag, nn, [])
  | m :: ms =>
    match tagNode tag nn m with
    | .error e => .error e
    | .ok (tag1, nn1, l) =>
      match tagElement tag1 nn1 ms with
      | .error e => .error e
      | .ok (tag2, nn2, ls) => .ok (tag2, nn2, l :: ls)

/-- Outer loop of `Init` over the elements `i`; only `m_lnode` of an element is written. -/
def tagElements (tag : List ℤ) (nn : ℕ) : List FESurfaceElement →
    Run (List ℤ × ℕ × List FESurfaceElement)
  | [] => .ok (tag, nn, [])
  | el :: els =>
    match tagElement tag nn el.m_node with
    | .error e => .error e
    | .ok (tag1, nn1, ln) =>
      match tagElements tag1 nn1 els with
      | .error e => .error e
      | .ok (tag2, nn2, els2) => .ok (tag2, nn2, { el with m_lnode := ln } :: els2)

/-- Body of the second loop of `Init` for mesh node `i`:
`if (tag[i] >= 0) node[tag[i]] = i;`. -/
def fillNode (tag : List ℤ) (node : List ℕ) (i : ℕ) : Run (List ℕ) :=
  match tag[i]? with
  | none => .error .indexOutOfRange
  | some t =>
    if 0 ≤ t then
      (if t.toNat < node.length then .ok (node.set t.toNat i) else .error .indexOutOfRange)
    else .ok node

/-- Second loop of `Init`, over the mesh nodes listed in `is` (called with `0 .. Nodes()-1`). -/
def fillNodeTable (tag : List ℤ) (node : List ℕ) : List ℕ → Run (List ℕ)
  | [] => .ok node
  | i :: is =>
    match fillNode tag node i with
    | .error e => .error e
    | .ok node1 => fillNodeTable tag node1 is

/-- Embedding of `FESurface::Init`.  `tag.set(-1)` is `List.replicate _ (-1)`,
`node.create(nn)` is a table of `nn` entries (here filled with 0; the second loop writes
every entry, see `Init_spec`).  The last statement, `m_NEL.Create(*this)`, builds the
node-element list, which is not part of the modelled state. -/
def FESurface.Init (S : FESurface) : Run FESurface :=
  let mesh := S.m_pmesh
  match tagElements (List.replicate mesh.Nodes (-1)) 0 S.m_el with
  | .error e => .error e
  | .ok (tag, nn, els) =>
    match fillNodeTable tag (List.replicate nn 0) (List.range mesh.Nodes) with
    | .error e => .error e
    | .ok node => .ok { S with m_el := els, node := node }

/-! ## Shape functions and the closest-point projection, in exact arithmetic

The definitions of this section and of the sections on `PointOnSurface`, `Metric0`,
`SurfaceNormal` and `FaceArea` read the code in exact arithmetic: a `double` is a rational
number and every operation is exact.  The functions `IsInsideElement`, `Local2Global` and
`ProjectToSurface` are embedded a second time further down with the arithmetic of the type
`double`, every operation rounded (`FESurfaceD`). -/

/-- Gather loop `for (i=0; i<ne; ++i) y[i] = mesh.Node(el.m_node[i]).m_rt;` (with `sel`
the field that is read, `m_rt` or `m_r0`). -/
def nodalPositions (mesh : FEMesh) (sel : FENode → Vec3) : List ℕ → Run (List Vec3)
  | [] => .ok []
  | m :: ms =>
    match mesh.Node m with
    | .error e => .error e
    | .ok nd =>
      match nodalPositions mesh sel ms with
      | .error e => .error e
      | .ok ys => .ok (sel nd :: ys)

/-- The local array `vec3d y[4]` read at index `i`. -/
def yAt (ys : List Vec3) (i : ℕ) : Vec3 := ys.getD i Vec3.zero

/-- Table `gr[4] = {-1, +1, +1, -1}`. -/
def gr : ℕ → ℚ
  | 0 => -1
  | 1 => 1
  | 2 => 1
  | _ => -1

/-- Table `gs[4] = {-1, -1, +1, +1}`. -/
def gs : ℕ → ℚ
  | 0 => -1
  | 1 => -1
  | 2 => 1
  | _ => 1

/-- The local arrays `H`, `Hr`, `Hs`, `Hrs` of `ProjectToSurface`. -/
structure ShapeData where
  H : ℕ → ℚ
  Hr : ℕ → ℚ
  Hs : ℕ → ℚ
  Hrs : ℕ → ℚ

/-- Shape functions and derivatives as `ProjectToSurface` sets them at the current guess:
the quadrilateral formulas if `ne == 4`, the triangle formulas otherwise.  The factor
`0.25` is written `1/4`.  In the triangle branch the source assigns the entries 0, 1, 2
only; the other entries are never read when `ne <= 3` and are given the value 0 here. -/
def projShape (ne : ℕ) (r s : ℚ) : ShapeData :=
  if ne = 4 then
    { H := fun i => (1/4) * (1 + gr i * r) * (1 + gs i * s)
      Hr := fun i => (1/4) * gr i * (1 + gs i * s)
      Hs := fun i => (1/4) * gs i * (1 + gr i * r)
      Hrs := fun i => (1/4) * gr i * gs i }
  else
    { H := fun i => match i with
        | 0 => 1 - r - s
        | 1 => r
        | 2 => s
        | _ => 0
      Hr := fun i => match i with
        | 0 => -1
        | 1 => 1
        | 2 => 0
        | _ => 0
      Hs := fun i => match i with
        | 0 => -1
        | 1 => 0
        | 2 => 1
        | _ => 0
      Hrs := fun _ => 0 }

/-- The locals `R[2]`, `A[2][2]` and `q` of `ProjectToSurface`. -/
structure NewtonSystem where
  R0 : ℚ
  R1 : ℚ
  A00 : ℚ
  A01 : ℚ
  A10 : ℚ
  A11 : ℚ
  q : Vec3

/-- Body of the inner loop over `j` (source lines 133-140). -/
def assembleInner (ys : List Vec3) (sh : ShapeData) (i : ℕ) (st : NewtonSystem) (j : ℕ) :
    NewtonSystem :=
  let yy := Vec3.dot (yAt ys i) (yAt ys j)
  { st with
    R0 := st.R0 - (-(sh.H j) * sh.Hr i * yy)
    R1 := st.R1 - (-(sh.H j) * sh.Hs i * yy)
    A00 := st.A00 + -yy * (sh.Hr i * sh.Hr j)
    A11 := st.A11 + -yy * (sh.Hs i * sh.Hs j)
    A01 := st.A01 + -yy * (sh.Hs j * sh.Hr i + sh.H i * sh.Hrs j)
    A10 := st.A10 + -yy * (sh.Hr j * sh.Hs i + sh.H i * sh.Hrs j) }

/-- Body of the outer loop over `i` (source lines 125-143). -/
def assembleOuter (ne : ℕ) (ys : List Vec3) (x : Vec3) (sh : ShapeData) (st : NewtonSystem)
    (i : ℕ) : NewtonSystem :=
  let xy := Vec3.dot x (yAt ys i)
  let st1 : NewtonSystem :=
    { st with
      R0 := st.R0 - xy * sh.Hr i
      R1 := st.R1 - xy * sh.Hs i
      A01 := st.A01 + xy * sh.Hrs i
      A10 := st.A10 + xy * sh.Hrs i }
  let st2 := (List.range ne).foldl (assembleInner ys sh i) st1
  { st2 with q := st2.q + (yAt ys i).scale (sh.H i) }

/-- Assembly of the system of equations (source lines 119-144), starting from
`q = 0`, `R = 0`, `A = 0`. -/
def assemble (ne : ℕ) (ys : List Vec3) (x : Vec3) (sh : ShapeData) : NewtonSystem :=
  (List.range ne).foldl (assembleOuter ne ys x sh) ⟨0, 0, 0, 0, 0, 0, Vec3.zero⟩

/-- Determinant `D = A[0][0]*A[1][1] - A[0][1]*A[1][0]`. -/
def NewtonSystem.D (sys : NewtonSystem) : ℚ := sys.A00 * sys.A11 - sys.A01 * sys.A10

/-- Step component `u[0] = (A[1][1]*R[0] - A[0][1]*R[1])/D`. -/
def NewtonSystem.u0 (sys : NewtonSystem) : ℚ := (sys.A11 * sys.R0 - sys.A01 * sys.R1) / sys.D

/-- Step component `u[1] = (A[0][0]*R[1] - A[1][0]*R[0])/D`. -/
def NewtonSystem.u1 (sys : NewtonSystem) : ℚ := (sys.A00 * sys.R1 - sys.A10 * sys.R0) / sys.D

/-- Iteration cap `NMAX = 5`. -/
def NMAX : ℕ := 5

/-- Square of the step tolerance `1e-5`, read as the number `1/100000`. -/
def tol2 : ℚ := (1 / 100000) ^ 2

/-- What a call of `ProjectToSurface` leaves behind: the returned point `q`, the
coordinates `r`, `s` written back through the references, and, for reference, the values
of the locals `n` (passes made) and `normu` squared (`normu2`) at the return.  `hist` is a
history variable, not a variable of the source: the value of `normu` squared in every pass
made, oldest first. -/
structure Projection where
  q : Vec3
  r : ℚ
  s : ℚ
  n : ℕ
  normu2 : ℚ
  hist : List ℚ
  deriving DecidableEq

/-- The system assembled in one pass of the loop at the guess `(r,s)`. -/
def systemAt (ne : ℕ) (ys : List Vec3) (x : Vec3) (r s : ℚ) : NewtonSystem :=
  assemble ne ys x (projShape ne r s)

/-- The `do ... while ((normu > 1e-5) && (n < NMAX))` loop of `ProjectToSurface` in exact
arithmetic, entered with the current guess `(r,s)`, the pass counter `n` and the history
`hist` of the passes already made.  A quotient with divisor `D = 0` has no value in exact
arithmetic, so a pass that meets `D = 0` ends the run here (`divisionByZero`); what the
`double` code does with it is in `newtonLoopD`. -/
def newtonLoop (ne : ℕ) (ys : List Vec3) (x : Vec3) (r s : ℚ) (n : ℕ) (hist : List ℚ) :
    Run Projection :=
  let sys := systemAt ne ys x r s
  if sys.D = 0 then .error (.divisionByZero (n + 1))
  else
    let normu2 := sys.u0 * sys.u0 + sys.u1 * sys.u1
    if _h : normu2 > tol2 ∧ n + 1 < NMAX then
      newtonLoop ne ys x (r + sys.u0) (s + sys.u1) (n + 1) (hist ++ [normu2])
    else
      .ok ⟨sys.q, r + sys.u0, s + sys.u1, n + 1, normu2, hist ++ [normu2]⟩
termination_by NMAX - n
decreasing_by omega

/-- Embedding of `FESurface::ProjectToSurface` in exact arithmetic.  The local array `y`
has four entries, so an element with more than four nodes makes the gather loop write
outside it. -/
def FESurface.ProjectToSurface (S : FESurface) (el : FESurfaceElement) (x : Vec3)
    (r s : ℚ) : Run Projection :=
  let ne := el.Nodes
  if 4 < ne then .error .indexOutOfRange
  else
    match nodalPositions S.m_pmesh FENode.m_rt el.m_node with
    | .error e => .error e
    | .ok ys => newtonLoop ne ys x r s 0 []

/-- Shape functions `H[4]` as `Local2Global` sets them; `none` stands for the
`assert(false)` branch. -/
def l2gShape (ne : ℕ) (r s : ℚ) : Option (ℕ → ℚ) :=
  if ne = 4 then
    some (fun i => match i with
      | 0 => (1/4) * (1 - r) * (1 - s)
      | 1 => (1/4) * (1 + r) * (1 - s)
      | 2 => (1/4) * (1 + r) * (1 + s)
      | _ => (1/4) * (1 - r) * (1 + s))
  else if ne = 3 then
    some (fun i => match i with
      | 0 => 1 - r - s
      | 1 => r
      | _ => s)
  else none

/-- Embedding of `FESurface::Local2Global(el, r, s)` in exact arithmetic:
`q = sum_l y[l]*H[l]` over the element nodes. -/
def FESurface.Local2Global (S : FESurface) (el : FESurfaceElement) (r s : ℚ) : Run Vec3 :=
  let ne := el.Nodes
  if 4 < ne then .error .indexOutOfRange
  else
    match nodalPositions S.m_pmesh FENode.m_rt el.m_node with
    | .error e => .error e
    | .ok ys =>
      match l2gShape ne r s with
      | none => .error .assertFailed
      | some H => .ok ((List.range ne).foldl (fun q l => q + (yAt ys l).scale (H l)) Vec3.zero)

/-! ## Auxiliary definitions used in the statements -/

/-- Interpolated vector `sum_i y_i * h_i` over three nodes, summed in the order of the
source loops (starting from the zero vector). -/
def pt3 (y0 y1 y2 : Vec3) (h0 h1 h2 : ℚ) : Vec3 :=
  Vec3.zero + y0.scale h0 + y1.scale h1 + y2.scale h2

/-- Interpolated vector `sum_i y_i * h_i` over four nodes, summed in the order of the
source loops (starting from the zero vector). -/
def pt4 (y0 y1 y2 y3 : Vec3) (h0 h1 h2 h3 : ℚ) : Vec3 :=
  Vec3.zero + y0.scale h0 + y1.scale h1 + y2.scale h2 + y3.scale h3

/-- Squared length of a vector. -/
def Vec3.norm2 (a : Vec3) : ℚ := a.dot a

/-- A mesh whose nodes have the given positions, both as reference and as current
positions. -/
def meshOf (ps : List Vec3) : FEMesh := ⟨ps.map (fun p => ⟨p, p⟩)⟩

/-- A 4-node element on the mesh nodes 0, 1, 2, 3. -/
def quadElement : FESurfaceElement := ⟨[0, 1, 2, 3], [0, 1, 2, 3]⟩

/-- A 3-node element on the mesh nodes 0, 1, 2. -/
def triElement : FESurfaceElement := ⟨[0, 1, 2], [0, 1, 2]⟩

/-- The unit right triangle `(0,0,0) (1,0,0) (0,1,0)` as a surface of one triangle. -/
def unitTriangle : FESurface :=
  ⟨meshOf [⟨0, 0, 0⟩, ⟨1, 0, 0⟩, ⟨0, 1, 0⟩], [triElement], [0, 1, 2]⟩

/-- A slanted parallelogram `(0,0,0) (2,0,0) (3,1,1) (1,1,1)` as a surface of one quad. -/
def slantedQuad : FESurface :=
  ⟨meshOf [⟨0, 0, 0⟩, ⟨2, 0, 0⟩, ⟨3, 1, 1⟩, ⟨1, 1, 1⟩], [quadElement], [0, 1, 2, 3]⟩

/-- A triangle with collinear nodes `(0,0,0) (1,0,0) (2,0,0)` as a surface of one triangle. -/
def collinearTriangle : FESurface :=
  ⟨meshOf [⟨0, 0, 0⟩, ⟨1, 0, 0⟩, ⟨2, 0, 0⟩], [triElement], [0, 1, 2]⟩

/-- The distinct node numbers seen so far, in the order of their first occurrence, after
one more node number `m`. -/
def addNode (order : List ℕ) (m : ℕ) : List ℕ := if m ∈ order then order else order ++ [m]

/-- The distinct node numbers in first-occurrence order after the node list `ms`. -/
def addNodes (order : List ℕ) (ms : List ℕ) : List ℕ := ms.foldl addNode order

/-- The distinct node numbers in first-occurrence order after the elements `els`. -/
def surfaceNodes (order : List ℕ) (els : List FESurfaceElement) : List ℕ :=
  els.foldl (fun o el => addNodes o el.m_node) order

/-- The array `tag` of `Init` that corresponds to the nodes seen so far: the position of
a seen node in `order`, and `-1` for the other mesh nodes. -/
def tagOf (N : ℕ) (order : List ℕ) : List ℤ :=
  (List.range N).map (fun i => if i ∈ order then ((order.indexOf i : ℕ) : ℤ) else -1)

/-- An element with its local node numbers set to the positions of its nodes in `order`. -/
def relabel (order : List ℕ) (el : FESurfaceElement) : FESurfaceElement :=
  { el with m_lnode := el.m_node.map (fun m => ((order.indexOf m : ℕ) : ℤ)) }

/-- Every element of the surface references mesh node numbers that exist. -/
def FESurface.validNodes (S : FESurface) : Prop :=
  ∀ el ∈ S.m_el, ∀ m ∈ el.m_node, m < S.m_pmesh.Nodes

/-- A surface of a triangle `3 1 4` and a quad `1 4 5 3` on a mesh of six nodes; the mesh
nodes 0 and 2 are not referenced. -/
def sampleSurface : FESurface :=
  ⟨meshOf [⟨0, 0, 0⟩, ⟨1, 0, 0⟩, ⟨2, 0, 0⟩, ⟨0, 1, 0⟩, ⟨1, 1, 0⟩, ⟨2, 1, 0⟩],
    [⟨[3, 1, 4], [0, 0, 0]⟩, ⟨[1, 4, 5, 3], [0, 0, 0, 0]⟩], []⟩

/-- A surface on a mesh of five nodes with a 2-node element, a triangle that lists node 2
twice, and a 5-node element. -/
def oddSurface : FESurface :=
  ⟨meshOf [⟨0, 0, 0⟩, ⟨1, 0, 0⟩, ⟨2, 0, 0⟩, ⟨0, 1, 0⟩, ⟨1, 1, 0⟩],
    [⟨[0, 1], [0, 0]⟩, ⟨[2, 2, 3], [0, 0, 0]⟩, ⟨[0, 1, 2, 3, 4], [0, 0, 0, 0, 0]⟩], []⟩

/-! ## `PointOnSurface`, `Metric0`, `CoBaseVectors0` -/

/-- One pass of `q += y[l]*H[l]` in a loop that reads assigned entries only (`l < ne` in
`SurfaceNormal`); the read of an entry without a value is kept apart. -/
def addScaled (H : ℕ → Option ℚ) (ys : List Vec3) (q : Run Vec3) (i : ℕ) : Run Vec3 :=
  match q with
  | .error e => .error e
  | .ok q0 =>
    match H i with
    | none => .error .uninitialisedRead
    | some h => .ok (q0 + (yAt ys i).scale h)

/-- The derivative arrays `Hr[4]`, `Hs[4]` (`H0`, `H1` in `CoBaseVectors0`) as `Metric0`,
`SurfaceNormal` and `CoBaseVectors0` set them: four entries if the node count is 4, the
entries 0, 1, 2 if it is 3, none otherwise.  `none` is an entry never assigned. -/
def derivShape (n : ℕ) (r s : ℚ) : (ℕ → Option ℚ) × (ℕ → Option ℚ) :=
  if n = 4 then
    (fun i => match i with
      | 0 => some (-(1/4) * (1 - s))
      | 1 => some ((1/4) * (1 - s))
      | 2 => some ((1/4) * (1 + s))
      | 3 => some (-(1/4) * (1 + s))
      | _ => none,
     fun i => match i with
      | 0 => some (-(1/4) * (1 - r))
      | 1 => some (-(1/4) * (1 + r))
      | 2 => some ((1/4) * (1 + r))
      | 3 => some ((1/4) * (1 - r))
      | _ => none)
  else if n = 3 then
    (fun i => match i with
      | 0 => some (-1)
      | 1 => some 1
      | 2 => some 0
      | _ => none,
     fun i => match i with
      | 0 => some (-1)
      | 1 => some 0
      | 2 => some 1
      | _ => none)
  else (fun _ => none, fun _ => none)

/-- Modelled from the spec: the exception class `MaterialError` is not among the sources;
it carries the message given to its constructor. -/
structure MaterialError where
  msg : String
  deriving DecidableEq, Repr

/-- The parameters of `FEDamageMooneyRivlin`. -/
structure FEDamageMooneyRivlin where
  c1 : ℚ
  c2 : ℚ
  m_beta : ℚ
  m_smin : ℚ
  m_smax : ℚ

/-- Embedding of `FEDamageMooneyRivlin::Init`.  The base-class function
`FEUncoupledMaterial::Init` is not among the sources: `baseInit` is the outcome of running
it, and it is run only where the model refers to `baseInit`. -/
def FEDamageMooneyRivlin.Init (m : FEDamageMooneyRivlin)
    (baseInit : Except MaterialError Unit) : Except MaterialError Unit :=
  if m.c1 ≤ 0 then .error ⟨"c1 must be a positive number"⟩
  else if m.c1 + m.c2 ≤ 0 then .error ⟨"c1 + c2 must be a positive number."⟩
  else baseInit

/-! ## `FEMortarTiedContact::Augment` -/

/-- A vector with real coordinates, for results that pass through `sqrt`. -/
structure Vec3R where
  x : ℝ
  y : ℝ
  z : ℝ

/-- Modelled from the spec: `vec3d::norm()`, the Euclidean length
`sqrt(x*x + y*y + z*z)` (class `vec3d` is not among the sources). -/
noncomputable def Vec3.norm (a : Vec3) : ℝ := Real.sqrt ((a.norm2 : ℚ) : ℝ)

/-- Modelled from the spec: `vec3d::unit()`, which divides the vector by its length `d`
unless `d` is zero (class `vec3d` is not among the sources).  The test `d != 0` is made on
the squared length. -/
noncomputable def Vec3.unit (a : Vec3) : Vec3R :=
  if a.norm2 = 0 then ⟨a.x, a.y, a.z⟩
  else ⟨(a.x : ℝ) / a.norm, (a.y : ℝ) / a.norm, (a.z : ℝ) / a.norm⟩

/-- Embedding of `FESurface::SurfaceNormal(el, r, s)`: current positions, the derivative
arrays for 4 or 3 nodes (`assert(false)` otherwise), the tangents `xr`, `xs` summed over
`l < ne`, and the normalised cross product. -/
noncomputable def FESurface.SurfaceNormal (S : FESurface) (el : FESurfaceElement)
    (r s : ℚ) : Run Vec3R :=
  let ne := el.Nodes
  if 4 < ne then .error .indexOutOfRange
  else
    match nodalPositions S.m_pmesh FENode.m_rt el.m_node with
    | .error e => .error e
    | .ok ys =>
      if ne = 4 ∨ ne = 3 then
        match (List.range ne).foldl (addScaled (derivShape ne r s).1 ys) (.ok Vec3.zero),
              (List.range ne).foldl (addScaled (derivShape ne r s).2 ys) (.ok Vec3.zero) with
        | .ok xr, .ok xs => .ok (xr.cross xs).unit
        | .error e, _ => .error e
        | _, .error e => .error e
      else .error .assertFailed

/-- The tangent vectors `xr = sum_l y[l]*Hr[l]` and `xs = sum_l y[l]*Hs[l]` of an element
with three or four nodes at `(r,s)`. -/
def tangentsAt (ys : List Vec3) (r s : ℚ) : Vec3 × Vec3 :=
  match ys with
  | [y0, y1, y2] => (pt3 y0 y1 y2 (-1) 1 0, pt3 y0 y1 y2 (-1) 0 1)
  | [y0, y1, y2, y3] =>
    (pt4 y0 y1 y2 y3 (-(1/4) * (1 - s)) ((1/4) * (1 - s)) ((1/4) * (1 + s)) (-(1/4) * (1 + s)),
     pt4 y0 y1 y2 y3 (-(1/4) * (1 - r)) (-(1/4) * (1 + r)) ((1/4) * (1 + r)) ((1/4) * (1 - r)))
  | _ => (Vec3.zero, Vec3.zero)

/-- Two vectors are linearly independent. -/
def LinIndep (u v : Vec3) : Prop :=
  ∀ a b : ℚ, u.scale a + v.scale b = 0 → a = 0 ∧ b = 0

/-- Modelled from the spec: the integration data of a surface element (part of class
`FESurfaceElement`, not among the sources): the weights `GaussWeights()`, one per
integration point, and the rows `Gr(n)`, `Gs(n)` of shape function derivatives, one row per
integration point and one entry per node. -/
structure ElementIntegration where
  gw : List ℚ
  Gr : List (List ℚ)
  Gs : List (List ℚ)

/-- Number of integration points, `el.GaussPoints()`. -/
def ElementIntegration.GaussPoints (q : ElementIntegration) : ℕ := q.gw.length

/-- Checked read of an array of doubles. -/
def readAt (a : List ℚ) (k : ℕ) : Run ℚ :=
  match a[k]? with
  | some v => .ok v
  | none => .error .indexOutOfRange

/-- One pass of the inner loop of `FaceArea`: `dx.x += G[k]*r0[k].x` and likewise for `y`,
`z`. -/
def addJacobian (G : List ℚ) (r0 : List Vec3) (d : Run Vec3) (k : ℕ) : Run Vec3 :=
  match d with
  | .error e => .error e
  | .ok d0 =>
    match readAt G k with
    | .error e => .error e
    | .ok g => .ok ⟨d0.x + g * (yAt r0 k).x, d0.y + g * (yAt r0 k).y, d0.z + g * (yAt r0 k).z⟩

/-- The weight and the vector `dxr ^ dxs` of the pass `n` of the outer loop of `FaceArea`
(the term added is the weight times the length of the vector). -/
def areaTerm (neln : ℕ) (r0 : List Vec3) (q : ElementIntegration) (n : ℕ) : Run (ℚ × Vec3) :=
  match q.Gr[n]?, q.Gs[n]? with
  | some Gr, some Gs =>
    match (List.range neln).foldl (addJacobian Gr r0) (.ok Vec3.zero),
          (List.range neln).foldl (addJacobian Gs r0) (.ok Vec3.zero) with
    | .ok dxr, .ok dxs =>
      match readAt q.gw n with
      | .error e => .error e
      | .ok w => .ok (w, dxr.cross dxs)
    | .error e, _ => .error e
    | _, .error e => .error e
  | _, _ => .error .indexOutOfRange

/-- One pass `area += w[n]*detJ` of the outer loop. -/
noncomputable def addArea (neln : ℕ) (r0 : List Vec3) (q : ElementIntegration)
    (area : Run ℝ) (n : ℕ) : Run ℝ :=
  match area with
  | .error e => .error e
  | .ok a =>
    match areaTerm neln r0 q n with
    | .error e => .error e
    | .ok (w, v) => .ok (a + (w : ℝ) * v.norm)

/-- Embedding of `FESurface::FaceArea`: `mesh.UnpackElement(el)` provides the reference
positions `r0` of the element nodes, and the outer loop runs over `n < neln`. -/
noncomputable def FESurface.FaceArea (S : FESurface) (el : FESurfaceElement)
    (q : ElementIntegration) : Run ℝ :=
  let neln := el.Nodes
  match nodalPositions S.m_pmesh FENode.m_r0 el.m_node with
  | .error e => .error e
  | .ok r0 => (List.range neln).foldl (addArea neln r0 q) (.ok 0)

/-- The quadrature sum in the words of the claim: one term per integration point of the
element, the Gauss weight times the length of the cross product of the two
reference-configuration tangent vectors at that point. -/
noncomputable def quadratureArea (S : FESurface) (el : FESurfaceElement)
    (q : ElementIntegration) : Run ℝ :=
  match nodalPositions S.m_pmesh FENode.m_r0 el.m_node with
  | .error e => .error e
  | .ok r0 => (List.range q.GaussPoints).foldl (addArea el.Nodes r0 q) (.ok 0)

/-- The one-point rule of a 3-node triangle: weight 1/2 at the centroid. -/
def triRule1 : ElementIntegration := ⟨[1/2], [[-1, 1, 0]], [[-1, 0, 1]]⟩

/-- The three-point rule of a 3-node triangle: weights 1/6. -/
def triRule3 : ElementIntegration :=
  ⟨[1/6, 1/6, 1/6], [[-1, 1, 0], [-1, 1, 0], [-1, 1, 0]], [[-1, 0, 1], [-1, 0, 1], [-1, 0, 1]]⟩

/-- The four-point rule of a 3-node triangle: weight -27/96 at the centroid and 25/96 at
three inner points. -/
def triRule4 : ElementIntegration :=
  ⟨[-27/96, 25/96, 25/96, 25/96],
    [[-1, 1, 0], [-1, 1, 0], [-1, 1, 0], [-1, 1, 0]],
    [[-1, 0, 1], [-1, 0, 1], [-1, 0, 1], [-1, 0, 1]]⟩

/-! ## `FEM::FindParameter` -/

/-- Modelled from the spec: the type tag `m_itype` of a material parameter (class `FEParam`
is not among the sources); `other` stands for every tag that is neither `FE_PARAM_DOUBLE`
nor `FE_PARAM_DOUBLEV`. -/
inductive FEParamType where
  | FE_PARAM_DOUBLE
  | FE_PARAM_DOUBLEV
  | other
  deriving DecidableEq, Repr

/-- Modelled from the spec: a material parameter (class `FEParam`, not among the sources)
with its name, type tag and dimension `m_ndim`. -/
structure FEParam where
  m_szname : List Char
  m_itype : FEParamType
  m_ndim : ℤ
  deriving DecidableEq, Repr

/-- Modelled from the spec: a material (class `FEMaterial`, not among the sources) with its
name `GetName()` and its parameter list `GetParameterList()`. -/
structure FEMaterial where
  m_szname : List Char
  params : List FEParam
  deriving DecidableEq, Repr

/-- Modelled from the spec: a rigid body (class `FERigidBody`, not among the sources), of
which `FindParameter` reads the material number `m_mat`. -/
structure FERigidBody where
  m_mat : ℤ
  deriving DecidableEq, Repr

/-- The fields of `FEM` that `FindParameter` reads: the materials (`Materials()`,
`GetMaterial(i)`) and the rigid bodies (`m_nrb`, `m_RB`). -/
structure FEM where
  m_MAT : List FEMaterial
  m_RB : List FERigidBody

/-- What a returned `double*` points to. -/
inductive ParamAddr where
  | matValue (nmat : ℕ) (param : List Char)
  | matEntry (nmat : ℕ) (param : List Char) (index : ℤ)
  | rigidForce (rb : ℕ) (component : List Char)
  deriving DecidableEq, Repr

/-- The loop over the materials, entered at material number `i` with the materials `ms`
still to visit: the first material whose name equals `szmat` ends the loop with
`pmat`, `nmat` set to it; a pass without match ends with `pmat = 0`. -/
def matchMaterial (szmat : List Char) : List FEMaterial → ℕ → Option (ℕ × FEMaterial)
  | [], _ => none
  | m :: ms, i => if szmat = m.m_szname then some (i, m) else matchMaterial szmat ms (i + 1)

/-- Modelled from the spec: `FEParameterList::Find` (not among the sources), the first
parameter of the list with the given name. -/
def findParam (szvar : List Char) (pl : List FEParam) : Option FEParam :=
  pl.find? (fun p => decide (p.m_szname = szvar))

/-- The names of the rigid body components `Fx`, `Fy`, `Fz`, `Mx`, `My`, `Mz`. -/
def rigidComponents : List (List Char) :=
  ["Fx".toList, "Fy".toList, "Fz".toList, "Mx".toList, "My".toList, "Mz".toList]

/-- The loop over the rigid bodies, entered at body number `i`. -/
def matchRigid (nmat : ℕ) (szvar : List Char) : List FERigidBody → ℕ → Option ParamAddr
  | [], _ => none
  | rb :: rbs, i =>
    if rb.m_mat = (nmat : ℤ) ∧ szvar ∈ rigidComponents then some (.rigidForce i szvar)
    else matchRigid nmat szvar rbs (i + 1)

/-- Embedding of `FEM::FindParameter`; `none` is the null pointer.  `atoi` is the C
library function.  The name is copied with `strcpy` into `char szname[256]`, which holds
names of at most 255 characters.  The pointer `pmat` is declared without a value and is
assigned only inside the loop over the materials. -/
def FEM.FindParameter (fem : FEM) (atoi : List Char → ℤ) (szparam : List Char) :
    Run (Option ParamAddr) :=
  if 256 ≤ szparam.length then .error .indexOutOfRange
  else if '.' ∉ szparam then .ok none
  else
    let szmat := szparam.takeWhile (fun c => c ≠ '.')
    let szvar0 := (szparam.dropWhile (fun c => c ≠ '.')).tail
    match fem.m_MAT with
    | [] => .error .uninitialisedRead
    | m :: ms =>
      match matchMaterial szmat (m :: ms) 0 with
      | none => .ok none
      | some (nmat, pmat) =>
        let szvar := szvar0.takeWhile (fun c => c ≠ '[')
        let szarg := (szvar0.dropWhile (fun c => c ≠ '[')).tail
        if '[' ∈ szvar0 ∧ ']' ∉ szarg then .error .assertFailed
        else
          let index : ℤ := if '[' ∈ szvar0 then atoi szarg else -1
          match findParam szvar pmat.params with
          | some pp =>
            match pp.m_itype with
            | .FE_PARAM_DOUBLE =>
              if index < 0 then .ok (some (.matValue nmat szvar)) else .error .assertFailed
            | .FE_PARAM_DOUBLEV =>
              if 0 ≤ index ∧ index < pp.m_ndim then .ok (some (.matEntry nmat szvar index))
              else .error .assertFailed
            | .other => .error .assertFailed
          | none => .ok (matchRigid nmat szvar fem.m_RB 0)

/-- A model without materials and without rigid bodies. -/
def emptyModel : FEM := ⟨[], []⟩

/-- A model with two materials of the same name `mat`, the first with a parameter `c1`,
the second with a parameter `c2`. -/
def twinModel : FEM :=
  ⟨[⟨"mat".toList, [⟨"c1".toList, .FE_PARAM_DOUBLE, 1⟩]⟩,
    ⟨"mat".toList, [⟨"c2".toList, .FE_PARAM_DOUBLE, 1⟩]⟩], []⟩

/-! ## Binary64 arithmetic -/

/-- A value of the C++ type `double` (IEEE 754 binary64): a finite number
`(-1)^s * m * 2^e`, an infinity with its sign, or NaN.  Finite numbers are kept in the one
form the format has for them: `m < 2^53`, `-1074 <= e <= 971`, and `2^52 <= m` unless
`e = -1074` (subnormal numbers and the two zeros `m = 0`). -/
inductive F64 where
  | fin (s : Bool) (m : ℕ) (e : ℤ)
  | inf (s : Bool)
  | nan
  deriving DecidableEq, Repr

/-- The least `k`, counted up from the given one, with `n < 2^(2^k)`; the first argument
bounds the number of steps and is there for the recursion only. -/
def log2Span : ℕ → ℕ → ℕ → ℕ
  | 0, _, k => k
  | f + 1, n, k => if n < 2 ^ 2 ^ k then k else log2Span f n (k + 1)

/-- Position of the leading bit of `n < 2^(2^k)`, added to `acc`: the bits of the position
are found from the highest, bit `k - 1`, down. -/
def log2Bits : ℕ → ℕ → ℕ → ℕ
  | 0, _, acc => acc
  | k + 1, n, acc =>
    if 2 ^ 2 ^ k ≤ n then log2Bits k (n / 2 ^ 2 ^ k) (acc + 2 ^ k) else log2Bits k n acc

/-- Position of the leading bit of `n`, the largest `l` with `2^l <= n` (`0` for `n = 0`). -/
def log2 (n : ℕ) : ℕ := log2Bits (log2Span n n 0) n 0

/-- The integer `l` with `2^l <= num/den < 2^(l+1)`, for positive `num`, `den`. -/
def ilog2Q (num den : ℕ) : ℤ :=
  let l : ℤ := (log2 num : ℤ) - (log2 den : ℤ)
  if 0 ≤ l then (if den * 2 ^ l.toNat ≤ num then l else l - 1)
  else (if den ≤ num * 2 ^ (-l).toNat then l else l - 1)

/-- Rounding in the default mode (to nearest, ties to even) of the exact value
`(-1)^s * (num/den) * 2^e`, `den > 0`, to the binary format with `p` bits of precision,
least quantum `2^emin` and largest exponent of the quantum `emax`: the quantum `2^t` of
the result is fixed by the magnitude (`t >= emin`), the quotient by the quantum is rounded
to an integer, a carry to `2^p` moves to the next binade, and a result beyond the largest
finite number is an infinity. -/
def roundP (p : ℕ) (emin emax : ℤ) (s : Bool) (num den : ℕ) (e : ℤ) : F64 :=
  if num = 0 then .fin s 0 emin
  else
    let L := ilog2Q num den + e
    let t := max (L - ((p : ℤ) - 1)) emin
    let sh := e - t
    let N := if 0 ≤ sh then num * 2 ^ sh.toNat else num
    let D := if 0 ≤ sh then den else den * 2 ^ (-sh).toNat
    let Q := N / D
    let R := N % D
    let Q1 := if D < 2 * R ∨ (2 * R = D ∧ Q % 2 = 1) then Q + 1 else Q
    if Q1 = 2 ^ p then (if emax < t + 1 then .inf s else .fin s (2 ^ (p - 1)) (t + 1))
    else if emax < t then .inf s
    else .fin s Q1 t

/-- Rounding to binary64 (`double`): 53 bits, quantum from `2^-1074` to `2^971`. -/
def roundQ (s : Bool) (num den : ℕ) (e : ℤ) : F64 := roundP 53 (-1074) 971 s num den e

namespace F64

/-- The number `+0.0`. -/
def zero : F64 := .fin false 0 (-1074)

/-- Unary minus: the sign is flipped. -/
def neg : F64 → F64
  | .fin s m e => .fin (!s) m e
  | .inf s => .inf (!s)
  | .nan => .nan

/-- Sum of two doubles, `a + b`: the exact sum rounded; an exact zero sum of two numbers of
opposite sign is `+0`. -/
def add : F64 → F64 → F64
  | .nan, _ => .nan
  | _, .nan => .nan
  | .inf s1, .inf s2 => if s1 = s2 then .inf s1 else .nan
  | .inf s, .fin _ _ _ => .inf s
  | .fin _ _ _, .inf s => .inf s
  | .fin s1 m1 e1, .fin s2 m2 e2 =>
    if m1 = 0 then (if m2 = 0 then .fin (s1 && s2) 0 (-1074) else .fin s2 m2 e2)
    else if m2 = 0 then .fin s1 m1 e1
    else
      let t := min e1 e2
      let a := m1 * 2 ^ (e1 - t).toNat
      let b := m2 * 2 ^ (e2 - t).toNat
      if s1 = s2 then roundQ s1 (a + b) 1 t
      else if a = b then .fin false 0 (-1074)
      else if b < a then roundQ s1 (a - b) 1 t
      else roundQ s2 (b - a) 1 t

/-- Difference of two doubles, `a - b`. -/
def sub (a b : F64) : F64 := add a (neg b)

/-- Product of two doubles, `a * b`. -/
def mul : F64 → F64 → F64
  | .nan, _ => .nan
  | _, .nan => .nan
  | .inf s1, .inf s2 => .inf (xor s1 s2)
  | .inf s1, .fin s2 m _ => if m = 0 then .nan else .inf (xor s1 s2)
  | .fin s1 m _, .inf s2 => if m = 0 then .nan else .inf (xor s1 s2)
  | .fin s1 m1 e1, .fin s2 m2 e2 => roundQ (xor s1 s2) (m1 * m2) 1 (e1 + e2)

/-- Quotient of two doubles, `a / b`: a nonzero number over zero is an infinity, zero over
zero is NaN. -/
def div : F64 → F64 → F64
  | .nan, _ => .nan
  | _, .nan => .nan
  | .inf _, .inf _ => .nan
  | .inf s1, .fin s2 _ _ => .inf (xor s1 s2)
  | .fin s1 _ _, .inf s2 => .fin (xor s1 s2) 0 (-1074)
  | .fin s1 m1 e1, .fin s2 m2 e2 =>
    if m2 = 0 then (if m1 = 0 then .nan else .inf (xor s1 s2))
    else roundQ (xor s1 s2) m1 m2 (e1 - e2)

/-- Integer square root, bit by bit from bit `i - 1` down. -/
def isqrtAux (n : ℕ) : ℕ → ℕ → ℕ
  | 0, r => r
  | i + 1, r => isqrtAux n i (if (r + 2 ^ i) * (r + 2 ^ i) ≤ n then r + 2 ^ i else r)

/-- Integer square root, the largest `r` with `r * r <= n`. -/
def isqrt (n : ℕ) : ℕ := isqrtAux n (log2 n / 2 + 1) 0

/-- Square root `sqrt(a)`, correctly rounded: the integer square root of the mantissa
scaled by `2^128` carries more than 53 bits, and one more bit below records whether it is
exact. -/
def sqrt : F64 → F64
  | .nan => .nan
  | .inf s => if s then .nan else .inf false
  | .fin s m e =>
    if m = 0 then .fin s 0 (-1074)
    else if s then .nan
    else
      let m1 := if e % 2 = 0 then m else 2 * m
      let e1 := if e % 2 = 0 then e else e - 1
      let r := isqrt (m1 * 2 ^ 128)
      roundQ false (2 * r + (if r * r = m1 * 2 ^ 128 then 0 else 1)) 1 (e1 / 2 - 65)

/-- A finite double as an integer multiple of `2^t`, for `t` not above its exponent. -/
def scaled (s : Bool) (m : ℕ) (e t : ℤ) : ℤ :=
  (if s then -1 else 1) * ((m * 2 ^ (e - t).toNat : ℕ) : ℤ)

/-- Comparison `a < b` of two doubles; false if one of them is NaN. -/
def lt : F64 → F64 → Bool
  | .nan, _ => false
  | _, .nan => false
  | .inf s1, .inf s2 => s1 && !s2
  | .inf s, .fin _ _ _ => s
  | .fin _ _ _, .inf s => !s
  | .fin s1 m1 e1, .fin s2 m2 e2 =>
    decide (scaled s1 m1 e1 (min e1 e2) < scaled s2 m2 e2 (min e1 e2))

/-- Comparison `a <= b` of two doubles; false if one of them is NaN. -/
def le : F64 → F64 → Bool
  | .nan, _ => false
  | _, .nan => false
  | .inf s1, .inf s2 => s1 || !s2
  | .inf s, .fin _ _ _ => s
  | .fin _ _ _, .inf s => !s
  | .fin s1 m1 e1, .fin s2 m2 e2 =>
    decide (scaled s1 m1 e1 (min e1 e2) ≤ scaled s2 m2 e2 (min e1 e2))

/-- Comparison `a > b`. -/
def gt (a b : F64) : Bool := lt b a

/-- Comparison `a >= b`. -/
def ge (a b : F64) : Bool := le b a

/-- The double of an integer constant or of an `int` converted to `double`. -/
def ofInt (z : ℤ) : F64 := roundQ (decide (z < 0)) z.natAbs 1 0

/-- The double that a decimal constant `num/den` (negated if `s`) denotes: the nearest
one. -/
def ofDec (s : Bool) (num den : ℕ) : F64 := roundQ s num den 0

/-- A double that is a number (not an infinity, not NaN). -/
def isFinite : F64 → Bool
  | .fin _ _ _ => true
  | _ => false

/-- The rational number that a finite double is (`0` for infinities and NaN). -/
def val : F64 → ℚ
  | .fin s m e => (if s then -1 else 1) * (m : ℚ) * (2 : ℚ) ^ e
  | _ => 0

end F64

/-- Modelled from the spec: the class `vec3d` (FECore) is not among the sources; it is a
triple of `double` coordinates `(x,y,z)`, and its default constructor gives the zero
vector. -/
structure Vec3D where
  x : F64
  y : F64
  z : F64
  deriving DecidableEq, Repr

namespace Vec3D

/-- Modelled from the spec: `vec3d(0,0,0)`, also the value of a default-constructed
`vec3d`. -/
def zero : Vec3D := ⟨F64.zero, F64.zero, F64.zero⟩

/-- Modelled from the spec: `a + b` of `vec3d` (also `a += b`), coordinate by coordinate. -/
def add (a b : Vec3D) : Vec3D := ⟨F64.add a.x b.x, F64.add a.y b.y, F64.add a.z b.z⟩

/-- Modelled from the spec: `a * g` of `vec3d`, every coordinate times the `double`. -/
def scale (a : Vec3D) (g : F64) : Vec3D := ⟨F64.mul a.x g, F64.mul a.y g, F64.mul a.z g⟩

/-- Modelled from the spec: `a * b` of `vec3d`, the dot product `x*r.x + y*r.y + z*r.z`
summed from the left. -/
def dot (a b : Vec3D) : F64 :=
  F64.add (F64.add (F64.mul a.x b.x) (F64.mul a.y b.y)) (F64.mul a.z b.z)

end Vec3D

/-! ## The surface functions in `double` arithmetic -/

/-- Modelled from the spec: a mesh node (class `FENode`, not among the sources) with its
reference position `m_r0` and its current position `m_rt`, in `double` coordinates. -/
structure FENodeD where
  m_r0 : Vec3D
  m_rt : Vec3D

/-- Modelled from the spec: the mesh (class `FEMesh`, not among the sources) with its nodes
in `double` coordinates. -/
structure FEMeshD where
  m_Node : List FENodeD

/-- Checked `mesh.Node(i)`. -/
def FEMeshD.Node (mesh : FEMeshD) (i : ℕ) : Run FENodeD :=
  match mesh.m_Node[i]? with
  | some nd => .ok nd
  | none => .error .indexOutOfRange

/-- The surface, of which the functions below read the mesh `*m_pmesh` only. -/
structure FESurfaceD where
  m_pmesh : FEMeshD

/-- Gather loop `for (i=0; i<ne; ++i) y[i] = mesh.Node(el.m_node[i]).m_rt;`. -/
def nodalPositionsD (mesh : FEMeshD) : List ℕ → Run (List Vec3D)
  | [] => .ok []
  | m :: ms =>
    match mesh.Node m with
    | .error e => .error e
    | .ok nd =>
      match nodalPositionsD mesh ms with
      | .error e => .error e
      | .ok ys => .ok (nd.m_rt :: ys)

/-- The local array `vec3d y[4]` read at index `i`. -/
def yAtD (ys : List Vec3D) (i : ℕ) : Vec3D := ys.getD i Vec3D.zero

/-- Table `gr[4] = {-1, +1, +1, -1}` as doubles. -/
def grD (i : ℕ) : F64 := F64.ofInt (if i = 1 ∨ i = 2 then 1 else -1)

/-- Table `gs[4] = {-1, -1, +1, +1}` as doubles. -/
def gsD (i : ℕ) : F64 := F64.ofInt (if i = 2 ∨ i = 3 then 1 else -1)

/-- The local arrays `H`, `Hr`, `Hs`, `Hrs` of `ProjectToSurface`, as doubles. -/
structure ShapeDataD where
  H : ℕ → F64
  Hr : ℕ → F64
  Hs : ℕ → F64
  Hrs : ℕ → F64

/-- Shape functions and derivatives as `ProjectToSurface` sets them at the current guess,
every operation rounded: `0.25*(1+gr[i]*r)*(1+gs[i]*s)`, `0.25*gr[i]*(1+gs[i]*s)`,
`0.25*gs[i]*(1+gr[i]*r)`, `0.25*gr[i]*gs[i]` if `ne == 4`, and `1 - r - s`, `r`, `s` with
the constant derivatives otherwise.  In the triangle branch the entries beyond 2 are not
assigned and, with `ne <= 3`, never read; they are given the value 0 here. -/
def projShapeD (ne : ℕ) (r s : F64) : ShapeDataD :=
  if ne = 4 then
    { H := fun i => F64.mul
        (F64.mul (F64.ofDec false 1 4) (F64.add (F64.ofInt 1) (F64.mul (grD i) r)))
        (F64.add (F64.ofInt 1) (F64.mul (gsD i) s))
      Hr := fun i => F64.mul (F64.mul (F64.ofDec false 1 4) (grD i))
        (F64.add (F64.ofInt 1) (F64.mul (gsD i) s))
      Hs := fun i => F64.mul (F64.mul (F64.ofDec false 1 4) (gsD i))
        (F64.add (F64.ofInt 1) (F64.mul (grD i) r))
      Hrs := fun i => F64.mul (F64.mul (F64.ofDec false 1 4) (grD i)) (gsD i) }
  else
    { H := fun i => match i with
        | 0 => F64.sub (F64.sub (F64.ofInt 1) r) s
        | 1 => r
        | 2 => s
        | _ => F64.zero
      Hr := fun i => match i with
        | 0 => F64.ofInt (-1)
        | 1 => F64.ofInt 1
        | 2 => F64.ofInt 0
        | _ => F64.zero
      Hs := fun i => match i with
        | 0 => F64.ofInt (-1)
        | 1 => F64.ofInt 0
        | 2 => F64.ofInt 1
        | _ => F64.zero
      Hrs := fun _ => F64.ofInt 0 }

/-- The locals `R[2]`, `A[2][2]` and `q` of `ProjectToSurface`, as doubles. -/
structure NewtonSystemD where
  R0 : F64
  R1 : F64
  A00 : F64
  A01 : F64
  A10 : F64
  A11 : F64
  q : Vec3D
  deriving DecidableEq, Repr

/-- Body of the inner loop over `j` (source lines 133-140), statement by statement. -/
def assembleInnerD (ys : List Vec3D) (sh : ShapeDataD) (i : ℕ) (st : NewtonSystemD) (j : ℕ) :
    NewtonSystemD :=
  let yy := Vec3D.dot (yAtD ys i) (yAtD ys j)
  { st with
    R0 := F64.sub st.R0 (F64.mul (F64.mul (F64.neg (sh.H j)) (sh.Hr i)) yy)
    R1 := F64.sub st.R1 (F64.mul (F64.mul (F64.neg (sh.H j)) (sh.Hs i)) yy)
    A00 := F64.add st.A00 (F64.mul (F64.neg yy) (F64.mul (sh.Hr i) (sh.Hr j)))
    A11 := F64.add st.A11 (F64.mul (F64.neg yy) (F64.mul (sh.Hs i) (sh.Hs j)))
    A01 := F64.add st.A01 (F64.mul (F64.neg yy)
      (F64.add (F64.mul (sh.Hs j) (sh.Hr i)) (F64.mul (sh.H i) (sh.Hrs j))))
    A10 := F64.add st.A10 (F64.mul (F64.neg yy)
      (F64.add (F64.mul (sh.Hr j) (sh.Hs i)) (F64.mul (sh.H i) (sh.Hrs j)))) }

/-- Body of the outer loop over `i` (source lines 125-143), statement by statement. -/
def assembleOuterD (ne : ℕ) (ys : List Vec3D) (x : Vec3D) (sh : ShapeDataD)
    (st : NewtonSystemD) (i : ℕ) : NewtonSystemD :=
  let xy := Vec3D.dot x (yAtD ys i)
  let st1 : NewtonSystemD :=
    { st with
      R0 := F64.sub st.R0 (F64.mul xy (sh.Hr i))
      R1 := F64.sub st.R1 (F64.mul xy (sh.Hs i))
      A01 := F64.add st.A01 (F64.mul xy (sh.Hrs i))
      A10 := F64.add st.A10 (F64.mul xy (sh.Hrs i)) }
  let st2 := (List.range ne).foldl (assembleInnerD ys sh i) st1
  { st2 with q := Vec3D.add st2.q (Vec3D.scale (yAtD ys i) (sh.H i)) }

/-- Assembly of the system of equations (source lines 119-144), starting from `q = 0`,
`R = 0`, `A = 0`. -/
def assembleD (ne : ℕ) (ys : List Vec3D) (x : Vec3D) (sh : ShapeDataD) : NewtonSystemD :=
  (List.range ne).foldl (assembleOuterD ne ys x sh)
    ⟨F64.zero, F64.zero, F64.zero, F64.zero, F64.zero, F64.zero, Vec3D.zero⟩

/-- The system assembled in one pass of the loop at the guess `(r,s)`. -/
def systemAtD (ne : ℕ) (ys : List Vec3D) (x : Vec3D) (r s : F64) : NewtonSystemD :=
  assembleD ne ys x (projShapeD ne r s)

/-- Determinant `D = A[0][0]*A[1][1] - A[0][1]*A[1][0]`. -/
def NewtonSystemD.D (sys : NewtonSystemD) : F64 :=
  F64.sub (F64.mul sys.A00 sys.A11) (F64.mul sys.A01 sys.A10)

/-- Step component `u[0] = (A[1][1]*R[0] - A[0][1]*R[1])/D`. -/
def NewtonSystemD.u0 (sys : NewtonSystemD) : F64 :=
  F64.div (F64.sub (F64.mul sys.A11 sys.R0) (F64.mul sys.A01 sys.R1)) sys.D

/-- Step component `u[1] = (A[0][0]*R[1] - A[1][0]*R[0])/D`. -/
def NewtonSystemD.u1 (sys : NewtonSystemD) : F64 :=
  F64.div (F64.sub (F64.mul sys.A00 sys.R1) (F64.mul sys.A10 sys.R0)) sys.D

/-- The values one pass of the loop leaves: the point `q` assembled at the guess the pass
started from, the updated coordinates `r += u[0]`, `s += u[1]`, and
`normu = sqrt(u[0]*u[0]+u[1]*u[1])`. -/
structure PassD where
  q : Vec3D
  r : F64
  s : F64
  normu : F64
  deriving DecidableEq, Repr

/-- One pass of the body of the `do` loop, entered with the guess `(r,s)`. -/
def passD (ne : ℕ) (ys : List Vec3D) (x : Vec3D) (r s : F64) : PassD :=
  let sys := systemAtD ne ys x r s
  { q := sys.q
    r := F64.add r sys.u0
    s := F64.add s sys.u1
    normu := F64.sqrt (F64.add (F64.mul sys.u0 sys.u0) (F64.mul sys.u1 sys.u1)) }

/-- The constant `1e-5` as a double. -/
def tolD : F64 := F64.ofDec false 1 100000

/-- What a call of `ProjectToSurface` leaves behind: the returned point `q`, the coordinates
`r`, `s` written back through the references, and the values of the locals `n` (passes
made) and `normu` at the return. -/
structure ProjectionD where
  q : Vec3D
  r : F64
  s : F64
  n : ℕ
  normu : F64
  deriving DecidableEq, Repr

/-- The `do ... while ((normu > 1e-5) && (n < NMAX))` loop of `ProjectToSurface`, entered
with the guess `(r,s)` and the pass counter `n`.  The first argument bounds the number of
further passes and is there for the recursion only: with `NMAX` or more it is never
used up, since the test `n < NMAX` ends the loop first. -/
def newtonLoopD (ne : ℕ) (ys : List Vec3D) (x : Vec3D) : ℕ → F64 → F64 → ℕ → ProjectionD
  | 0, r, s, n =>
    let p := passD ne ys x r s
    ⟨p.q, p.r, p.s, n + 1, p.normu⟩
  | fuel + 1, r, s, n =>
    let p := passD ne ys x r s
    if F64.gt p.normu tolD && decide (n + 1 < NMAX) then newtonLoopD ne ys x fuel p.r p.s (n + 1)
    else ⟨p.q, p.r, p.s, n + 1, p.normu⟩

/-- Embedding of `FESurface::ProjectToSurface` in `double` arithmetic.  The local array `y`
has four entries, so an element with more than four nodes makes the gather loop write
outside it.  A zero determinant is divided by like any other. -/
def FESurfaceD.ProjectToSurface (S : FESurfaceD) (el : FESurfaceElement) (x : Vec3D)
    (r s : F64) : Run ProjectionD :=
  let ne := el.Nodes
  if 4 < ne then .error .indexOutOfRange
  else
    match nodalPositionsD S.m_pmesh el.m_node with
    | .error e => .error e
    | .ok ys => .ok (newtonLoopD ne ys x NMAX r s 0)

/-- Shape functions `H[4]` as `Local2Global` sets them, every operation rounded; `none`
stands for the `assert(false)` branch. -/
def l2gShapeD (ne : ℕ) (r s : F64) : Option (ℕ → F64) :=
  if ne = 4 then
    some (fun i => match i with
      | 0 => F64.mul (F64.mul (F64.ofDec false 1 4) (F64.sub (F64.ofInt 1) r))
          (F64.sub (F64.ofInt 1) s)
      | 1 => F64.mul (F64.mul (F64.ofDec false 1 4) (F64.add (F64.ofInt 1) r))
          (F64.sub (F64.ofInt 1) s)
      | 2 => F64.mul (F64.mul (F64.ofDec false 1 4) (F64.add (F64.ofInt 1) r))
          (F64.add (F64.ofInt 1) s)
      | _ => F64.mul (F64.mul (F64.ofDec false 1 4) (F64.sub (F64.ofInt 1) r))
          (F64.add (F64.ofInt 1) s))
  else if ne = 3 then
    some (fun i => match i with
      | 0 => F64.sub (F64.sub (F64.ofInt 1) r) s
      | 1 => r
      | _ => s)
  else none

/-- Embedding of `FESurface::Local2Global(el, r, s)` in `double` arithmetic:
`q += y[l]*H[l]` over the element nodes, from the default-constructed `q`. -/
def FESurfaceD.Local2Global (S : FESurfaceD) (el : FESurfaceElement) (r s : F64) :
    Run Vec3D :=
  let ne := el.Nodes
  if 4 < ne then .error .indexOutOfRange
  else
    match nodalPositionsD S.m_pmesh el.m_node with
    | .error e => .error e
    | .ok ys =>
      match l2gShapeD ne r s with
      | none => .error .assertFailed
      | some H =>
        .ok ((List.range ne).foldl (fun q l => Vec3D.add q (Vec3D.scale (yAtD ys l) (H l)))
          Vec3D.zero)

/-- Embedding of `FESurface::IsInsideElement` in `double` arithmetic: the bounds `-1-tol`,
`1+tol`, `-tol` and the sum `r+s` are doubles, each the rounded result of its operation. -/
def FESurfaceD.IsInsideElement (_S : FESurfaceD) (el : FESurfaceElement) (r s tol : F64) :
    Bool :=
  let ne := el.Nodes
  if ne = 4 then
    F64.ge r (F64.sub (F64.ofInt (-1)) tol) && F64.le r (F64.add (F64.ofInt 1) tol)
      && F64.ge s (F64.sub (F64.ofInt (-1)) tol) && F64.le s (F64.add (F64.ofInt 1) tol)
  else
    F64.ge r (F64.neg tol) && F64.ge s (F64.neg tol)
      && F64.le (F64.add r s) (F64.add (F64.ofInt 1) tol)

/-- A mesh whose nodes have the given `double` positions, both as reference and as current
positions. -/
def meshOfD (ps : List Vec3D) : FEMeshD := ⟨ps.map (fun p => ⟨p, p⟩)⟩

/-- The triple of doubles of three integers. -/
def ptD (a b c : ℤ) : Vec3D := ⟨F64.ofInt a, F64.ofInt b, F64.ofInt c⟩

/-! ## Auxiliary definitions for the statements in `double` arithmetic -/

deriving instance DecidableEq for Except

/-- The values that pass number `k + 1` of the `do` loop leaves when the loop is entered
with the guess `(r,s)` and runs that far: pass 1 starts from `(r,s)`, every later pass from
the coordinates the pass before it has left. -/
def passAtD (ne : ℕ) (ys : List Vec3D) (x : Vec3D) : ℕ → F64 → F64 → PassD
  | 0, r, s => passD ne ys x r s
  | k + 1, r, s => passAtD ne ys x k (passD ne ys x r s).r (passD ne ys x r s).s

/-- The exact coordinates of a `vec3d` whose coordinates are numbers. -/
def Vec3D.val (a : Vec3D) : Vec3 := ⟨a.x.val, a.y.val, a.z.val⟩

/-- The unit square `(0,0,0) (1,0,0) (1,1,0) (0,1,0)` in `double` coordinates. -/
def unitSquareD : FESurfaceD := ⟨meshOfD [ptD 0 0 0, ptD 1 0 0, ptD 1 1 0, ptD 0 1 0]⟩

/-- The unit right triangle moved by `10^8` along the x axis, in `double` coordinates. -/
def farTriangleD : FESurfaceD :=
  ⟨meshOfD [ptD 100000000 0 0, ptD 100000001 0 0, ptD 100000000 1 0]⟩

/-- The warped quad `(0,0,0) (1,0,0) (0,1,0) (-2,1,-1)` in `double` coordinates. -/
def warpedQuadD : FESurfaceD :=
  ⟨meshOfD [ptD 0 0 0, ptD 1 0 0, ptD 0 1 0, ptD (-2) 1 (-1)]⟩

/-! ## `Image::Load` -/

/-- Rounding to binary32 (`float`): 24 bits, quantum from `2^-149` to `2^104`. -/
def roundF (s : Bool) (num den : ℕ) (e : ℤ) : F64 := roundP 24 (-149) 104 s num den e

/-- The quotient `(float) n / d.f` of two integers below `2^24` in `float` arithmetic: both
are floats as they are, and the quotient is rounded to a float.  The float is recorded as
the double of the same value. -/
def floatDiv (n d : ℕ) : F64 :=
  match roundF false n d 0 with
  | .fin s m e => roundQ s m 1 e
  | x => x

/-- The fields of `Image`: the dimensions and the voxel array `m_pf` of floats. -/
structure Image where
  m_nx : ℕ
  m_ny : ℕ
  m_nz : ℕ
  m_pf : List F64
  deriving DecidableEq

/-- Modelled from the spec: the enumeration `Image::ImageFormat` is declared in `Image.h`,
which is not among the sources; `other` stands for every enumerator that is neither `RAW8`
nor `RAW16U`. -/
inductive ImageFormat where
  | RAW8
  | RAW16U
  | other
  deriving DecidableEq, Repr

/-- Modelled from the spec: the accessor `Image::value(i, j, k)` is declared in `Image.h`,
which is not among the sources; it is the entry `m_pf[(k*m_ny + j)*m_nx + i]`. -/
def Image.value (im : Image) (i j k : ℕ) : Option F64 :=
  im.m_pf[(k * im.m_ny + j) * im.m_nx + i]?

/-- Largest value of an `int`. -/
def INT_MAX : ℕ := 2 ^ 31 - 1

/-- Index `(k*m_ny + j)*m_nx + i` of the voxel read in the pass `(k, j, i)`. -/
def srcIdx (nx ny : ℕ) (t : ℕ × ℕ × ℕ) : ℕ := (t.1 * ny + t.2.1) * nx + t.2.2

/-- Index `(k*m_ny + (m_ny-j-1))*m_nx + i` of the voxel written in the pass `(k, j, i)`. -/
def dstIdx (nx ny : ℕ) (t : ℕ × ℕ × ℕ) : ℕ := (t.1 * ny + (ny - t.2.1 - 1)) * nx + t.2.2

/-- Body of the `RAW8` loops for the pass `t = (k, j, i)`:
`f = (float) pb[src] / 255.f; m_pf[dst] = f`, with `pb` the buffer of `nsize` bytes. -/
def storeRaw8 (nx ny : ℕ) (pb : List (Fin 256)) (a : Run (List F64)) (t : ℕ × ℕ × ℕ) :
    Run (List F64) :=
  match a with
  | .error e => .error e
  | .ok pf =>
    match pb[srcIdx nx ny t]? with
    | none => .error .indexOutOfRange
    | some b =>
      if dstIdx nx ny t < pf.length then .ok (pf.set (dstIdx nx ny t) (floatDiv (b : ℕ) 255))
      else .error .indexOutOfRange

/-- Body of the `RAW16U` loops for the pass `t = (k, j, i)`: the two bytes at
`pb + 2*src` are read as an `unsigned short` in the byte order of the host
(`hostLittle`), or, with `endianess` set, as `(d[0] << 8) + d[1]`;
`f = (float) n / 65535.f; m_pf[dst] = f`. -/
def storeRaw16 (nx ny : ℕ) (pb : List (Fin 256)) (endianess hostLittle : Bool)
    (a : Run (List F64)) (t : ℕ × ℕ × ℕ) : Run (List F64) :=
  match a with
  | .error e => .error e
  | .ok pf =>
    match pb[2 * srcIdx nx ny t]?, pb[2 * srcIdx nx ny t + 1]? with
    | some d0, some d1 =>
      let n : ℕ :=
        if endianess then (d0 : ℕ) * 256 + (d1 : ℕ)
        else if hostLittle then (d0 : ℕ) + 256 * (d1 : ℕ)
        else (d0 : ℕ) * 256 + (d1 : ℕ)
      if dstIdx nx ny t < pf.length then .ok (pf.set (dstIdx nx ny t) (floatDiv n 65535))
      else .error .indexOutOfRange
    | _, _ => .error .indexOutOfRange

/-- The three nested loops `for k < nz`, `for j < ny`, `for i < nx` around a body. -/
def loadLoops (nx ny nz : ℕ) (body : Run (List F64) → ℕ × ℕ × ℕ → Run (List F64))
    (pf : List F64) : Run (List F64) :=
  (List.range nz).foldl (fun a k =>
    (List.range ny).foldl (fun a1 j =>
      (List.range nx).foldl (fun a2 i => body a2 (k, j, i)) a1) a) (.ok pf)

/-- The buffer `pb` after `pb = new unsigned char[nsize]; fread(pb, nsize, 1, fp)`: the
first bytes are those of the file, as many as it has; the others keep what the fresh
buffer held, `junk`.  The source does not look at the result of `fread`. -/
def readBuffer (nsize : ℕ) (bytes : List (Fin 256)) (junk : ℕ → Fin 256) :
    List (Fin 256) :=
  (List.range nsize).map (fun i => bytes.getD i (junk i))

/-- Embedding of `Image::Load`.  `file` is the content of the file `szfile`, or `none` if
it cannot be opened; `junk` is what the fresh buffer holds before `fread`.  The result is
the returned `bool` and the image after the call. -/
def Image.Load (im : Image) (file : Option (List (Fin 256))) (fmt : ImageFormat)
    (endianess hostLittle : Bool) (junk : ℕ → Fin 256) : Run (Bool × Image) :=
  match fmt with
  | .other => .ok (false, im)
  | _ =>
    let m : ℕ := if fmt = .RAW8 then 1 else 2
    match file with
    | none => .ok (false, im)
    | some bytes =>
      let voxels := im.m_nx * im.m_ny * im.m_nz
      let nsize := voxels * m
      if INT_MAX < nsize then .error .intOverflow
      else
        let pb := readBuffer nsize bytes junk
        let body := if fmt = .RAW8 then storeRaw8 im.m_nx im.m_ny pb
          else storeRaw16 im.m_nx im.m_ny pb endianess hostLittle
        match loadLoops im.m_nx im.m_ny im.m_nz body im.m_pf with
        | .error e => .error e
        | .ok pf => .ok (true, { im with m_pf := pf })

/-- The passes `(k, j, i)` of the three nested loops, in the order in which they are
made. -/
def loopTriples (nx ny nz : ℕ) : List (ℕ × ℕ × ℕ) :=
  (List.range nz).flatMap (fun k =>
    (List.range ny).flatMap (fun j => (List.range nx).map (fun i => (k, j, i))))

/-- A 2 x 2 x 1 image with all voxels zero. -/
def sampleImage : Image := ⟨2, 2, 1, [F64.zero, F64.zero, F64.zero, F64.zero]⟩

/-! ## Collinear nodes, `ContraBaseVectors0` -/

/-- Modelled from the spec: the spring material (class `FESpringMaterial`, not among the
sources), of which the domain calls `force(DL)` and `stiffness(DL)` at the elongation
`DL`. -/
structure FESpringMaterial where
  force : ℝ → ℝ
  stiffness : ℝ → ℝ

/-- Modelled from the spec: a discrete element (class `FEDiscreteElement`, not among the
sources), of which the domain reads the node numbers `m_node[0]` and `m_node[1]`. -/
structure FEDiscreteElement where
  m_node : List ℕ

/-- Fields of `FEDiscreteSpringDomain` used by the embedded functions: the mesh
`*m_pMesh`, the elements `m_Elem` and the material `*m_pMat`. -/
structure FEDiscreteSpringDomain where
  m_pMesh : FEMesh
  m_Elem : List FEDiscreteElement
  m_pMat : FESpringMaterial

/-- The local array `double A[3][3]` of `StiffnessMatrix`, in row order. -/
structure Mat3R where
  a00 : ℝ
  a01 : ℝ
  a02 : ℝ
  a10 : ℝ
  a11 : ℝ
  a12 : ℝ
  a20 : ℝ
  a21 : ℝ
  a22 : ℝ

/-- A vector of the mesh read as a vector with real coordinates. -/
def Vec3.toReal (a : Vec3) : Vec3R := ⟨(a.x : ℝ), (a.y : ℝ), (a.z : ℝ)⟩

/-- The block `A` that `StiffnessMatrix` computes for the spring between the nodes `n1`
and `n2` (source lines 174-193): `e = rt2 - rt1` as it is, the lengths `L0`, `Lt`, the
elongation `DL`, the material force `F` and stiffness `E`, the replacement
`F = 0; Lt = 1; e = (1,1,1)` if `Lt == 0`, and the nine entries. -/
noncomputable def springBlock (mat : FESpringMaterial) (n1 n2 : FENode) : Mat3R :=
  let e0 : Vec3R := (n2.m_rt - n1.m_rt).toReal
  let L0 : ℝ := (n2.m_r0 - n1.m_r0).norm
  let Lt0 : ℝ := (n2.m_rt - n1.m_rt).norm
  let DL : ℝ := Lt0 - L0
  let F0 : ℝ := mat.force DL
  let E : ℝ := mat.stiffness DL
  let F : ℝ := if Lt0 = 0 then 0 else F0
  let Lt : ℝ := if Lt0 = 0 then 1 else Lt0
  let e : Vec3R := if Lt0 = 0 then ⟨1, 1, 1⟩ else e0
  { a00 := (E - F / Lt) * e.x * e.x + F / Lt
    a11 := (E - F / Lt) * e.y * e.y + F / Lt
    a22 := (E - F / Lt) * e.z * e.z + F / Lt
    a01 := (E - F / Lt) * e.x * e.y
    a10 := (E - F / Lt) * e.x * e.y
    a12 := (E - F / Lt) * e.y * e.z
    a21 := (E - F / Lt) * e.y * e.z
    a02 := (E - F / Lt) * e.x * e.z
    a20 := (E - F / Lt) * e.x * e.z }

/-- The 6x6 element matrix `ke` filled from `A` (source lines 195-209), as its six
rows. -/
def elementMatrix (A : Mat3R) : List (List ℝ) :=
  [[A.a00, A.a01, A.a02, -A.a00, -A.a01, -A.a02],
   [A.a10, A.a11, A.a12, -A.a10, -A.a11, -A.a12],
   [A.a20, A.a21, A.a22, -A.a20, -A.a21, -A.a22],
   [-A.a00, -A.a01, -A.a02, A.a00, A.a01, A.a02],
   [-A.a10, -A.a11, -A.a12, A.a10, A.a11, A.a12],
   [-A.a20, -A.a21, -A.a22, A.a20, A.a21, A.a22]]

/-- The two nodes `mesh.Node(el.m_node[0])`, `mesh.Node(el.m_node[1])` of a discrete
element, with their numbers. -/
def springNodes (dom : FEDiscreteSpringDomain) (el : FEDiscreteElement) :
    Run (ℕ × ℕ × FENode × FENode) :=
  match el.m_node[0]?, el.m_node[1]? with
  | some i1, some i2 =>
    match dom.m_pMesh.Node i1, dom.m_pMesh.Node i2 with
    | .ok n1, .ok n2 => .ok (i1, i2, n1, n2)
    | .error e, _ => .error e
    | _, .error e => .error e
  | _, _ => .error .indexOutOfRange

/-- What one pass of the element loop of `StiffnessMatrix` hands to
`psolver->AssembleStiffness(en, lm, ke)`: the node vector `en`, the block `A` and the
matrix `ke`. -/
structure SpringStiffness where
  en : List ℕ
  A : Mat3R
  ke : List (List ℝ)

/-- The loop `for (i=0; i<m_Elem.size(); ++i)` of `StiffnessMatrix` over the springs. -/
noncomputable def stiffnessLoop (dom : FEDiscreteSpringDomain) :
    List FEDiscreteElement → Run (List SpringStiffness)
  | [] => .ok []
  | el :: els =>
    match springNodes dom el with
    | .error e => .error e
    | .ok (i1, i2, n1, n2) =>
      match stiffnessLoop dom els with
      | .error e => .error e
      | .ok ks =>
        .ok (⟨[i1, i2], springBlock dom.m_pMat n1 n2,
          elementMatrix (springBlock dom.m_pMat n1 n2)⟩ :: ks)

/-- Embedding of the element loop of `FEDiscreteSpringDomain::StiffnessMatrix`: one
assembled element per spring, in element order.  The solver and the equation numbers `lm`
are not among the sources; the result is the list of what is handed to the solver.  The
second loop of the source (bending stiffness, run only if `m_keps > 0`) makes separate
calls of `AssembleStiffness2` after this loop and is not part of this model. -/
noncomputable def FEDiscreteSpringDomain.StiffnessMatrix (dom : FEDiscreteSpringDomain) :
    Run (List SpringStiffness) :=
  stiffnessLoop dom dom.m_Elem

/-- The force vector `fe` that `InternalForces` sets up for the spring between the nodes
`n1` and `n2` (source lines 84-103): the unit vector `e` of `rt2 - rt1`, the material
force `F` at the elongation `Lt - L0`, and `fe = (F e, -F e)`. -/
noncomputable def springForce (mat : FESpringMaterial) (n1 n2 : FENode) : List ℝ :=
  let e : Vec3R := (n2.m_rt - n1.m_rt).unit
  let L0 : ℝ := (n2.m_r0 - n1.m_r0).norm
  let Lt : ℝ := (n2.m_rt - n1.m_rt).norm
  let DL : ℝ := Lt - L0
  let F : ℝ := mat.force DL
  [F * e.x, F * e.y, F * e.z, -F * e.x, -F * e.y, -F * e.z]

/-- The loop `for (i=0; i<m_Elem.size(); ++i)` of `InternalForces` over the springs. -/
noncomputable def forceLoop (dom : FEDiscreteSpringDomain) :
    List FEDiscreteElement → Run (List (List ℕ × List ℝ))
  | [] => .ok []
  | el :: els =>
    match springNodes dom el with
    | .error e => .error e
    | .ok (i1, i2, n1, n2) =>
      match forceLoop dom els with
      | .error e => .error e
      | .ok fs => .ok (([i1, i2], springForce dom.m_pMat n1 n2) :: fs)

/-- Embedding of the element loop of `FEDiscreteSpringDomain::InternalForces`: for every
spring, in element order, the node vector `en` and the force vector `fe` handed to
`R.Assemble(en, lm, fe)`.  The second loop of the source (run only if `m_keps > 0`) is not
part of this model. -/
noncomputable def FEDiscreteSpringDomain.InternalForces (dom : FEDiscreteSpringDomain) :
    Run (List (List ℕ × List ℝ)) :=
  forceLoop dom dom.m_Elem

/-- Written from the claim, not from the code: the element stiffness of the spring force
`F n`, `(E - F/Lt) * (n (x) n) + (F/Lt) * I`, with `F`, `E` the material force and
stiffness at the elongation `Lt - L0` and `n = (rt2 - rt1)/Lt`. -/
noncomputable def springTangent (mat : FESpringMaterial) (n1 n2 : FENode) : Mat3R :=
  let L0 : ℝ := (n2.m_r0 - n1.m_r0).norm
  let Lt : ℝ := (n2.m_rt - n1.m_rt).norm
  let F : ℝ := mat.force (Lt - L0)
  let E : ℝ := mat.stiffness (Lt - L0)
  let nx : ℝ := ((n2.m_rt - n1.m_rt).x : ℝ) / Lt
  let ny : ℝ := ((n2.m_rt - n1.m_rt).y : ℝ) / Lt
  let nz : ℝ := ((n2.m_rt - n1.m_rt).z : ℝ) / Lt
  { a00 := (E - F / Lt) * (nx * nx) + F / Lt
    a01 := (E - F / Lt) * (nx * ny)
    a02 := (E - F / Lt) * (nx * nz)
    a10 := (E - F / Lt) * (ny * nx)
    a11 := (E - F / Lt) * (ny * ny) + F / Lt
    a12 := (E - F / Lt) * (ny * nz)
    a20 := (E - F / Lt) * (nz * nx)
    a21 := (E - F / Lt) * (nz * ny)
    a22 := (E - F / Lt) * (nz * nz) + F / Lt }

/-- A linear spring material with spring constant 1: `force(DL) = DL`,
`stiffness(DL) = 1`. -/
def linearSpring : FESpringMaterial := ⟨fun d => d, fun _ => 1⟩

/-- The discrete element on the mesh nodes 0 and 1. -/
def springElement : FEDiscreteElement := ⟨[0, 1]⟩

/-- One linear spring of rest length 1 along the x axis, stretched to length 2: node 0
stays at the origin, node 1 moves from `(1,0,0)` to `(2,0,0)`. -/
def stretchedSpring : FEDiscreteSpringDomain :=
  ⟨⟨[⟨⟨0, 0, 0⟩, ⟨0, 0, 0⟩⟩, ⟨⟨1, 0, 0⟩, ⟨2, 0, 0⟩⟩]⟩, [springElement], linearSpring⟩

/-! ## Basic facts about vectors -/

theorem vec3_add_def (a b : Vec3) : a + b = ⟨a.x + b.x, a.y + b.y, a.z + b.z⟩ := rfl

theorem vec3_sub_def (a b : Vec3) : a - b = ⟨a.x - b.x, a.y - b.y, a.z - b.z⟩ := rfl

theorem vec3_zero_def : (0 : Vec3) = ⟨0, 0, 0⟩ := rfl

theorem norm2_eq_zero_iff (a : Vec3) : a.norm2 = 0 ↔ a = 0 := by
  constructor
  · intro h
    simp only [Vec3.norm2, Vec3.dot] at h
    have hx : a.x = 0 := by nlinarith [mul_self_nonneg a.x, mul_self_nonneg a.y, mul_self_nonneg a.z]
    have hy : a.y = 0 := by nlinarith [mul_self_nonneg a.x, mul_self_nonneg a.y, mul_self_nonneg a.z]
    have hz : a.z = 0 := by nlinarith [mul_self_nonneg a.x, mul_self_nonneg a.y, mul_self_nonneg a.z]
    rw [vec3_zero_def]
    ext <;> assumption
  · intro h
    subst h
    simp [Vec3.norm2, Vec3.dot, vec3_zero_def]

/-- The test of the source on `normu = sqrt(normu2)` and the test of the model on `normu2`
agree. -/
theorem sqrt_gt_tol_iff (normu2 : ℚ) :
    Real.sqrt (normu2 : ℝ) > (1 / 100000 : ℝ) ↔ normu2 > tol2 := by
  have h1 : ((1 : ℝ) / 100000) = Real.sqrt (((1 : ℝ) / 100000) ^ 2) := by
    rw [Real.sqrt_sq (by norm_num)]
  have h2 : ((tol2 : ℚ) : ℝ) = ((1 : ℝ) / 100000) ^ 2 := by
    simp [tol2]
  rw [gt_iff_lt, gt_iff_lt, h1, Real.sqrt_lt_sqrt_iff (by positivity), ← h2]
  exact_mod_cast Iff.rfl

/-! ## The assembled Newton system in closed form -/

/-- The system assembled over three nodes, for arbitrary shape data. -/
theorem assemble_three (y0 y1 y2 x : Vec3) (sh : ShapeData) :
    let Y := pt3 y0 y1 y2 (sh.H 0) (sh.H 1) (sh.H 2)
    let Yr := pt3 y0 y1 y2 (sh.Hr 0) (sh.Hr 1) (sh.Hr 2)
    let Ys := pt3 y0 y1 y2 (sh.Hs 0) (sh.Hs 1) (sh.Hs 2)
    let Yrs := pt3 y0 y1 y2 (sh.Hrs 0) (sh.Hrs 1) (sh.Hrs 2)
    let sys := assemble 3 [y0, y1, y2] x sh
    sys.q = Y ∧ sys.R0 = -((x - Y).dot Yr) ∧ sys.R1 = -((x - Y).dot Ys) ∧
    sys.A00 = -(Yr.dot Yr) ∧ sys.A11 = -(Ys.dot Ys) ∧
    sys.A01 = -(Yr.dot Ys) + (x - Y).dot Yrs ∧ sys.A10 = -(Yr.dot Ys) + (x - Y).dot Yrs := by
  simp only [assemble, assembleOuter, assembleInner, List.range_succ, List.range_zero,
    List.nil_append, List.cons_append, List.foldl_cons, List.foldl_nil, yAt,
    List.getD_cons_zero, List.getD_cons_succ, pt3, vec3_add_def, vec3_sub_def, Vec3.dot,
    Vec3.scale, Vec3.zero]
  refine ⟨trivial, ?_, ?_, ?_, ?_, ?_, ?_⟩
  all_goals ring

/-- A finite double written as a multiple of `2^t` has the value of the double. -/
theorem scaled_val (s : Bool) (m : ℕ) (e t : ℤ) (h : t ≤ e) :
    ((F64.scaled s m e t : ℤ) : ℚ) * (2 : ℚ) ^ t = F64.val (.fin s m e) := by
  have h2 : (2 : ℚ) ^ e = (2 : ℚ) ^ ((e - t).toNat) * (2 : ℚ) ^ t := by
    rw [← zpow_natCast, ← zpow_add₀ (by norm_num : (2 : ℚ) ≠ 0),
      Int.toNat_of_nonneg (by omega)]
    congr 1
    omega
  simp only [F64.scaled, F64.val, h2]
  cases s <;> simp <;> ring

/-- The comparison `a <= b` of two finite doubles is the comparison of their values. -/
theorem le_fin_iff (s1 : Bool) (m1 : ℕ) (e1 : ℤ) (s2 : Bool) (m2 : ℕ) (e2 : ℤ) :
    F64.le (.fin s1 m1 e1) (.fin s2 m2 e2) = true
      ↔ F64.val (.fin s1 m1 e1) ≤ F64.val (.fin s2 m2 e2) := by
  rw [← scaled_val s1 m1 e1 (min e1 e2) (min_le_left _ _),
    ← scaled_val s2 m2 e2 (min e1 e2) (min_le_right _ _)]
  have hpos : (0 : ℚ) < (2 : ℚ) ^ (min e1 e2) := zpow_pos (by norm_num) _
  rw [mul_le_mul_right hpos]
  simp only [F64.le, decide_eq_true_eq]
  exact Int.cast_le.symm

/-- The comparison `a < b` of two finite doubles is the comparison of their values. -/
theorem lt_fin_iff (s1 : Bool) (m1 : ℕ) (e1 : ℤ) (s2 : Bool) (m2 : ℕ) (e2 : ℤ) :
    F64.lt (.fin s1 m1 e1) (.fin s2 m2 e2) = true
      ↔ F64.val (.fin s1 m1 e1) < F64.val (.fin s2 m2 e2) := by
  rw [← scaled_val s1 m1 e1 (min e1 e2) (min_le_left _ _),
    ← scaled_val s2 m2 e2 (min e1 e2) (min_le_right _ _)]
  have hpos : (0 : ℚ) < (2 : ℚ) ^ (min e1 e2) := zpow_pos (by norm_num) _
  rw [mul_lt_mul_right hpos]
  simp only [F64.lt, decide_eq_true_eq]
  exact Int.cast_lt.symm

/-- The bound `-1 <= r` as the program tests it with `tol = 0`. -/
theorem ge_minus_one_iff (r : F64) :
    F64.ge r (F64.sub (F64.ofInt (-1)) F64.zero) = true
      ↔ (r.isFinite = true ∧ -1 ≤ r.val) ∨ r = .inf false := by
  have hb : F64.sub (F64.ofInt (-1)) F64.zero = .fin true (2 ^ 52) (-52) := by decide!
  have hv : F64.val (.fin true (2 ^ 52) (-52)) = -1 := by decide!
  rw [hb, F64.ge]
  cases r with
  | fin s m e => rw [le_fin_iff, hv]; simp [F64.isFinite]
  | inf s => cases s <;> simp [F64.le, F64.isFinite]
  | nan => simp [F64.le, F64.isFinite]

/-- The bound `r <= 1` as the program tests it with `tol = 0`. -/
theorem le_one_iff (r : F64) :
    F64.le r (F64.add (F64.ofInt 1) F64.zero) = true
      ↔ (r.isFinite = true ∧ r.val ≤ 1) ∨ r = .inf true := by
  have hb : F64.add (F64.ofInt 1) F64.zero = .fin false (2 ^ 52) (-52) := by decide!
  have hv : F64.val (.fin false (2 ^ 52) (-52)) = 1 := by decide!
  rw [hb]
  cases r with
  | fin s m e => rw [le_fin_iff, hv]; simp [F64.isFinite]
  | inf s => cases s <;> simp [F64.le, F64.isFinite]
  | nan => simp [F64.le, F64.isFinite]
/-! ## Rounding a number that is at most 1 -/

/-- The bits found by `log2Bits` stay below the number. -/
theorem log2Bits_le (k : ℕ) : ∀ n acc, 0 < n → 2 ^ log2Bits k n acc ≤ n * 2 ^ acc := by
  induction k with
  | zero =>
    intro n acc hn
    rw [log2Bits]
    exact Nat.le_mul_of_pos_left _ hn
  | succ k ih =>
    intro n acc hn
    rw [log2Bits]
    split
    · rename_i h
      have hP : 0 < 2 ^ 2 ^ k := pow_pos (by norm_num) _
      have h1 := ih (n / 2 ^ 2 ^ k) (acc + 2 ^ k) (Nat.div_pos h hP)
      have h2 : n / 2 ^ 2 ^ k * 2 ^ (acc + 2 ^ k) = n / 2 ^ 2 ^ k * 2 ^ 2 ^ k * 2 ^ acc := by
        rw [pow_add]
        ring
      rw [h2] at h1
      exact le_trans h1 (Nat.mul_le_mul_right _ (Nat.div_mul_le_self n _))
    · exact ih n acc hn

/-- The leading bit: `2^(log2 n) <= n` for positive `n`. -/
theorem log2_le (n : ℕ) (hn : 0 < n) : 2 ^ log2 n ≤ n := by
  have h := log2Bits_le (log2Span n n 0) n 0 hn
  simpa [log2] using h

/-- For a natural number the exponent found by `ilog2Q` is at most the position of its
leading bit. -/
theorem ilog2Q_one_le (N : ℕ) : ilog2Q N 1 ≤ (log2 N : ℤ) := by
  have h1 : log2 1 = 0 := by decide!
  simp only [ilog2Q, h1]
  split
  · split <;> omega
  · split <;> omega

/-- A positive number `N * 2^e <= 1` rounds to a double that is at most 1. -/
theorem roundQ_le_one (N : ℕ) (e : ℤ) (hN : 0 < N) (h : (N : ℚ) * (2 : ℚ) ^ e ≤ 1) :
    ∃ m q, roundQ false N 1 e = .fin false m q ∧ F64.val (.fin false m q) ≤ 1 := by
  -- the hypothesis in natural numbers
  have he : e ≤ 0 := by
    by_contra hc
    have h1 : (1 : ℚ) ≤ (N : ℚ) := by exact_mod_cast hN
    have h2 : (2 : ℚ) ≤ (2 : ℚ) ^ e := by
      have : (2 : ℚ) ^ (1 : ℤ) ≤ (2 : ℚ) ^ e :=
        zpow_le_zpow_right₀ (by norm_num) (by omega)
      simpa using this
    nlinarith
  have hNle : N ≤ 2 ^ (-e).toNat := by
    have h3 : (2 : ℚ) ^ e * (2 : ℚ) ^ ((-e).toNat) = 1 := by
      rw [← zpow_natCast, ← zpow_add₀ (by norm_num : (2 : ℚ) ≠ 0),
        Int.toNat_of_nonneg (by omega)]
      simp
    have h4 : (N : ℚ) ≤ (2 : ℚ) ^ ((-e).toNat) := by
      have hp : (0 : ℚ) < (2 : ℚ) ^ ((-e).toNat) := pow_pos (by norm_num) _
      calc (N : ℚ) = (N : ℚ) * ((2 : ℚ) ^ e * (2 : ℚ) ^ ((-e).toNat)) := by rw [h3, mul_one]
        _ = ((N : ℚ) * (2 : ℚ) ^ e) * (2 : ℚ) ^ ((-e).toNat) := by ring
        _ ≤ 1 * (2 : ℚ) ^ ((-e).toNat) := mul_le_mul_of_nonneg_right h hp.le
        _ = (2 : ℚ) ^ ((-e).toNat) := one_mul _
    exact_mod_cast h4
  have hlog : log2 N ≤ (-e).toNat := by
    have h5 : 2 ^ log2 N ≤ 2 ^ (-e).toNat := le_trans (log2_le N hN) hNle
    exact (Nat.pow_le_pow_iff_right (by norm_num)).1 h5
  have hL : ilog2Q N 1 + e ≤ 0 := by
    have := ilog2Q_one_le N
    omega
  -- the quantum
  obtain ⟨q, hq⟩ : ∃ q, q = max (ilog2Q N 1 + e - ((53 : ℕ) - 1)) (-1074) := ⟨_, rfl⟩
  have hq0 : q ≤ 0 := by
    rw [hq]
    exact max_le (by omega) (by norm_num)
  have hq1 : -1074 ≤ q := by
    rw [hq]
    exact le_max_right _ _
  -- the rounded quotient is at most `2^(-q)`
  have hval : ∀ Q1 : ℕ, Q1 ≤ 2 ^ (-q).toNat → (Q1 : ℚ) * (2 : ℚ) ^ q ≤ 1 := by
    intro Q1 hQ
    have h3 : (2 : ℚ) ^ ((-q).toNat) * (2 : ℚ) ^ q = 1 := by
      rw [← zpow_natCast, ← zpow_add₀ (by norm_num : (2 : ℚ) ≠ 0),
        Int.toNat_of_nonneg (by omega)]
      simp
    have hp : (0 : ℚ) < (2 : ℚ) ^ q := zpow_pos (by norm_num) _
    have h4 : (Q1 : ℚ) ≤ (2 : ℚ) ^ ((-q).toNat) := by exact_mod_cast hQ
    calc (Q1 : ℚ) * (2 : ℚ) ^ q ≤ (2 : ℚ) ^ ((-q).toNat) * (2 : ℚ) ^ q :=
          mul_le_mul_of_nonneg_right h4 hp.le
      _ = 1 := h3
  have hfin : ∀ Q1 : ℕ, Q1 ≤ 2 ^ (-q).toNat →
      ∃ m q1, (if Q1 = 2 ^ 53 then (if (971 : ℤ) < q + 1 then F64.inf false
            else F64.fin false (2 ^ (53 - 1)) (q + 1))
          else if (971 : ℤ) < q then F64.inf false else F64.fin false Q1 q)
        = .fin false m q1 ∧ F64.val (.fin false m q1) ≤ 1 := by
    intro Q1 hQ
    by_cases h53 : Q1 = 2 ^ 53
    · rw [if_pos h53, if_neg (by omega)]
      refine ⟨_, _, rfl, ?_⟩
      have hthis : (((2 : ℕ) ^ 53 : ℕ) : ℚ) * (2 : ℚ) ^ q ≤ 1 := hval (2 ^ 53) (h53 ▸ hQ)
      have heq : F64.val (.fin false (2 ^ (53 - 1)) (q + 1))
          = (((2 : ℕ) ^ 53 : ℕ) : ℚ) * (2 : ℚ) ^ q := by
        simp only [F64.val, Bool.false_eq_true, if_false, one_mul]
        rw [zpow_add_one₀ (by norm_num : (2 : ℚ) ≠ 0)]
        push_cast
        ring
      rw [heq]
      exact hthis
    · rw [if_neg h53, if_neg (by omega)]
      refine ⟨_, _, rfl, ?_⟩
      simpa [F64.val] using hval Q1 hQ
  simp only [roundQ, roundP, if_neg (Nat.pos_iff_ne_zero.1 hN), ← hq]
  by_cases hsh : 0 ≤ e - q
  · simp only [if_pos hsh, Nat.div_one, Nat.mod_one, mul_zero]
    have hno : ¬ (1 < 0 ∨ (0 = 1 ∧ N * 2 ^ (e - q).toNat % 2 = 1)) := by omega
    rw [if_neg hno]
    apply hfin
    have hsplit : (-q).toNat = (-e).toNat + (e - q).toNat := by omega
    rw [hsplit, pow_add]
    exact Nat.mul_le_mul_right _ hNle
  · simp only [if_neg hsh, one_mul]
    have hsplit : (-e).toNat = (-(e - q)).toNat + (-q).toNat := by omega
    have hND : N ≤ 2 ^ (-(e - q)).toNat * 2 ^ (-q).toNat := by
      rw [← pow_add, ← hsplit]
      exact hNle
    have hD : 0 < 2 ^ (-(e - q)).toNat := pow_pos (by norm_num) _
    generalize 2 ^ (-(e - q)).toNat = D at hND hD ⊢
    apply hfin
    generalize 2 ^ (-q).toNat = K at hND ⊢
    have hQ : N / D ≤ K := Nat.div_le_of_le_mul hND
    have hdm : D * (N / D) + N % D = N := Nat.div_add_mod N D
    split
    · rename_i hup
      have hR : 0 < N % D := by omega
      by_contra hc
      have hQK : N / D = K := by omega
      rw [hQK] at hdm
      omega
    · exact hQ
/-- The bound `0 <= r` as the program tests it with `tol = 0` (the bound is `-0.0`). -/
theorem ge_zero_iff (r : F64) :
    F64.ge r (F64.neg F64.zero) = true ↔ (r.isFinite = true ∧ 0 ≤ r.val) ∨ r = .inf false := by
  have hb : F64.neg F64.zero = .fin true 0 (-1074) := rfl
  have hv : F64.val (.fin true 0 (-1074)) = 0 := by simp [F64.val]
  rw [hb, F64.ge]
  cases r with
  | fin s m e => rw [le_fin_iff, hv]; simp [F64.isFinite]
  | inf s => cases s <;> simp [F64.le, F64.isFinite]
  | nan => simp [F64.le, F64.isFinite]

/-- The sum `r + s` of two doubles that are not negative and whose exact sum is at most 1
is a double that is at most 1. -/
theorem add_le_one (r s : F64) (hr : r.isFinite = true) (hs : s.isFinite = true)
    (h0r : 0 ≤ r.val) (h0s : 0 ≤ s.val) (h : r.val + s.val ≤ 1) :
    F64.le (F64.add r s) (F64.add (F64.ofInt 1) F64.zero) = true := by
  rw [le_one_iff]
  left
  cases r with
  | inf _ => cases hr
  | nan => cases hr
  | fin s1 m1 e1 =>
    cases s with
    | inf _ => cases hs
    | nan => cases hs
    | fin s2 m2 e2 =>
      simp only [F64.add]
      by_cases hm1 : m1 = 0
      · rw [if_pos hm1]
        by_cases hm2 : m2 = 0
        · rw [if_pos hm2]
          simp [F64.isFinite, F64.val]
        · rw [if_neg hm2]
          exact ⟨rfl, by linarith⟩
      · rw [if_neg hm1]
        by_cases hm2 : m2 = 0
        · rw [if_pos hm2]
          exact ⟨rfl, by linarith⟩
        · rw [if_neg hm2]
          have hp1 : (0 : ℚ) < (m1 : ℚ) * (2 : ℚ) ^ e1 :=
            mul_pos (by exact_mod_cast Nat.pos_of_ne_zero hm1) (zpow_pos (by norm_num) _)
          have hp2 : (0 : ℚ) < (m2 : ℚ) * (2 : ℚ) ^ e2 :=
            mul_pos (by exact_mod_cast Nat.pos_of_ne_zero hm2) (zpow_pos (by norm_num) _)
          have hs1 : s1 = false := by
            cases s1 with
            | false => rfl
            | true =>
              simp only [F64.val, if_true] at h0r
              linarith
          have hs2 : s2 = false := by
            cases s2 with
            | false => rfl
            | true =>
              simp only [F64.val, if_true] at h0s
              linarith
          subst hs1
          subst hs2
          simp only [if_true]
          have hv1 := scaled_val false m1 e1 (min e1 e2) (min_le_left _ _)
          have hv2 := scaled_val false m2 e2 (min e1 e2) (min_le_right _ _)
          simp only [F64.scaled, Bool.false_eq_true, if_false, one_mul, Int.cast_natCast]
            at hv1 hv2
          have hsum : ((m1 * 2 ^ (e1 - min e1 e2).toNat + m2 * 2 ^ (e2 - min e1 e2).toNat : ℕ) : ℚ)
              * (2 : ℚ) ^ (min e1 e2) ≤ 1 := by
            rw [Nat.cast_add, add_mul, hv1, hv2]
            exact h
          have hpos : 0 < m1 * 2 ^ (e1 - min e1 e2).toNat + m2 * 2 ^ (e2 - min e1 e2).toNat :=
            Nat.add_pos_left (Nat.mul_pos (Nat.pos_of_ne_zero hm1) (pow_pos (by norm_num) _)) _
          obtain ⟨m, q, hrq, hle⟩ := roundQ_le_one _ _ hpos hsum
          rw [hrq]
          exact ⟨rfl, hle⟩

/-! ## C1: `IsInsideElement` -/

/-- C1 (counterexample). With `tol = 0.1` the point `(r,s) = (-1.1, 0)` is reported inside
a 4-node element although the double `-1.1` is less than `-1 - tol` for the double `tol`:
the program compares with the bound `-1 - tol` rounded to a double, which is the double
`-1.1`.  With `tol = 0` the point `(0.7, 0.3000000000000001)` is reported inside a 3-node
element although `r + s > 1`: the sum rounds to 1. -/
theorem IsInsideElementD_rounded_bounds :
    quadElement.Nodes = 4 ∧
    unitSquareD.IsInsideElement quadElement (F64.ofDec true 11 10) F64.zero
        (F64.ofDec false 1 10) = true ∧
    F64.val (F64.ofDec true 11 10) < -1 - F64.val (F64.ofDec false 1 10) ∧
    triElement.Nodes = 3 ∧
    farTriangleD.IsInsideElement triElement (F64.ofDec false 7 10)
        (F64.ofDec false 3000000000000001 10000000000000000) F64.zero = true ∧
    F64.val (F64.ofDec false 7 10)
        + F64.val (F64.ofDec false 3000000000000001 10000000000000000)
      > 1 + F64.val F64.zero := by
  refine ⟨rfl, by decide!, by decide!, rfl, by decide!, by decide!⟩

/-- C1 (amended). In `double` arithmetic `IsInsideElement` returns true on a 4-node element
if and only if `r` and `s` lie between the doubles `-1 - tol` and `1 + tol` (the bounds
rounded), and on a 3-node element if and only if `r` and `s` are at least `-tol` and the
double `r + s` (the sum rounded) is at most the double `1 + tol`.  With `tol = 0` the
answer on a 4-node element is exact: true if and only if `r` and `s` are numbers with
`-1 <= r <= 1` and `-1 <= s <= 1`; on a 3-node element every point of the reference domain
(`r >= 0`, `s >= 0`, `r + s <= 1`, boundary included) is inside and no point with a
negative coordinate is. -/
theorem IsInsideElementD_decides (S : FESurfaceD) (el : FESurfaceElement) (r s tol : F64) :
    (el.Nodes = 4 →
      (S.IsInsideElement el r s tol = true ↔
        F64.ge r (F64.sub (F64.ofInt (-1)) tol) = true ∧
          F64.le r (F64.add (F64.ofInt 1) tol) = true ∧
          F64.ge s (F64.sub (F64.ofInt (-1)) tol) = true ∧
          F64.le s (F64.add (F64.ofInt 1) tol) = true) ∧
      (S.IsInsideElement el r s F64.zero = true ↔
        r.isFinite = true ∧ s.isFinite = true ∧
          -1 ≤ r.val ∧ r.val ≤ 1 ∧ -1 ≤ s.val ∧ s.val ≤ 1)) ∧
    (el.Nodes = 3 →
      (S.IsInsideElement el r s tol = true ↔
        F64.ge r (F64.neg tol) = true ∧ F64.ge s (F64.neg tol) = true ∧
          F64.le (F64.add r s) (F64.add (F64.ofInt 1) tol) = true) ∧
      (r.isFinite = true → s.isFinite = true → 0 ≤ r.val → 0 ≤ s.val → r.val + s.val ≤ 1 →
        S.IsInsideElement el r s F64.zero = true) ∧
      (r.isFinite = true → s.isFinite = true → (r.val < 0 ∨ s.val < 0) →
        S.IsInsideElement el r s F64.zero = false)) := by
  constructor
  · intro h4
    have hdef : ∀ t, (S.IsInsideElement el r s t = true ↔
        F64.ge r (F64.sub (F64.ofInt (-1)) t) = true ∧
          F64.le r (F64.add (F64.ofInt 1) t) = true ∧
          F64.ge s (F64.sub (F64.ofInt (-1)) t) = true ∧
          F64.le s (F64.add (F64.ofInt 1) t) = true) := by
      intro t
      simp only [FESurfaceD.IsInsideElement, h4, if_true, Bool.and_eq_true, and_assoc]
    refine ⟨hdef tol, ?_⟩
    rw [hdef F64.zero, ge_minus_one_iff, le_one_iff, ge_minus_one_iff, le_one_iff]
    constructor
    · rintro ⟨h1, h2, h3, h4⟩
      have hr : r.isFinite = true ∧ -1 ≤ r.val ∧ r.val ≤ 1 := by
        rcases h1 with h1 | h1
        · rcases h2 with h2 | h2
          · exact ⟨h1.1, h1.2, h2.2⟩
          · rw [h2] at h1
            cases h1.1
        · rcases h2 with h2 | h2
          · rw [h1] at h2
            cases h2.1
          · rw [h1] at h2
            cases h2
      have hs : s.isFinite = true ∧ -1 ≤ s.val ∧ s.val ≤ 1 := by
        rcases h3 with h3 | h3
        · rcases h4 with h4 | h4
          · exact ⟨h3.1, h3.2, h4.2⟩
          · rw [h4] at h3
            cases h3.1
        · rcases h4 with h4 | h4
          · rw [h3] at h4
            cases h4.1
          · rw [h3] at h4
            cases h4
      exact ⟨hr.1, hs.1, hr.2.1, hr.2.2, hs.2.1, hs.2.2⟩
    · rintro ⟨h1, h2, h3, h4, h5, h6⟩
      exact ⟨Or.inl ⟨h1, h3⟩, Or.inl ⟨h1, h4⟩, Or.inl ⟨h2, h5⟩, Or.inl ⟨h2, h6⟩⟩
  · intro h3
    have hne : ¬ el.Nodes = 4 := by omega
    have hdef : ∀ t, (S.IsInsideElement el r s t = true ↔
        F64.ge r (F64.neg t) = true ∧ F64.ge s (F64.neg t) = true ∧
          F64.le (F64.add r s) (F64.add (F64.ofInt 1) t) = true) := by
      intro t
      simp only [FESurfaceD.IsInsideElement, hne, if_false, Bool.and_eq_true, and_assoc]
    refine ⟨hdef tol, ?_, ?_⟩
    · intro hr hs h0r h0s hsum
      rw [hdef F64.zero, ge_zero_iff, ge_zero_iff]
      exact ⟨Or.inl ⟨hr, h0r⟩, Or.inl ⟨hs, h0s⟩, add_le_one r s hr hs h0r h0s hsum⟩
    · intro hr hs hneg
      cases hin : S.IsInsideElement el r s F64.zero with
      | false => rfl
      | true =>
        rw [hdef F64.zero, ge_zero_iff, ge_zero_iff] at hin
        obtain ⟨h1, h2, _⟩ := hin
        exfalso
        rcases hneg with hneg | hneg
        · rcases h1 with h1 | h1
          · linarith [h1.2]
          · rw [h1] at hr
            cases hr
        · rcases h2 with h2 | h2
          · linarith [h2.2]
          · rw [h2] at hs
            cases hs

/-- C1 (amended) at concrete inputs: the corner `(1,-1)` of the square and the corner
`(0,1)` of the triangle are inside with `tol = 0`. -/
theorem IsInsideElementD_decides_witness :
    (quadElement.Nodes = 4 ∧
      unitSquareD.IsInsideElement quadElement (F64.ofInt 1) (F64.ofInt (-1)) F64.zero = true) ∧
    (triElement.Nodes = 3 ∧
      farTriangleD.IsInsideElement triElement F64.zero (F64.ofInt 1) F64.zero = true) :=
  ⟨⟨rfl, ((IsInsideElementD_decides unitSquareD quadElement (F64.ofInt 1) (F64.ofInt (-1))
      F64.zero).1 rfl).2.2 (by decide!)⟩,
   ⟨rfl, ((IsInsideElementD_decides farTriangleD triElement F64.zero (F64.ofInt 1)
      F64.zero).2 rfl).2.1 rfl rfl (by decide!) (by decide!) (by decide!)⟩⟩

/-! ## Unfolding `ProjectToSurface` and `Local2Global` -/

theorem nodalPositions_length (mesh : FEMesh) (sel : FENode → Vec3) :
    ∀ (ms : List ℕ) (ys : List Vec3), nodalPositions mesh sel ms = .ok ys →
      ys.length = ms.length := by
  intro ms
  induction ms with
  | nil =>
    intro ys h
    simp only [nodalPositions] at h
    cases h
    rfl
  | cons m ms ih =>
    intro ys h
    simp only [nodalPositions] at h
    split at h
    · cases h
    · split at h
      · cases h
      · rename_i ys1 h1
        cases h
        simp [ih ys1 h1]

theorem ProjectToSurface_eq_loop (S : FESurface) (el : FESurfaceElement) (ys : List Vec3)
    (hy : nodalPositions S.m_pmesh FENode.m_rt el.m_node = .ok ys) (h4 : ys.length ≤ 4)
    (x : Vec3) (r s : ℚ) :
    S.ProjectToSurface el x r s = newtonLoop ys.length ys x r s 0 [] := by
  have hl := nodalPositions_length _ _ _ _ hy
  have hn : el.Nodes = ys.length := by simp [FESurfaceElement.Nodes, hl]
  simp only [FESurface.ProjectToSurface, hn, hy]
  rw [if_neg (by omega)]

theorem Local2Global_three (S : FESurface) (el : FESurfaceElement) (y0 y1 y2 : Vec3)
    (hy : nodalPositions S.m_pmesh FENode.m_rt el.m_node = .ok [y0, y1, y2]) (r s : ℚ) :
    S.Local2Global el r s = .ok (pt3 y0 y1 y2 (1 - r - s) r s) := by
  have hl := nodalPositions_length _ _ _ _ hy
  have hn : el.Nodes = 3 := by simp [FESurfaceElement.Nodes, ← hl]
  simp [FESurface.Local2Global, hn, hy, l2gShape, List.range_succ, yAt, pt3]

theorem Local2Global_four (S : FESurface) (el : FESurfaceElement) (y0 y1 y2 y3 : Vec3)
    (hy : nodalPositions S.m_pmesh FENode.m_rt el.m_node = .ok [y0, y1, y2, y3]) (r s : ℚ) :
    S.Local2Global el r s = .ok (pt4 y0 y1 y2 y3 ((1/4) * (1 - r) * (1 - s))
      ((1/4) * (1 + r) * (1 - s)) ((1/4) * (1 + r) * (1 + s)) ((1/4) * (1 - r) * (1 + s))) := by
  have hl := nodalPositions_length _ _ _ _ hy
  have hn : el.Nodes = 4 := by simp [FESurfaceElement.Nodes, ← hl]
  simp [FESurface.Local2Global, hn, hy, l2gShape, List.range_succ, yAt, pt4]

/-! ## Newton on an affine element -/

/-- The Newton system of a triangle: minus the Gram matrix of the edges, and a right-hand
side that is affine in `(r,s)`. -/
theorem systemAt_three (y0 y1 y2 x : Vec3) (r s : ℚ) :
    (systemAt 3 [y0, y1, y2] x r s).A00 = -((y1 - y0).dot (y1 - y0)) ∧
    (systemAt 3 [y0, y1, y2] x r s).A01 = -((y1 - y0).dot (y2 - y0)) ∧
    (systemAt 3 [y0, y1, y2] x r s).A10 = -((y1 - y0).dot (y2 - y0)) ∧
    (systemAt 3 [y0, y1, y2] x r s).A11 = -((y2 - y0).dot (y2 - y0)) ∧
    (systemAt 3 [y0, y1, y2] x r s).R0 = -((x - y0).dot (y1 - y0)
      - r * (y1 - y0).dot (y1 - y0) - s * (y1 - y0).dot (y2 - y0)) ∧
    (systemAt 3 [y0, y1, y2] x r s).R1 = -((x - y0).dot (y2 - y0)
      - r * (y1 - y0).dot (y2 - y0) - s * (y2 - y0).dot (y2 - y0)) := by
  have h := assemble_three y0 y1 y2 x (projShape 3 r s)
  dsimp only at h
  obtain ⟨_, h1, h2, h3, h4, h5, h6⟩ := h
  simp only [systemAt]
  rw [h1, h2, h3, h4, h5, h6]
  simp only [projShape, pt3, vec3_add_def, vec3_sub_def, Vec3.dot, Vec3.scale, Vec3.zero]
  refine ⟨?_, ?_, ?_, ?_, ?_, ?_⟩ <;> norm_num <;> ring

/-- Every run of the loop entered with `n < NMAX`: either it returns after between `n+1` and
`NMAX` passes, every pass but the last had `normu > 1e-5`, and a return before pass `NMAX`
had `normu <= 1e-5` in its last pass; or some pass `j <= NMAX` met `D = 0`. -/
theorem newtonLoop_trace (ne : ℕ) (ys : List Vec3) (x : Vec3) :
    ∀ (k : ℕ) (r s : ℚ) (n : ℕ) (hist : List ℚ), NMAX - n = k → n < NMAX →
      (∃ res tl, newtonLoop ne ys x r s n hist = .ok res ∧ res.hist = hist ++ tl ∧
        tl.length + n = res.n ∧ tl ≠ [] ∧ res.n ≤ NMAX ∧ tl.getLast? = some res.normu2 ∧
        (∀ v ∈ tl.dropLast, v > tol2) ∧ (res.n < NMAX → res.normu2 ≤ tol2)) ∨
      (∃ j, newtonLoop ne ys x r s n hist = .error (.divisionByZero j) ∧ n < j ∧ j ≤ NMAX) := by
  intro k
  induction k with
  | zero =>
    intro r s n hist hk hn
    omega
  | succ k ih =>
    intro r s n hist hk hn
    rw [newtonLoop]
    by_cases hD : (systemAt ne ys x r s).D = 0
    · right
      exact ⟨n + 1, by simp [hD], by omega, by omega⟩
    · simp only [hD, if_false]
      generalize (systemAt ne ys x r s).u0 * (systemAt ne ys x r s).u0
        + (systemAt ne ys x r s).u1 * (systemAt ne ys x r s).u1 = w
      split
      · rename_i hc
        rcases ih (r + (systemAt ne ys x r s).u0) (s + (systemAt ne ys x r s).u1) (n + 1)
          (hist ++ [w]) (by omega) hc.2 with h | h
        · left
          obtain ⟨res, tl, hres, hh, hlen, hne, hle, hlast, hall, hstop⟩ := h
          cases tl with
          | nil => exact absurd rfl hne
          | cons t tl =>
            refine ⟨res, w :: t :: tl, hres, ?_, ?_, by simp, hle, ?_, ?_, hstop⟩
            · rw [hh]; simp
            · simp only [List.length_cons] at hlen ⊢; omega
            · rw [List.getLast?_cons_cons]; exact hlast
            · intro v hv
              simp only [List.dropLast_cons₂, List.mem_cons] at hv
              rcases hv with hv | hv
              · rw [hv]; exact hc.1
              · exact hall v hv
        · right
          obtain ⟨j, hj, h1, h2⟩ := h
          exact ⟨j, hj, by omega, h2⟩
      · rename_i hc
        left
        refine ⟨_, [w], rfl, rfl, ?_, by simp, ?_, by simp, by simp, ?_⟩
        · simp only [List.length_singleton]; omega
        · simp only; omega
        intro hlt
        simp only at hlt
        by_contra hgt
        exact hc ⟨lt_of_not_ge hgt, hlt⟩

theorem nodalPositions_error (mesh : FEMesh) (sel : FENode → Vec3) :
    ∀ (ms : List ℕ) (e : Stop), nodalPositions mesh sel ms = .error e →
      e = .indexOutOfRange := by
  intro ms
  induction ms with
  | nil =>
    intro e h
    simp only [nodalPositions] at h
    cases h
  | cons m ms ih =>
    intro e h
    simp only [nodalPositions] at h
    split at h
    · rename_i e1 h1
      cases h
      simp only [FEMesh.Node] at h1
      split at h1
      · cases h1
      · cases h1
        rfl
    · split at h
      · rename_i e1 h1
        cases h
        exact ih _ h1
      · cases h

/-! ## C4: the loop ends within `NMAX` passes -/

theorem nodalPositionsD_length (mesh : FEMeshD) :
    ∀ (ms : List ℕ) (ys : List Vec3D), nodalPositionsD mesh ms = .ok ys →
      ys.length = ms.length := by
  intro ms
  induction ms with
  | nil =>
    intro ys h
    simp only [nodalPositionsD] at h
    cases h
    rfl
  | cons m ms ih =>
    intro ys h
    simp only [nodalPositionsD] at h
    split at h
    · cases h
    · split at h
      · cases h
      · rename_i ys1 h1
        cases h
        simp [ih _ h1]

/-- Every run of the `do` loop entered with the pass counter `n < NMAX`: it returns after
`k + 1` further passes, `n + k + 1 <= NMAX`, with the values pass `k + 1` has left; every
pass before had `normu > 1e-5`; and a return before the counter reaches `NMAX` had a last
`normu` that is not greater than `1e-5`. -/
theorem newtonLoopD_trace (ne : ℕ) (ys : List Vec3D) (x : Vec3D) :
    ∀ (fuel : ℕ) (r s : F64) (n : ℕ), n < NMAX → NMAX ≤ n + fuel + 1 →
      ∃ k, (newtonLoopD ne ys x fuel r s n).n = n + k + 1 ∧ n + k + 1 ≤ NMAX ∧
        (newtonLoopD ne ys x fuel r s n).q = (passAtD ne ys x k r s).q ∧
        (newtonLoopD ne ys x fuel r s n).r = (passAtD ne ys x k r s).r ∧
        (newtonLoopD ne ys x fuel r s n).s = (passAtD ne ys x k r s).s ∧
        (newtonLoopD ne ys x fuel r s n).normu = (passAtD ne ys x k r s).normu ∧
        (∀ j, j < k → F64.gt (passAtD ne ys x j r s).normu tolD = true) ∧
        (n + k + 1 < NMAX → F64.gt (passAtD ne ys x k r s).normu tolD = false) := by
  intro fuel
  induction fuel with
  | zero =>
    intro r s n hn hf
    refine ⟨0, rfl, by omega, rfl, rfl, rfl, rfl, ?_, ?_⟩
    · intro j hj
      omega
    · intro h
      omega
  | succ fuel ih =>
    intro r s n hn hf
    rw [newtonLoopD]
    by_cases hc : (F64.gt (passD ne ys x r s).normu tolD && decide (n + 1 < NMAX)) = true
    · rw [if_pos hc]
      simp only [Bool.and_eq_true, decide_eq_true_eq] at hc
      obtain ⟨k, h1, h2, h3, h4, h5, h6, h7, h8⟩ :=
        ih (passD ne ys x r s).r (passD ne ys x r s).s (n + 1) hc.2 (by omega)
      refine ⟨k + 1, by rw [h1]; omega, by omega, h3, h4, h5, h6, ?_, ?_⟩
      · intro j hj
        cases j with
        | zero => exact hc.1
        | succ j => exact h7 j (by omega)
      · intro h
        exact h8 (by omega)
    · rw [if_neg hc]
      refine ⟨0, rfl, by omega, rfl, rfl, rfl, rfl, ?_, ?_⟩
      · intro j hj
        omega
      · intro h
        simp only [Bool.and_eq_true, decide_eq_true_eq, not_and] at hc
        cases hg : F64.gt (passD ne ys x r s).normu tolD with
        | false => simpa [passAtD] using hg
        | true => exact absurd (by omega : n + 1 < NMAX) (hc hg)

/-- The call of the witness, evaluated: one update, which leaves `r = s = 0` and the step
norm 0; the returned point is the centroid `(0.5, 0.5, 0)`. -/
theorem ProjectToSurfaceD_unit_square :
    unitSquareD.ProjectToSurface quadElement
        ⟨F64.ofDec false 1 2, F64.ofDec false 1 2, F64.ofInt 1⟩ F64.zero F64.zero
      = .ok ⟨⟨F64.ofDec false 1 2, F64.ofDec false 1 2, F64.zero⟩, F64.zero, F64.zero, 1,
          F64.zero⟩ := by
  decide!

/-! ## C5, C6, C7: what a call returns -/

/-- A pass that meets `D = 0` ends the run of the model as a division by zero. -/
theorem newtonLoop_zero_det (ne : ℕ) (ys : List Vec3) (x : Vec3) (r s : ℚ) (n : ℕ)
    (hist : List ℚ) (hD : (systemAt ne ys x r s).D = 0) :
    newtonLoop ne ys x r s n hist = .error (.divisionByZero (n + 1)) := by
  rw [newtonLoop]
  simp [hD]

/-- The embedded `ProjectToSurface` never reports an error of the taxonomy. -/
theorem ProjectToSurface_never_raises (S : FESurface) (el : FESurfaceElement) (x : Vec3)
    (r s : ℚ) (e : ErrorKind) : S.ProjectToSurface el x r s ≠ .error (.raised e) := by
  unfold FESurface.ProjectToSurface
  simp only
  split
  · intro h; cases h
  · cases hy : nodalPositions S.m_pmesh FENode.m_rt el.m_node with
    | error e1 =>
      simp only
      rw [nodalPositions_error _ _ _ _ hy]
      intro h; cases h
    | ok ys =>
      simp only
      rcases newtonLoop_trace el.Nodes ys x NMAX r s 0 [] rfl (by simp [NMAX]) with h | h
      · obtain ⟨res, _, hres, _⟩ := h
        rw [hres]
        intro h; cases h
      · obtain ⟨j, hj, _⟩ := h
        rw [hj]
        intro h; cases h

/-- C5 (failing input). On the unit right triangle with `x = (1e-6, 0, 0)` and the guess
`(0,0)` the call makes one pass and returns the point `q = (0,0,0)` together with
`r = 1e-6`, `s = 0`, while `Local2Global(el, 1e-6, 0)` is `(1e-6, 0, 0)`: the returned point
is the surface point at the guess the last pass started from, not at the returned
coordinates. -/
theorem ProjectToSurface_point_lags :
    unitTriangle.ProjectToSurface triElement ⟨1/1000000, 0, 0⟩ 0 0
        = .ok ⟨⟨0, 0, 0⟩, 1/1000000, 0, 1, 1/1000000000000, [1/1000000000000]⟩ ∧
      unitTriangle.Local2Global triElement (1/1000000) 0 = .ok ⟨1/1000000, 0, 0⟩ ∧
      unitTriangle.Local2Global triElement 0 0 = .ok ⟨0, 0, 0⟩ ∧
      (⟨1/1000000, 0, 0⟩ : Vec3) ≠ ⟨0, 0, 0⟩ := by
  have hsys : systemAt 3 [⟨0, 0, 0⟩, ⟨1, 0, 0⟩, ⟨0, 1, 0⟩] ⟨1/1000000, 0, 0⟩ 0 0
      = ⟨-(1/1000000), 0, -1, 0, 0, -1, ⟨0, 0, 0⟩⟩ := by
    simp [systemAt, assemble, assembleOuter, assembleInner, projShape, List.range_succ, yAt,
      Vec3.dot, Vec3.scale, Vec3.zero, vec3_add_def]
  refine ⟨?_, ?_, ?_, ?_⟩
  · rw [ProjectToSurface_eq_loop unitTriangle triElement [⟨0, 0, 0⟩, ⟨1, 0, 0⟩, ⟨0, 1, 0⟩] rfl
      (by simp)]
    rw [newtonLoop]
    simp only [List.length_cons, List.length_nil, Nat.reduceAdd, hsys, NewtonSystem.D,
      NewtonSystem.u0, NewtonSystem.u1, tol2, NMAX]
    norm_num
  · rw [Local2Global_three unitTriangle triElement ⟨0, 0, 0⟩ ⟨1, 0, 0⟩ ⟨0, 1, 0⟩ rfl]
    simp [pt3, Vec3.scale, Vec3.zero, vec3_add_def]
  · rw [Local2Global_three unitTriangle triElement ⟨0, 0, 0⟩ ⟨1, 0, 0⟩ ⟨0, 1, 0⟩ rfl]
    simp [pt3, Vec3.scale, Vec3.zero, vec3_add_def]
  · intro h
    have := congrArg Vec3.x h
    norm_num at this

/-! ## C6: a zero determinant -/

/-- C6 (counterexample). On a triangle with collinear nodes the determinant of the first
pass is zero; the call has no check of it: the run divides by `D = 0` in pass 1 and no
`DegenerateProjection` error is raised. -/
theorem ProjectToSurface_zero_det_not_reported :
    (systemAt 3 [⟨0, 0, 0⟩, ⟨1, 0, 0⟩, ⟨2, 0, 0⟩] ⟨0, 1, 0⟩ 0 0).D = 0 ∧
      collinearTriangle.ProjectToSurface triElement ⟨0, 1, 0⟩ 0 0
        = .error (.divisionByZero 1) ∧
      collinearTriangle.ProjectToSurface triElement ⟨0, 1, 0⟩ 0 0
        ≠ .error (.raised .DegenerateProjection) := by
  have hD : (systemAt 3 [⟨0, 0, 0⟩, ⟨1, 0, 0⟩, ⟨2, 0, 0⟩] ⟨0, 1, 0⟩ 0 0).D = 0 := by
    obtain ⟨h1, h2, h3, h4, _, _⟩ := systemAt_three ⟨0, 0, 0⟩ ⟨1, 0, 0⟩ ⟨2, 0, 0⟩ ⟨0, 1, 0⟩ 0 0
    rw [NewtonSystem.D, h1, h2, h3, h4]
    norm_num [vec3_sub_def, Vec3.dot]
  have hrun : collinearTriangle.ProjectToSurface triElement ⟨0, 1, 0⟩ 0 0
      = .error (.divisionByZero 1) := by
    rw [ProjectToSurface_eq_loop collinearTriangle triElement
      [⟨0, 0, 0⟩, ⟨1, 0, 0⟩, ⟨2, 0, 0⟩] rfl (by simp)]
    exact newtonLoop_zero_det 3 _ _ 0 0 0 [] hD
  refine ⟨hD, hrun, ?_⟩
  rw [hrun]
  intro h
  cases h

/-- C6 (amended). `ProjectToSurface` never raises an error, `DegenerateProjection`
included.  When the determinant `D` of the first pass is zero the call divides by it in
pass 1, and in general a pass that meets `D = 0` divides by it. -/
theorem ProjectToSurface_zero_det_divides (S : FESurface) (el : FESurfaceElement)
    (ys : List Vec3) (x : Vec3) (r s : ℚ)
    (hy : nodalPositions S.m_pmesh FENode.m_rt el.m_node = .ok ys) (h4 : ys.length ≤ 4) :
    (∀ e, S.ProjectToSurface el x r s ≠ .error (.raised e)) ∧
    ((systemAt ys.length ys x r s).D = 0 →
      S.ProjectToSurface el x r s = .error (.divisionByZero 1)) ∧
    (∀ (r1 s1 : ℚ) (n : ℕ) (hist : List ℚ), (systemAt ys.length ys x r1 s1).D = 0 →
      newtonLoop ys.length ys x r1 s1 n hist = .error (.divisionByZero (n + 1))) := by
  refine ⟨fun e => ProjectToSurface_never_raises S el x r s e, ?_, ?_⟩
  · intro hD
    rw [ProjectToSurface_eq_loop S el ys hy h4]
    exact newtonLoop_zero_det _ _ _ _ _ _ _ hD
  · intro r1 s1 n hist hD
    exact newtonLoop_zero_det _ _ _ _ _ _ _ hD

/-- C6 (amended) at a concrete input: the collinear triangle, `x = (5,5,5)`, guess
`(1/2, 1/2)`. -/
theorem ProjectToSurface_zero_det_divides_witness :
    nodalPositions collinearTriangle.m_pmesh FENode.m_rt triElement.m_node
        = .ok [⟨0, 0, 0⟩, ⟨1, 0, 0⟩, ⟨2, 0, 0⟩] ∧
      (systemAt 3 [⟨0, 0, 0⟩, ⟨1, 0, 0⟩, ⟨2, 0, 0⟩] ⟨5, 5, 5⟩ (1/2) (1/2)).D = 0 ∧
      collinearTriangle.ProjectToSurface triElement ⟨5, 5, 5⟩ (1/2) (1/2)
        = .error (.divisionByZero 1) := by
  have hD : (systemAt 3 [⟨0, 0, 0⟩, ⟨1, 0, 0⟩, ⟨2, 0, 0⟩] ⟨5, 5, 5⟩ (1/2) (1/2)).D = 0 := by
    obtain ⟨h1, h2, h3, h4, _, _⟩ :=
      systemAt_three ⟨0, 0, 0⟩ ⟨1, 0, 0⟩ ⟨2, 0, 0⟩ ⟨5, 5, 5⟩ (1/2) (1/2)
    rw [NewtonSystem.D, h1, h2, h3, h4]
    norm_num [vec3_sub_def, Vec3.dot]
  exact ⟨rfl, hD, (ProjectToSurface_zero_det_divides collinearTriangle triElement
    [⟨0, 0, 0⟩, ⟨1, 0, 0⟩, ⟨2, 0, 0⟩] ⟨5, 5, 5⟩ (1/2) (1/2) rfl (by simp)).2.1 hD⟩

/-! ## C7: the iteration cap -/

/-- C7 (counterexample). On the warped quad `(0,0,0) (1,0,0) (0,1,0) (-2,1,-1)` the call
with `x = (1,-1,0)` and the guess `(-1,-1)` makes all five updates, and the norm of the
fifth step is 2, greater than `1e-5`.  The call returns normally: the caller gets the point
`(0,0,0)` and the coordinates `(1,-1)`, no error and no flag. -/
theorem ProjectToSurfaceD_cap_not_reported :
    warpedQuadD.ProjectToSurface quadElement (ptD 1 (-1) 0) (F64.ofInt (-1)) (F64.ofInt (-1))
        = .ok ⟨ptD 0 0 0, F64.ofInt 1, F64.ofInt (-1), 5, F64.ofInt 2⟩ ∧
      F64.gt (F64.ofInt 2) tolD = true := by
  decide!

/-- C7 (amended). When `ProjectToSurface`, called on an element of at most four nodes that
are nodes of the mesh, uses all 5 iterations and the norm of every step, the last
included, is greater than `1e-5`, the call returns normally: it hands the caller the point
assembled in the fifth pass and the coordinates `(r,s)` that the fifth update has left,
and it raises no error. -/
theorem ProjectToSurfaceD_cap_silent (S : FESurfaceD) (el : FESurfaceElement) (x : Vec3D)
    (r s : F64) (ys : List Vec3D) (hne : el.Nodes ≤ 4)
    (hy : nodalPositionsD S.m_pmesh el.m_node = .ok ys)
    (hbig : ∀ j, j < 5 → F64.gt (passAtD el.Nodes ys x j r s).normu tolD = true) :
    S.ProjectToSurface el x r s
        = .ok ⟨(passAtD el.Nodes ys x 4 r s).q, (passAtD el.Nodes ys x 4 r s).r,
            (passAtD el.Nodes ys x 4 r s).s, 5, (passAtD el.Nodes ys x 4 r s).normu⟩ ∧
      ∀ e, S.ProjectToSurface el x r s ≠ .error (.raised e) := by
  obtain ⟨k, h1, h2, h3, h4, h5, h6, _, h8⟩ :=
    newtonLoopD_trace el.Nodes ys x NMAX r s 0 (by decide) (by omega)
  have hN : NMAX = 5 := rfl
  rw [hN] at h2 h8
  have hk : k = 4 := by
    by_contra hk
    have h := h8 (by omega)
    rw [hbig k (by omega)] at h
    cases h
  subst hk
  have hcall : S.ProjectToSurface el x r s = .ok (newtonLoopD el.Nodes ys x NMAX r s 0) := by
    simp only [FESurfaceD.ProjectToSurface, if_neg (by omega : ¬ 4 < el.Nodes), hy]
  have hres : newtonLoopD el.Nodes ys x NMAX r s 0
      = ⟨(passAtD el.Nodes ys x 4 r s).q, (passAtD el.Nodes ys x 4 r s).r,
          (passAtD el.Nodes ys x 4 r s).s, 5, (passAtD el.Nodes ys x 4 r s).normu⟩ := by
    rw [← h3, ← h4, ← h5, ← h6]
    have h1n : (newtonLoopD el.Nodes ys x NMAX r s 0).n = 5 := by omega
    rw [← h1n]
  rw [hcall, hres]
  refine ⟨rfl, ?_⟩
  intro e h
  cases h

/-- C7 (amended) at a concrete input: the capped call on the warped quad. -/
theorem ProjectToSurfaceD_cap_silent_witness :
    quadElement.Nodes ≤ 4 ∧
      nodalPositionsD warpedQuadD.m_pmesh quadElement.m_node
        = .ok [ptD 0 0 0, ptD 1 0 0, ptD 0 1 0, ptD (-2) 1 (-1)] ∧
      (∀ j, j < 5 → F64.gt (passAtD quadElement.Nodes
          [ptD 0 0 0, ptD 1 0 0, ptD 0 1 0, ptD (-2) 1 (-1)] (ptD 1 (-1) 0) j
          (F64.ofInt (-1)) (F64.ofInt (-1))).normu tolD = true) ∧
      ∀ e, warpedQuadD.ProjectToSurface quadElement (ptD 1 (-1) 0) (F64.ofInt (-1))
        (F64.ofInt (-1)) ≠ .error (.raised e) :=
  ⟨by decide, rfl, by decide!,
    (ProjectToSurfaceD_cap_silent warpedQuadD quadElement (ptD 1 (-1) 0) (F64.ofInt (-1))
      (F64.ofInt (-1)) [ptD 0 0 0, ptD 1 0 0, ptD 0 1 0, ptD (-2) 1 (-1)] (by decide) rfl
      (by decide!)).2⟩

/-! ## `Init`: the node index table -/

theorem addNode_extends (order : List ℕ) (m : ℕ) : ∃ t, addNode order m = order ++ t := by
  unfold addNode
  split
  · exact ⟨[], by simp⟩
  · exact ⟨[m], rfl⟩

theorem addNodes_extends (ms : List ℕ) : ∀ order, ∃ t, addNodes order ms = order ++ t := by
  induction ms with
  | nil => intro order; exact ⟨[], by simp [addNodes]⟩
  | cons m ms ih =>
    intro order
    obtain ⟨t1, h1⟩ := addNode_extends order m
    obtain ⟨t2, h2⟩ := ih (addNode order m)
    refine ⟨t1 ++ t2, ?_⟩
    simp only [addNodes, List.foldl_cons] at h2 ⊢
    rw [h2, h1, List.append_assoc]

theorem surfaceNodes_extends (els : List FESurfaceElement) :
    ∀ order, ∃ t, surfaceNodes order els = order ++ t := by
  induction els with
  | nil => intro order; exact ⟨[], by simp [surfaceNodes]⟩
  | cons el els ih =>
    intro order
    obtain ⟨t1, h1⟩ := addNodes_extends el.m_node order
    obtain ⟨t2, h2⟩ := ih (addNodes order el.m_node)
    refine ⟨t1 ++ t2, ?_⟩
    simp only [surfaceNodes, List.foldl_cons] at h2 ⊢
    rw [h2, h1, List.append_assoc]

theorem mem_addNode (order : List ℕ) (m a : ℕ) : a ∈ addNode order m ↔ a ∈ order ∨ a = m := by
  unfold addNode
  split
  · rename_i h
    constructor
    · intro ha; exact Or.inl ha
    · rintro (ha | ha)
      · exact ha
      · rw [ha]; exact h
  · simp

theorem mem_addNodes (ms : List ℕ) : ∀ (order : List ℕ) (a : ℕ),
    a ∈ addNodes order ms ↔ a ∈ order ∨ a ∈ ms := by
  induction ms with
  | nil => intro order a; simp [addNodes]
  | cons m ms ih =>
    intro order a
    have h := ih (addNode order m) a
    simp only [addNodes, List.foldl_cons] at h ⊢
    rw [h, mem_addNode, List.mem_cons]
    tauto

theorem mem_surfaceNodes (els : List FESurfaceElement) : ∀ (order : List ℕ) (a : ℕ),
    a ∈ surfaceNodes order els ↔ a ∈ order ∨ ∃ el ∈ els, a ∈ el.m_node := by
  induction els with
  | nil => intro order a; simp [surfaceNodes]
  | cons el els ih =>
    intro order a
    have h := ih (addNodes order el.m_node) a
    simp only [surfaceNodes, List.foldl_cons] at h ⊢
    rw [h, mem_addNodes]
    simp only [List.mem_cons, exists_eq_or_imp]
    tauto

theorem nodup_addNode (order : List ℕ) (m : ℕ) (h : order.Nodup) : (addNode order m).Nodup := by
  unfold addNode
  split
  · exact h
  · rename_i hm
    rw [List.nodup_append]
    refine ⟨h, List.nodup_singleton m, ?_⟩
    intro a ha hb
    rw [List.mem_singleton] at hb
    exact hm (hb ▸ ha)

theorem nodup_addNodes (ms : List ℕ) : ∀ order : List ℕ, order.Nodup →
    (addNodes order ms).Nodup := by
  induction ms with
  | nil => intro order h; simpa [addNodes] using h
  | cons m ms ih =>
    intro order h
    have := ih (addNode order m) (nodup_addNode order m h)
    simpa [addNodes] using this

theorem nodup_surfaceNodes (els : List FESurfaceElement) : ∀ order : List ℕ, order.Nodup →
    (surfaceNodes order els).Nodup := by
  induction els with
  | nil => intro order h; simpa [surfaceNodes] using h
  | cons el els ih =>
    intro order h
    have := ih (addNodes order el.m_node) (nodup_addNodes el.m_node order h)
    simpa [surfaceNodes] using this

theorem tagOf_length (N : ℕ) (order : List ℕ) : (tagOf N order).length = N := by
  simp [tagOf]

theorem tagOf_getElem? (N : ℕ) (order : List ℕ) (i : ℕ) (hi : i < N) :
    (tagOf N order)[i]? = some (if i ∈ order then ((order.indexOf i : ℕ) : ℤ) else -1) := by
  simp [tagOf, List.getElem?_map, List.getElem?_range hi]

theorem tagOf_append_new (N : ℕ) (order : List ℕ) (m : ℕ) (hm : m ∉ order) :
    (tagOf N order).set m (order.length : ℤ) = tagOf N (order ++ [m]) := by
  apply List.ext_getElem?
  intro i
  rw [List.getElem?_set]
  by_cases hi : i < N
  · rw [tagOf_getElem? N _ i hi, tagOf_getElem? N _ i hi, tagOf_length]
    by_cases him : m = i
    · subst him
      rw [if_pos rfl, if_pos hi, if_pos (by simp), List.indexOf_append_of_not_mem hm]
      simp
    · rw [if_neg him]
      have hne : i ≠ m := fun h => him h.symm
      by_cases hio : i ∈ order
      · rw [if_pos hio, if_pos (by simp [hio]), List.indexOf_append_of_mem hio]
      · rw [if_neg hio, if_neg (by simp [hio, hne])]
  · have h1 : (tagOf N order)[i]? = none := List.getElem?_eq_none (by rw [tagOf_length]; omega)
    have h2 : (tagOf N (order ++ [m]))[i]? = none :=
      List.getElem?_eq_none (by rw [tagOf_length]; omega)
    rw [h1, h2, tagOf_length]
    split
    · rename_i h; subst h; rw [if_neg hi]
    · rfl

/-- One step of the tagging loop, on the abstract state. -/
theorem tagNode_spec (N : ℕ) (order : List ℕ) (m : ℕ) (hm : m < N) :
    tagNode (tagOf N order) order.length m
      = .ok (tagOf N (addNode order m), (addNode order m).length,
          (((addNode order m).indexOf m : ℕ) : ℤ)) := by
  unfold tagNode
  rw [tagOf_getElem? N order m hm]
  simp only
  by_cases hmo : m ∈ order
  · have hne : ¬ (((order.indexOf m : ℕ) : ℤ) = -1) := by omega
    rw [if_pos hmo, if_neg hne]
    simp [addNode, hmo]
  · rw [if_neg hmo, if_pos rfl, tagOf_append_new N order m hmo]
    simp [addNode, hmo, List.indexOf_append_of_not_mem hmo]
theorem indexOf_of_extends (o t : List ℕ) (m : ℕ) (hm : m ∈ o) :
    (o ++ t).indexOf m = o.indexOf m := List.indexOf_append_of_mem hm

theorem mem_addNode_self (order : List ℕ) (m : ℕ) : m ∈ addNode order m :=
  (mem_addNode order m m).2 (Or.inr rfl)

/-- The inner loop of `Init` over the nodes of one element, on the abstract state. -/
theorem tagElement_spec (N : ℕ) (ms : List ℕ) : ∀ (order : List ℕ), (∀ m ∈ ms, m < N) →
    tagElement (tagOf N order) order.length ms
      = .ok (tagOf N (addNodes order ms), (addNodes order ms).length,
          ms.map (fun m => (((addNodes order ms).indexOf m : ℕ) : ℤ))) := by
  induction ms with
  | nil => intro order _; simp [tagElement, addNodes]
  | cons m ms ih =>
    intro order hms
    have hm : m < N := hms m (List.mem_cons_self _ _)
    have hrest : ∀ a ∈ ms, a < N := fun a ha => hms a (List.mem_cons_of_mem _ ha)
    unfold tagElement
    rw [tagNode_spec N order m hm]
    simp only
    rw [ih (addNode order m) hrest]
    simp only
    have hfold : addNodes order (m :: ms) = addNodes (addNode order m) ms := by
      simp [addNodes]
    obtain ⟨t, ht⟩ := addNodes_extends ms (addNode order m)
    rw [hfold, List.map_cons, ht, indexOf_of_extends _ _ _ (mem_addNode_self order m)]

/-- The outer loop of `Init` over the elements, on the abstract state. -/
theorem tagElements_spec (N : ℕ) (els : List FESurfaceElement) : ∀ (order : List ℕ),
    (∀ el ∈ els, ∀ m ∈ el.m_node, m < N) →
    tagElements (tagOf N order) order.length els
      = .ok (tagOf N (surfaceNodes order els), (surfaceNodes order els).length,
          els.map (relabel (surfaceNodes order els))) := by
  induction els with
  | nil => intro order _; simp [tagElements, surfaceNodes]
  | cons el els ih =>
    intro order hels
    have hel : ∀ m ∈ el.m_node, m < N := hels el (List.mem_cons_self _ _)
    have hrest : ∀ e ∈ els, ∀ m ∈ e.m_node, m < N :=
      fun e he => hels e (List.mem_cons_of_mem _ he)
    unfold tagElements
    rw [tagElement_spec N el.m_node order hel]
    simp only
    rw [ih (addNodes order el.m_node) hrest]
    simp only
    have hfold : surfaceNodes order (el :: els) = surfaceNodes (addNodes order el.m_node) els := by
      simp [surfaceNodes]
    obtain ⟨t, ht⟩ := surfaceNodes_extends els (addNodes order el.m_node)
    have hrel : (⟨el.m_node, el.m_node.map
        (fun m => (((addNodes order el.m_node).indexOf m : ℕ) : ℤ))⟩ : FESurfaceElement)
        = relabel (surfaceNodes (addNodes order el.m_node) els) el := by
      unfold relabel
      congr 1
      apply List.map_congr_left
      intro m hm
      rw [ht, indexOf_of_extends _ _ _ ((mem_addNodes el.m_node order m).2 (Or.inr hm))]
    rw [hfold, List.map_cons, hrel]

/-- The second loop of `Init`: after the mesh nodes in `is`, the table holds `order[k]` at
every position `k` whose node is in `is`, and is unchanged elsewhere. -/
theorem fillNodeTable_spec (N : ℕ) (order : List ℕ) (hnd : order.Nodup) :
    ∀ (is : List ℕ) (node : List ℕ), node.length = order.length → (∀ i ∈ is, i < N) →
      ∃ node1, fillNodeTable (tagOf N order) node is = .ok node1 ∧
        node1.length = order.length ∧
        ∀ k (hk : k < order.length),
          node1[k]? = if order[k] ∈ is then some order[k] else node[k]? := by
  intro is
  induction is with
  | nil =>
    intro node hlen _
    exact ⟨node, rfl, hlen, fun k hk => by simp⟩
  | cons i is ih =>
    intro node hlen his
    have hi : i < N := his i (List.mem_cons_self _ _)
    have hrest : ∀ a ∈ is, a < N := fun a ha => his a (List.mem_cons_of_mem _ ha)
    unfold fillNodeTable fillNode
    rw [tagOf_getElem? N order i hi]
    simp only
    by_cases hio : i ∈ order
    · have hidx : order.indexOf i < order.length := List.indexOf_lt_length.2 hio
      rw [if_pos hio, if_pos (by omega)]
      simp only [Int.toNat_ofNat]
      rw [if_pos (by omega)]
      simp only
      obtain ⟨node1, h1, hl1, hget⟩ := ih (node.set (order.indexOf i) i) (by simpa using hlen) hrest
      refine ⟨node1, h1, hl1, ?_⟩
      intro k hk
      rw [hget k hk, List.getElem?_set]
      by_cases hki : order[k] = i
      · have : order.indexOf i = k := by
          rw [← hki]
          exact List.indexOf_getElem hnd k hk
        have hlt : order.indexOf i < node.length := by rw [hlen]; exact hidx
        rw [if_pos this, if_pos hlt]
        simp [hki]
      · have hne : ¬ (order.indexOf i = k) := by
          intro h
          apply hki
          subst h
          exact List.getElem_indexOf hidx
        rw [if_neg hne]
        simp [List.mem_cons, hki]
    · have hneg : ¬ ((0 : ℤ) ≤ -1) := by omega
      rw [if_neg hio, if_neg hneg]
      simp only
      obtain ⟨node1, h1, hl1, hget⟩ := ih node hlen hrest
      refine ⟨node1, h1, hl1, ?_⟩
      intro k hk
      rw [hget k hk]
      have hki : order[k] ≠ i := by
        intro h
        apply hio
        rw [← h]
        exact List.getElem_mem _
      simp [List.mem_cons, hki]

/-- What `Init` computes on a surface whose elements reference existing mesh nodes: the node
table is the list of distinct referenced nodes in first-occurrence order, and the local
number of a node is its position in that list. -/
theorem Init_spec (S : FESurface) (hv : S.validNodes) :
    S.Init = .ok { S with m_el := S.m_el.map (relabel (surfaceNodes [] S.m_el)),
                          node := surfaceNodes [] S.m_el } := by
  have hnd : (surfaceNodes [] S.m_el).Nodup := nodup_surfaceNodes _ _ List.nodup_nil
  have hbound : ∀ m ∈ surfaceNodes [] S.m_el, m < S.m_pmesh.Nodes := by
    intro m hm
    rcases (mem_surfaceNodes _ _ _).1 hm with h | ⟨el, hel, hmel⟩
    · cases h
    · exact hv el hel m hmel
  have htag : List.replicate S.m_pmesh.Nodes (-1 : ℤ) = tagOf S.m_pmesh.Nodes [] := by
    simp [tagOf]
  unfold FESurface.Init
  simp only
  rw [htag]
  have h1 := tagElements_spec S.m_pmesh.Nodes S.m_el [] hv
  simp only [List.length_nil] at h1
  rw [h1]
  simp only
  obtain ⟨node1, h2, hl, hget⟩ := fillNodeTable_spec S.m_pmesh.Nodes _ hnd
    (List.range S.m_pmesh.Nodes) (List.replicate (surfaceNodes [] S.m_el).length 0)
    (by simp) (fun i hi => List.mem_range.1 hi)
  rw [h2]
  simp only
  have : node1 = surfaceNodes [] S.m_el := by
    apply List.ext_getElem?
    intro k
    by_cases hk : k < (surfaceNodes [] S.m_el).length
    · rw [hget k hk, if_pos (List.mem_range.2 (hbound _ (List.getElem_mem _)))]
      exact (List.getElem?_eq_getElem hk).symm
    · rw [List.getElem?_eq_none (by omega), List.getElem?_eq_none (by omega)]
  rw [this]
theorem tagNode_error (tag : List ℤ) (nn m : ℕ) (e : Stop) (h : tagNode tag nn m = .error e) :
    e = .indexOutOfRange := by
  unfold tagNode at h
  split at h
  · cases h; rfl
  · split at h <;> cases h

theorem tagElement_error (ms : List ℕ) : ∀ (tag : List ℤ) (nn : ℕ) (e : Stop),
    tagElement tag nn ms = .error e → e = .indexOutOfRange := by
  induction ms with
  | nil => intro tag nn e h; simp [tagElement] at h
  | cons m ms ih =>
    intro tag nn e h
    unfold tagElement at h
    split at h
    · rename_i e1 h1
      cases h
      exact tagNode_error _ _ _ _ h1
    · split at h
      · rename_i e1 h1
        cases h
        exact ih _ _ _ h1
      · cases h

theorem tagElements_error (els : List FESurfaceElement) : ∀ (tag : List ℤ) (nn : ℕ) (e : Stop),
    tagElements tag nn els = .error e → e = .indexOutOfRange := by
  induction els with
  | nil => intro tag nn e h; simp [tagElements] at h
  | cons el els ih =>
    intro tag nn e h
    unfold tagElements at h
    split at h
    · rename_i e1 h1
      cases h
      exact tagElement_error _ _ _ _ h1
    · split at h
      · rename_i e1 h1
        cases h
        exact ih _ _ _ h1
      · cases h

theorem fillNode_error (tag : List ℤ) (node : List ℕ) (i : ℕ) (e : Stop)
    (h : fillNode tag node i = .error e) : e = .indexOutOfRange := by
  unfold fillNode at h
  split at h
  · cases h; rfl
  · split at h
    · split at h
      · cases h
      · cases h; rfl
    · cases h

theorem fillNodeTable_error (tag : List ℤ) (is : List ℕ) : ∀ (node : List ℕ) (e : Stop),
    fillNodeTable tag node is = .error e → e = .indexOutOfRange := by
  induction is with
  | nil => intro node e h; simp [fillNodeTable] at h
  | cons i is ih =>
    intro node e h
    unfold fillNodeTable at h
    split at h
    · rename_i e1 h1
      cases h
      exact fillNode_error _ _ _ _ h1
    · exact ih _ _ h

/-- The embedded `Init` fails only by indexing out of range. -/
theorem Init_error (S : FESurface) (e : Stop) (h : S.Init = .error e) :
    e = .indexOutOfRange := by
  unfold FESurface.Init at h
  simp only at h
  split at h
  · rename_i e1 h1
    cases h
    exact tagElements_error _ _ _ _ h1
  · split at h
    · rename_i e1 h1
      cases h
      exact fillNodeTable_error _ _ _ _ h1
    · cases h

/-! ## C8, C9, C10 -/

/-- C8. After `Init` on a surface whose elements reference valid mesh node numbers, the node
index table is a bijection between the local numbers `0..nn-1` and the set of distinct
global nodes referenced by the elements: it contains no global node twice, a node occurs in
it exactly when an element references it, its length `nn` is the number of distinct
referenced nodes, and every referenced node has exactly one local number. -/
theorem Init_node_table_bijective (S : FESurface) (hv : S.validNodes) :
    ∃ S1, S.Init = .ok S1 ∧ S1.node.Nodup ∧
      (∀ m, m ∈ S1.node ↔ ∃ el ∈ S.m_el, m ∈ el.m_node) ∧
      S1.node.length = (S.m_el.flatMap (fun el => el.m_node)).toFinset.card ∧
      (∀ m, (∃ el ∈ S.m_el, m ∈ el.m_node) →
        ∃ k : ℕ, S1.node[k]? = some m ∧ ∀ k1 : ℕ, S1.node[k1]? = some m → k1 = k) := by
  have hnd : (surfaceNodes [] S.m_el).Nodup := nodup_surfaceNodes _ _ List.nodup_nil
  have hmem : ∀ m, m ∈ surfaceNodes [] S.m_el ↔ ∃ el ∈ S.m_el, m ∈ el.m_node := by
    intro m
    rw [mem_surfaceNodes]
    simp
  refine ⟨_, Init_spec S hv, hnd, hmem, ?_, ?_⟩
  · simp only
    rw [← List.toFinset_card_of_nodup hnd]
    congr 1
    ext m
    simp only [List.mem_toFinset, hmem, List.mem_flatMap]
  · intro m hm
    simp only
    have hin : m ∈ surfaceNodes [] S.m_el := (hmem m).2 hm
    obtain ⟨k, hk⟩ := List.mem_iff_getElem?.1 hin
    refine ⟨k, hk, ?_⟩
    intro k1 hk1
    obtain ⟨h1, e1⟩ := List.getElem?_eq_some_iff.1 hk1
    obtain ⟨h2, e2⟩ := List.getElem?_eq_some_iff.1 hk
    exact (List.Nodup.getElem_inj_iff hnd).1 (e1.trans e2.symm)

/-- C8 at a concrete input: the sample surface, whose node table becomes `3 1 4 5`. -/
theorem Init_node_table_bijective_witness :
    sampleSurface.validNodes ∧
      ∃ S1, sampleSurface.Init = .ok S1 ∧ S1.node.Nodup ∧
        (∀ m, m ∈ S1.node ↔ ∃ el ∈ sampleSurface.m_el, m ∈ el.m_node) ∧
        S1.node.length = (sampleSurface.m_el.flatMap (fun el => el.m_node)).toFinset.card ∧
        (∀ m, (∃ el ∈ sampleSurface.m_el, m ∈ el.m_node) →
          ∃ k : ℕ, S1.node[k]? = some m ∧ ∀ k1 : ℕ, S1.node[k1]? = some m → k1 = k) :=
  ⟨by unfold FESurface.validNodes; decide,
    Init_node_table_bijective sampleSurface (by unfold FESurface.validNodes; decide)⟩

/-- C9. After `Init`, for every element of the surface and every local index `j` of that
element, the node index table maps the local node number back to the global node number,
`node[el.m_lnode[j]] == el.m_node[j]`, and `Init` leaves every `el.m_node` unchanged. -/
theorem Init_local_to_global (S : FESurface) (hv : S.validNodes) :
    ∃ S1, S.Init = .ok S1 ∧
      S1.m_el.map (fun el => el.m_node) = S.m_el.map (fun el => el.m_node) ∧
      ∀ el ∈ S1.m_el, el.m_lnode.length = el.m_node.length ∧
        ∀ j (hj : j < el.m_node.length), ∃ l : ℤ, el.m_lnode[j]? = some l ∧ 0 ≤ l ∧
          S1.node[l.toNat]? = some el.m_node[j] := by
  refine ⟨_, Init_spec S hv, ?_, ?_⟩
  · simp only [List.map_map]
    apply List.map_congr_left
    intro el _
    rfl
  · intro el hel
    simp only at hel ⊢
    obtain ⟨e0, he0, rfl⟩ := List.mem_map.1 hel
    refine ⟨by simp [relabel], ?_⟩
    intro j hj
    have hj0 : j < e0.m_node.length := hj
    have hin : e0.m_node[j] ∈ surfaceNodes [] S.m_el :=
      (mem_surfaceNodes _ _ _).2 (Or.inr ⟨e0, he0, List.getElem_mem _⟩)
    refine ⟨(((surfaceNodes [] S.m_el).indexOf e0.m_node[j] : ℕ) : ℤ), ?_, by omega, ?_⟩
    · simp [relabel, List.getElem?_map, List.getElem?_eq_getElem hj0]
    · simp only [Int.toNat_ofNat]
      have h := List.indexOf_get? hin
      rw [List.get?_eq_getElem?] at h
      exact h

/-- C9 at a concrete input: the sample surface. -/
theorem Init_local_to_global_witness :
    sampleSurface.validNodes ∧
      ∃ S1, sampleSurface.Init = .ok S1 ∧
        S1.m_el.map (fun el => el.m_node) = sampleSurface.m_el.map (fun el => el.m_node) ∧
        ∀ el ∈ S1.m_el, el.m_lnode.length = el.m_node.length ∧
          ∀ j (hj : j < el.m_node.length), ∃ l : ℤ, el.m_lnode[j]? = some l ∧ 0 ≤ l ∧
            S1.node[l.toNat]? = some el.m_node[j] :=
  ⟨by unfold FESurface.validNodes; decide,
    Init_local_to_global sampleSurface (by unfold FESurface.validNodes; decide)⟩
/-- C10 (counterexample). A surface that holds a 2-node element, a triangle that lists one
node twice and a 5-node element passes `Init`: the node table and the local numbers are
built and no `InvalidSurfaceTopology` error is raised. -/
theorem Init_accepts_odd_surface :
    ∃ S1, oddSurface.Init = .ok S1 ∧ S1.node = [0, 1, 2, 3, 4] ∧
      S1.m_el = [⟨[0, 1], [0, 1]⟩, ⟨[2, 2, 3], [2, 2, 3]⟩, ⟨[0, 1, 2, 3, 4], [0, 1, 2, 3, 4]⟩] ∧
      oddSurface.Init ≠ .error (.raised .InvalidSurfaceTopology) := by
  have hv : oddSurface.validNodes := by unfold FESurface.validNodes; decide
  have h := Init_spec oddSurface hv
  refine ⟨_, h, by decide, by decide, ?_⟩
  rw [h]
  intro h1
  cases h1

/-- C10 (amended). `Init` makes no check of the topology and raises no error: on every
surface whose elements reference valid mesh node numbers, whatever the node counts of the
elements and whether or not an element lists a node twice, it completes and builds the
node table; on no surface does it raise `InvalidSurfaceTopology`. -/
theorem Init_never_fails (S : FESurface) :
    (∀ e, S.Init ≠ .error (.raised e)) ∧ (S.validNodes → ∃ S1, S.Init = .ok S1) := by
  constructor
  · intro e h
    have := Init_error S _ h
    cases this
  · intro hv
    exact ⟨_, Init_spec S hv⟩

/-- C10 (amended) at a concrete input: the surface with the odd elements. -/
theorem Init_never_fails_witness :
    oddSurface.validNodes ∧ ∃ S1, oddSurface.Init = .ok S1 :=
  ⟨by unfold FESurface.validNodes; decide,
    (Init_never_fails oddSurface).2 (by unfold FESurface.validNodes; decide)⟩

/-! ## C19: nodal interpolation -/

/-- C19. Nodal interpolation: on a 4-node element `Local2Global` at
`(r,s) = (-1,-1), (1,-1), (1,1), (-1,1)` returns the current position of node 0, 1, 2, 3,
and on a 3-node element at `(0,0), (1,0), (0,1)` it returns the current position of node
0, 1, 2. -/
theorem Local2Global_at_nodes (S : FESurface) (el : FESurfaceElement) :
    (∀ y0 y1 y2 y3 : Vec3,
      nodalPositions S.m_pmesh FENode.m_rt el.m_node = .ok [y0, y1, y2, y3] →
      S.Local2Global el (-1) (-1) = .ok y0 ∧ S.Local2Global el 1 (-1) = .ok y1 ∧
      S.Local2Global el 1 1 = .ok y2 ∧ S.Local2Global el (-1) 1 = .ok y3) ∧
    (∀ y0 y1 y2 : Vec3,
      nodalPositions S.m_pmesh FENode.m_rt el.m_node = .ok [y0, y1, y2] →
      S.Local2Global el 0 0 = .ok y0 ∧ S.Local2Global el 1 0 = .ok y1 ∧
      S.Local2Global el 0 1 = .ok y2) := by
  constructor
  · intro y0 y1 y2 y3 hy
    refine ⟨?_, ?_, ?_, ?_⟩ <;>
    · rw [Local2Global_four S el y0 y1 y2 y3 hy]
      congr 1
      simp only [pt4, vec3_add_def, Vec3.scale, Vec3.zero]
      ext <;> norm_num
  · intro y0 y1 y2 hy
    refine ⟨?_, ?_, ?_⟩ <;>
    · rw [Local2Global_three S el y0 y1 y2 hy]
      congr 1
      simp only [pt3, vec3_add_def, Vec3.scale, Vec3.zero]
      ext <;> norm_num

/-- C19 at concrete inputs: the slanted quad and the unit right triangle. -/
theorem Local2Global_at_nodes_witness :
    (nodalPositions slantedQuad.m_pmesh FENode.m_rt quadElement.m_node
        = .ok [⟨0, 0, 0⟩, ⟨2, 0, 0⟩, ⟨3, 1, 1⟩, ⟨1, 1, 1⟩] ∧
      slantedQuad.Local2Global quadElement (-1) (-1) = .ok ⟨0, 0, 0⟩ ∧
      slantedQuad.Local2Global quadElement 1 (-1) = .ok ⟨2, 0, 0⟩ ∧
      slantedQuad.Local2Global quadElement 1 1 = .ok ⟨3, 1, 1⟩ ∧
      slantedQuad.Local2Global quadElement (-1) 1 = .ok ⟨1, 1, 1⟩) ∧
    (nodalPositions unitTriangle.m_pmesh FENode.m_rt triElement.m_node
        = .ok [⟨0, 0, 0⟩, ⟨1, 0, 0⟩, ⟨0, 1, 0⟩] ∧
      unitTriangle.Local2Global triElement 0 0 = .ok ⟨0, 0, 0⟩ ∧
      unitTriangle.Local2Global triElement 1 0 = .ok ⟨1, 0, 0⟩ ∧
      unitTriangle.Local2Global triElement 0 1 = .ok ⟨0, 1, 0⟩) :=
  ⟨⟨rfl, (Local2Global_at_nodes slantedQuad quadElement).1 ⟨0, 0, 0⟩ ⟨2, 0, 0⟩ ⟨3, 1, 1⟩
      ⟨1, 1, 1⟩ rfl⟩,
   ⟨rfl, (Local2Global_at_nodes unitTriangle triElement).2 ⟨0, 0, 0⟩ ⟨1, 0, 0⟩ ⟨0, 1, 0⟩ rfl⟩⟩
/-! ## C20: the Newton system -/

/-- C16. `FEDamageMooneyRivlin::Init` raises `MaterialError` if and only if `c1 <= 0` or
`c1 + c2 <= 0`: under that condition it raises whatever the base-class initialisation would
do, that is before the base-class initialisation runs, and otherwise it raises nothing of
its own and hands over to the base-class initialisation; a negative `c2` with `c1 > 0` and
`c1 + c2 > 0` is accepted. -/
theorem FEDamageMooneyRivlin_Init_raises (m : FEDamageMooneyRivlin) :
    ((∃ e, ∀ baseInit, m.Init baseInit = .error e) ↔ (m.c1 ≤ 0 ∨ m.c1 + m.c2 ≤ 0)) ∧
    ((∃ e, m.Init (.ok ()) = .error e) ↔ (m.c1 ≤ 0 ∨ m.c1 + m.c2 ≤ 0)) ∧
    (¬ (m.c1 ≤ 0 ∨ m.c1 + m.c2 ≤ 0) → ∀ baseInit, m.Init baseInit = baseInit) ∧
    (m.c2 < 0 → 0 < m.c1 → 0 < m.c1 + m.c2 → m.Init (.ok ()) = .ok ()) := by
  have hpos : ¬ (m.c1 ≤ 0 ∨ m.c1 + m.c2 ≤ 0) → ∀ baseInit, m.Init baseInit = baseInit := by
    intro h baseInit
    have h1 : ¬ m.c1 ≤ 0 := fun h1 => h (Or.inl h1)
    have h2 : ¬ m.c1 + m.c2 ≤ 0 := fun h2 => h (Or.inr h2)
    simp [FEDamageMooneyRivlin.Init, h1, h2]
  have hneg : (m.c1 ≤ 0 ∨ m.c1 + m.c2 ≤ 0) → ∃ e, ∀ baseInit, m.Init baseInit = .error e := by
    intro h
    by_cases h1 : m.c1 ≤ 0
    · exact ⟨⟨"c1 must be a positive number"⟩, fun b => by simp [FEDamageMooneyRivlin.Init, h1]⟩
    · have h2 : m.c1 + m.c2 ≤ 0 := h.resolve_left h1
      exact ⟨⟨"c1 + c2 must be a positive number."⟩,
        fun b => by simp [FEDamageMooneyRivlin.Init, h1, h2]⟩
  refine ⟨⟨?_, hneg⟩, ⟨?_, ?_⟩, hpos, ?_⟩
  · rintro ⟨e, he⟩
    by_contra hc
    have := he (.ok ())
    rw [hpos hc] at this
    cases this
  · rintro ⟨e, he⟩
    by_contra hc
    rw [hpos hc] at he
    cases he
  · intro h
    obtain ⟨e, he⟩ := hneg h
    exact ⟨e, he _⟩
  · intro _ h1 h2
    exact hpos (by rintro (h | h) <;> linarith) _

/-- C16 at concrete inputs: `c1 = 2`, `c2 = -1` is accepted; `c1 = 1`, `c2 = -1` raises. -/
theorem FEDamageMooneyRivlin_Init_raises_witness :
    ((-1 : ℚ) < 0 ∧ (0 : ℚ) < 2 ∧ (0 : ℚ) < 2 + -1 ∧
      (⟨2, -1, 1/10, 1635/10000, 2974/10000⟩ : FEDamageMooneyRivlin).Init (.ok ()) = .ok ()) ∧
    (((1 : ℚ) ≤ 0 ∨ (1 : ℚ) + -1 ≤ 0) ∧
      ∃ e, ∀ baseInit,
        (⟨1, -1, 1/10, 1635/10000, 2974/10000⟩ : FEDamageMooneyRivlin).Init baseInit
          = .error e) :=
  ⟨⟨by norm_num, by norm_num, by norm_num,
      (FEDamageMooneyRivlin_Init_raises ⟨2, -1, 1/10, 1635/10000, 2974/10000⟩).2.2.2
        (by norm_num) (by norm_num) (by norm_num)⟩,
   ⟨Or.inr (by norm_num),
      (FEDamageMooneyRivlin_Init_raises ⟨1, -1, 1/10, 1635/10000, 2974/10000⟩).1.2
        (Or.inr (by norm_num))⟩⟩

/-! ## C17: `FEMortarTiedContact::Augment` -/

theorem cross_dot_left (a b : Vec3) : (a.cross b).dot a = 0 := by
  simp only [Vec3.cross, Vec3.dot]; ring

theorem cross_dot_right (a b : Vec3) : (a.cross b).dot b = 0 := by
  simp only [Vec3.cross, Vec3.dot]; ring

/-- Linearly independent vectors have a cross product that is not zero. -/
theorem cross_ne_zero_of_linIndep (u v : Vec3) (h : LinIndep u v) : u.cross v ≠ 0 := by
  intro hc
  have hx := congrArg Vec3.x hc
  have hy := congrArg Vec3.y hc
  have hz := congrArg Vec3.z hc
  simp only [Vec3.cross, vec3_zero_def] at hx hy hz
  have h1 := h (u.dot v) (-(u.dot u)) (by
    rw [vec3_zero_def]
    simp only [vec3_add_def, Vec3.scale, Vec3.dot]
    ext
    · simp only; linear_combination (-u.z) * hy + u.y * hz
    · simp only; linear_combination u.z * hx + (-u.x) * hz
    · simp only; linear_combination (-u.y) * hx + u.x * hy)
  have huu : u.norm2 = 0 := by
    have := h1.2
    simp only [Vec3.norm2]
    linarith
  have hu : u = 0 := (norm2_eq_zero_iff u).1 huu
  have h2 := h 1 0 (by
    rw [hu, vec3_zero_def]
    simp [vec3_add_def, Vec3.scale])
  exact one_ne_zero h2.1

/-- The normalised vector of a vector that is not zero: unit length and a positive multiple
of the vector. -/
theorem unit_spec (v : Vec3) (hv : v ≠ 0) :
    ∃ c : ℝ, 0 < c ∧ v.unit = ⟨c * v.x, c * v.y, c * v.z⟩ ∧
      c * c * ((v.norm2 : ℚ) : ℝ) = 1 := by
  have hn : v.norm2 ≠ 0 := fun h => hv ((norm2_eq_zero_iff v).1 h)
  have hpos : (0 : ℝ) < ((v.norm2 : ℚ) : ℝ) := by
    have h0 : (0 : ℚ) ≤ v.norm2 := by
      simp only [Vec3.norm2, Vec3.dot]
      nlinarith [mul_self_nonneg v.x, mul_self_nonneg v.y, mul_self_nonneg v.z]
    have : (0 : ℚ) < v.norm2 := lt_of_le_of_ne h0 (Ne.symm hn)
    exact_mod_cast this
  have hd : 0 < v.norm := Real.sqrt_pos.2 hpos
  have hdd : v.norm * v.norm = ((v.norm2 : ℚ) : ℝ) := Real.mul_self_sqrt hpos.le
  refine ⟨1 / v.norm, by positivity, ?_, ?_⟩
  · simp only [Vec3.unit, if_neg hn]
    congr 1 <;> ring
  · rw [← hdd]
    field_simp

/-- On an element with three or four nodes `SurfaceNormal` returns the normalised cross
product of the two tangent vectors. -/
theorem SurfaceNormal_eq (S : FESurface) (el : FESurfaceElement) (ys : List Vec3)
    (hy : nodalPositions S.m_pmesh FENode.m_rt el.m_node = .ok ys)
    (hne : ys.length = 3 ∨ ys.length = 4) (r s : ℚ) :
    S.SurfaceNormal el r s
      = .ok ((tangentsAt ys r s).1.cross (tangentsAt ys r s).2).unit := by
  have hl := nodalPositions_length _ _ _ _ hy
  rcases hne with h3 | h4
  · match ys, h3 with
    | [y0, y1, y2], _ =>
      have hn : el.Nodes = 3 := by simp [FESurfaceElement.Nodes, ← hl]
      simp [FESurface.SurfaceNormal, hn, hy, derivShape, addScaled, List.range_succ, yAt,
        tangentsAt, pt3]
  · match ys, h4 with
    | [y0, y1, y2, y3], _ =>
      have hn : el.Nodes = 4 := by simp [FESurfaceElement.Nodes, ← hl]
      simp [FESurface.SurfaceNormal, hn, hy, derivShape, addScaled, List.range_succ, yAt,
        tangentsAt, pt4]

/-- C12. For every 3- or 4-node element and every `(r,s)` at which the two current tangent
vectors `xr = sum Hr_i*y_i` and `xs = sum Hs_i*y_i` are linearly independent,
`SurfaceNormal(el, r, s)` returns a vector of unit length that is orthogonal to both `xr`
and `xs` and is a positive multiple of `xr` cross `xs`. -/
theorem SurfaceNormal_unit_normal (S : FESurface) (el : FESurfaceElement) (ys : List Vec3)
    (hy : nodalPositions S.m_pmesh FENode.m_rt el.m_node = .ok ys)
    (hne : ys.length = 3 ∨ ys.length = 4) (r s : ℚ)
    (hind : LinIndep (tangentsAt ys r s).1 (tangentsAt ys r s).2) :
    ∃ n : Vec3R, S.SurfaceNormal el r s = .ok n ∧
      n.x * n.x + n.y * n.y + n.z * n.z = 1 ∧
      n.x * (tangentsAt ys r s).1.x + n.y * (tangentsAt ys r s).1.y
        + n.z * (tangentsAt ys r s).1.z = 0 ∧
      n.x * (tangentsAt ys r s).2.x + n.y * (tangentsAt ys r s).2.y
        + n.z * (tangentsAt ys r s).2.z = 0 ∧
      ∃ c : ℝ, 0 < c ∧
        n.x = c * ((tangentsAt ys r s).1.cross (tangentsAt ys r s).2).x ∧
        n.y = c * ((tangentsAt ys r s).1.cross (tangentsAt ys r s).2).y ∧
        n.z = c * ((tangentsAt ys r s).1.cross (tangentsAt ys r s).2).z := by
  obtain ⟨c, hc, hu, hcc⟩ := unit_spec _ (cross_ne_zero_of_linIndep _ _ hind)
  refine ⟨_, SurfaceNormal_eq S el ys hy hne r s, ?_, ?_, ?_, c, hc, ?_, ?_, ?_⟩
  · rw [hu]
    simp only
    have : ((((tangentsAt ys r s).1.cross (tangentsAt ys r s).2).norm2 : ℚ) : ℝ)
        = ((((tangentsAt ys r s).1.cross (tangentsAt ys r s).2).x : ℚ) : ℝ) ^ 2
          + ((((tangentsAt ys r s).1.cross (tangentsAt ys r s).2).y : ℚ) : ℝ) ^ 2
          + ((((tangentsAt ys r s).1.cross (tangentsAt ys r s).2).z : ℚ) : ℝ) ^ 2 := by
      simp only [Vec3.norm2, Vec3.dot]
      push_cast
      ring
    rw [this] at hcc
    linear_combination hcc
  · rw [hu]
    simp only
    have h0 := cross_dot_left (tangentsAt ys r s).1 (tangentsAt ys r s).2
    have h1 : ((((tangentsAt ys r s).1.cross (tangentsAt ys r s).2).dot
        (tangentsAt ys r s).1 : ℚ) : ℝ) = 0 := by rw [h0]; norm_num
    simp only [Vec3.dot] at h1
    push_cast at h1
    linear_combination c * h1
  · rw [hu]
    simp only
    have h0 := cross_dot_right (tangentsAt ys r s).1 (tangentsAt ys r s).2
    have h1 : ((((tangentsAt ys r s).1.cross (tangentsAt ys r s).2).dot
        (tangentsAt ys r s).2 : ℚ) : ℝ) = 0 := by rw [h0]; norm_num
    simp only [Vec3.dot] at h1
    push_cast at h1
    linear_combination c * h1
  · rw [hu]
  · rw [hu]
  · rw [hu]

/-- The tangent vectors of the unit right triangle are linearly independent. -/
theorem unitTriangle_linIndep (r s : ℚ) :
    LinIndep (tangentsAt [⟨0, 0, 0⟩, ⟨1, 0, 0⟩, ⟨0, 1, 0⟩] r s).1
      (tangentsAt [⟨0, 0, 0⟩, ⟨1, 0, 0⟩, ⟨0, 1, 0⟩] r s).2 := by
  intro a b h
  have hx := congrArg Vec3.x h
  have hy := congrArg Vec3.y h
  simp [tangentsAt, pt3, vec3_add_def, Vec3.scale, Vec3.zero, vec3_zero_def] at hx hy
  exact ⟨hx, hy⟩

/-- C12 at a concrete input: the unit right triangle at `(1/3, 1/3)`. -/
theorem SurfaceNormal_unit_normal_witness :
    nodalPositions unitTriangle.m_pmesh FENode.m_rt triElement.m_node
        = .ok [⟨0, 0, 0⟩, ⟨1, 0, 0⟩, ⟨0, 1, 0⟩] ∧
      LinIndep (tangentsAt [⟨0, 0, 0⟩, ⟨1, 0, 0⟩, ⟨0, 1, 0⟩] (1/3) (1/3)).1
        (tangentsAt [⟨0, 0, 0⟩, ⟨1, 0, 0⟩, ⟨0, 1, 0⟩] (1/3) (1/3)).2 ∧
      ∃ n : Vec3R, unitTriangle.SurfaceNormal triElement (1/3) (1/3) = .ok n ∧
        n.x * n.x + n.y * n.y + n.z * n.z = 1 := by
  obtain ⟨n, h1, h2, _⟩ := SurfaceNormal_unit_normal unitTriangle triElement
    [⟨0, 0, 0⟩, ⟨1, 0, 0⟩, ⟨0, 1, 0⟩] rfl (Or.inl rfl) (1/3) (1/3)
    (unitTriangle_linIndep (1/3) (1/3))
  exact ⟨rfl, unitTriangle_linIndep (1/3) (1/3), n, h1, h2⟩

/-! ## C13: `FaceArea` -/

/-- C13 (failing input). On the unit right triangle (3 nodes, area 1/2) with the four-point
rule the loop of `FaceArea` runs over `n < 3`, the number of nodes, and returns
`-27/96 + 25/96 + 25/96 = 23/96`, while the quadrature sum over the four integration points
is `1/2`; with the one-point rule the loop reads `Gr(1)` outside the rule, while the
quadrature sum is `1/2`; with the three-point rule, where the two counts agree, it returns
the quadrature sum `1/2`. -/
theorem FaceArea_loops_over_nodes :
    unitTriangle.FaceArea triElement triRule4 = .ok (23/96) ∧
      quadratureArea unitTriangle triElement triRule4 = .ok (1/2) ∧
      unitTriangle.FaceArea triElement triRule1 = .error .indexOutOfRange ∧
      quadratureArea unitTriangle triElement triRule1 = .ok (1/2) ∧
      unitTriangle.FaceArea triElement triRule3 = .ok (1/2) ∧
      quadratureArea unitTriangle triElement triRule3 = .ok (1/2) := by
  have hy : nodalPositions unitTriangle.m_pmesh FENode.m_r0 triElement.m_node
      = .ok [⟨0, 0, 0⟩, ⟨1, 0, 0⟩, ⟨0, 1, 0⟩] := rfl
  have hn : triElement.Nodes = 3 := rfl
  refine ⟨?_, ?_, ?_, ?_, ?_, ?_⟩
  · simp [FESurface.FaceArea, hy, hn, addArea, areaTerm, triRule4, readAt, addJacobian,
      List.range_succ, yAt, Vec3.zero, Vec3.cross, Vec3.norm, Vec3.norm2, Vec3.dot]
    norm_num
  · simp [quadratureArea, ElementIntegration.GaussPoints, hy, hn, addArea, areaTerm, triRule4,
      readAt, addJacobian, List.range_succ, yAt, Vec3.zero, Vec3.cross, Vec3.norm, Vec3.norm2,
      Vec3.dot]
    norm_num
  · simp [FESurface.FaceArea, hy, hn, addArea, areaTerm, triRule1, readAt, addJacobian,
      List.range_succ, yAt, Vec3.zero, Vec3.cross, Vec3.norm, Vec3.norm2, Vec3.dot]
  · simp [quadratureArea, ElementIntegration.GaussPoints, hy, hn, addArea, areaTerm, triRule1,
      readAt, addJacobian, List.range_succ, yAt, Vec3.zero, Vec3.cross, Vec3.norm, Vec3.norm2,
      Vec3.dot]
  · simp [FESurface.FaceArea, hy, hn, addArea, areaTerm, triRule3, readAt, addJacobian,
      List.range_succ, yAt, Vec3.zero, Vec3.cross, Vec3.norm, Vec3.norm2, Vec3.dot]
    norm_num
  · simp [quadratureArea, ElementIntegration.GaussPoints, hy, hn, addArea, areaTerm, triRule3,
      readAt, addJacobian, List.range_succ, yAt, Vec3.zero, Vec3.cross, Vec3.norm, Vec3.norm2,
      Vec3.dot]
    norm_num

/-- The gathered positions depend on the mesh only through the field that is read. -/
theorem nodalPositions_congr (m1 m2 : FEMesh) (sel : FENode → Vec3)
    (h : m1.m_Node.map sel = m2.m_Node.map sel) :
    ∀ ms : List ℕ, nodalPositions m1 sel ms = nodalPositions m2 sel ms := by
  have hget : ∀ i : ℕ, (m1.m_Node[i]?).map sel = (m2.m_Node[i]?).map sel := by
    intro i
    rw [← List.getElem?_map, ← List.getElem?_map, h]
  intro ms
  induction ms with
  | nil => rfl
  | cons m ms ih =>
    have hm := hget m
    simp only [nodalPositions, FEMesh.Node, ih]
    cases h1 : m1.m_Node[m]? <;> cases h2 : m2.m_Node[m]? <;> simp [h1, h2] at hm ⊢
    rw [hm]

/-- The true part of C13: `FaceArea` reads reference positions only, so it does not change
when the current nodal positions change. -/
theorem FaceArea_reads_reference_only (S1 S2 : FESurface) (el : FESurfaceElement)
    (q : ElementIntegration)
    (h : S1.m_pmesh.m_Node.map FENode.m_r0 = S2.m_pmesh.m_Node.map FENode.m_r0) :
    S1.FaceArea el q = S2.FaceArea el q := by
  simp only [FESurface.FaceArea, nodalPositions_congr _ _ _ h]

/-! ## C15: `FEM::FindParameter` -/

/-- A name of at most 255 characters without `.` gives the null pointer. -/
theorem FindParameter_no_dot (fem : FEM) (atoi : List Char → ℤ) (szparam : List Char)
    (hlen : szparam.length < 256) (hdot : '.' ∉ szparam) :
    fem.FindParameter atoi szparam = .ok none := by
  simp [FEM.FindParameter, not_le.2 hlen, hdot]

theorem matchMaterial_none (szmat : List Char) : ∀ (ms : List FEMaterial) (i : ℕ),
    (∀ m ∈ ms, m.m_szname ≠ szmat) → matchMaterial szmat ms i = none := by
  intro ms
  induction ms with
  | nil => intro i _; rfl
  | cons m ms ih =>
    intro i h
    have h1 : ¬ szmat = m.m_szname := fun e => h m (List.mem_cons_self _ _) e.symm
    simp only [matchMaterial, if_neg h1]
    exact ih _ (fun a ha => h a (List.mem_cons_of_mem _ ha))

/-- The loop over the materials ends at the first material with the given name. -/
theorem matchMaterial_first (szmat : List Char) : ∀ (ms : List FEMaterial) (i n : ℕ)
    (pm : FEMaterial), matchMaterial szmat ms i = some (n, pm) →
    i ≤ n ∧ ms[n - i]? = some pm ∧ pm.m_szname = szmat ∧
      ∀ j, j < n - i → ∀ m, ms[j]? = some m → m.m_szname ≠ szmat := by
  intro ms
  induction ms with
  | nil => intro i n pm h; simp [matchMaterial] at h
  | cons m ms ih =>
    intro i n pm h
    simp only [matchMaterial] at h
    split at h
    · rename_i heq
      simp only [Option.some.injEq, Prod.mk.injEq] at h
      obtain ⟨rfl, rfl⟩ := h
      refine ⟨le_refl _, by simp, heq.symm, ?_⟩
      intro j hj
      omega
    · rename_i hne
      obtain ⟨h1, h2, h3, h4⟩ := ih (i + 1) n pm h
      have hni : n - i = (n - (i + 1)) + 1 := by omega
      refine ⟨by omega, ?_, h3, ?_⟩
      · rw [hni, List.getElem?_cons_succ]
        exact h2
      · intro j hj a ha
        cases j with
        | zero =>
          simp only [List.getElem?_cons_zero, Option.some.injEq] at ha
          subst ha
          exact fun e => hne e.symm
        | succ j =>
          rw [List.getElem?_cons_succ] at ha
          exact h4 j (by omega) a ha

/-- With at least one material, a name `material.parameter` of at most 255 characters
whose material part is the name of no material gives the null pointer. -/
theorem FindParameter_unknown_material (fem : FEM) (atoi : List Char → ℤ)
    (szparam : List Char) (hlen : szparam.length < 256) (hdot : '.' ∈ szparam)
    (hmat : fem.m_MAT ≠ [])
    (hno : ∀ m ∈ fem.m_MAT, m.m_szname ≠ szparam.takeWhile (fun c => c ≠ '.')) :
    fem.FindParameter atoi szparam = .ok none := by
  unfold FEM.FindParameter
  rw [if_neg (not_le.2 hlen), if_neg (not_not.2 hdot)]
  simp only
  cases hm : fem.m_MAT with
  | nil => exact absurd hm hmat
  | cons m ms =>
    simp only
    rw [matchMaterial_none _ _ _ (by rw [← hm]; exact hno)]

/-- C15 (failing input). On a model without materials the loop over the materials makes no
pass, and the test `pmat == 0` reads the pointer `pmat`, which was never assigned: no null
pointer is returned by the code for the name `mat.c1`.  A name of 256 characters without
`.` overruns the buffer `szname[256]`.  On a model with two materials of the same name the
first one is used. -/
theorem FindParameter_without_materials :
    (∀ atoi, emptyModel.FindParameter atoi "mat.c1".toList = .error .uninitialisedRead) ∧
    (∀ atoi, emptyModel.FindParameter atoi (List.replicate 256 'a')
      = .error .indexOutOfRange) ∧
    (∀ atoi, twinModel.FindParameter atoi "mat.c1".toList
      = .ok (some (.matValue 0 "c1".toList))) ∧
    (∀ atoi, twinModel.FindParameter atoi "mat.c2".toList = .ok none) ∧
    (∀ atoi, twinModel.FindParameter atoi "c1".toList = .ok none) ∧
    (∀ atoi, twinModel.FindParameter atoi "steel.c1".toList = .ok none) := by
  refine ⟨?_, ?_, ?_, ?_, ?_, ?_⟩ <;> intro atoi
  · rfl
  · unfold FEM.FindParameter
    rw [if_pos (by rw [List.length_replicate])]
  · rfl
  · rfl
  · rfl
  · rfl

/-! ## C18: `Image::Load` -/

theorem foldl_flatMap_eq {α β γ : Type} (g : γ → β → γ) (f : α → List β) :
    ∀ (l : List α) (init : γ),
      (l.flatMap f).foldl g init = l.foldl (fun acc a => (f a).foldl g acc) init := by
  intro l
  induction l with
  | nil => intro init; rfl
  | cons a l ih =>
    intro init
    simp only [List.flatMap_cons, List.foldl_append, List.foldl_cons, ih]

/-- The nested loops make the passes of `loopTriples` in order. -/
theorem loadLoops_eq (nx ny nz : ℕ) (body : Run (List F64) → ℕ × ℕ × ℕ → Run (List F64))
    (pf : List F64) :
    loadLoops nx ny nz body pf = (loopTriples nx ny nz).foldl body (.ok pf) := by
  simp only [loadLoops, loopTriples, foldl_flatMap_eq, List.foldl_map]

theorem mem_loopTriples (nx ny nz : ℕ) (t : ℕ × ℕ × ℕ) :
    t ∈ loopTriples nx ny nz ↔ t.1 < nz ∧ t.2.1 < ny ∧ t.2.2 < nx := by
  obtain ⟨k, j, i⟩ := t
  simp only [loopTriples, List.mem_flatMap, List.mem_map, List.mem_range, Prod.mk.injEq]
  constructor
  · rintro ⟨k1, hk, j1, hj, i1, hi, rfl, rfl, rfl⟩
    exact ⟨hk, hj, hi⟩
  · rintro ⟨hk, hj, hi⟩
    exact ⟨k, hk, j, hj, i, hi, rfl, rfl, rfl⟩

theorem nodup_loopTriples (nx ny nz : ℕ) : (loopTriples nx ny nz).Nodup := by
  unfold loopTriples
  rw [List.nodup_flatMap]
  constructor
  · intro k _
    rw [List.nodup_flatMap]
    constructor
    · intro j _
      exact (List.nodup_range nx).map (fun a b h => by simpa using h)
    · apply (List.nodup_range ny).pairwise_of_forall_ne
      intro j1 _ j2 _ hne t h1 h2
      simp only [List.mem_map] at h1 h2
      obtain ⟨i1, _, rfl⟩ := h1
      obtain ⟨i2, _, h⟩ := h2
      simp only [Prod.mk.injEq] at h
      exact hne h.2.1.symm
  · apply (List.nodup_range nz).pairwise_of_forall_ne
    intro k1 _ k2 _ hne t h1 h2
    simp only [List.mem_flatMap, List.mem_map] at h1 h2
    obtain ⟨j1, _, i1, _, rfl⟩ := h1
    obtain ⟨j2, _, i2, _, h⟩ := h2
    simp only [Prod.mk.injEq] at h
    exact hne h.1.symm

theorem mixed_lt (a b i n : ℕ) (hi : i < n) (ha : a < b) : a * n + i < b * n := by
  have h1 : (a + 1) * n ≤ b * n := Nat.mul_le_mul_right n ha
  have h2 : (a + 1) * n = a * n + n := by ring
  omega

theorem mixed_inj (a b i j n : ℕ) (hi : i < n) (hj : j < n) (h : a * n + i = b * n + j) :
    a = b ∧ i = j := by
  have hn : 0 < n := by omega
  have h1 := (Nat.div_mod_unique (a := a * n + i) (c := i) (d := a) hn).2 ⟨by ring, hi⟩
  have h2 := (Nat.div_mod_unique (a := b * n + j) (c := j) (d := b) hn).2 ⟨by ring, hj⟩
  rw [h] at h1
  exact ⟨h1.1.symm.trans h2.1, h1.2.symm.trans h2.2⟩

theorem srcIdx_lt (nx ny nz : ℕ) (t : ℕ × ℕ × ℕ) (h : t ∈ loopTriples nx ny nz) :
    srcIdx nx ny t < nx * ny * nz := by
  obtain ⟨hk, hj, hi⟩ := (mem_loopTriples nx ny nz t).1 h
  have h1 : t.1 * ny + t.2.1 < nz * ny := mixed_lt _ _ _ _ hj hk
  have h2 := mixed_lt _ _ _ nx hi h1
  have h3 : nz * ny * nx = nx * ny * nz := by ring
  simp only [srcIdx]
  omega

theorem dstIdx_lt (nx ny nz : ℕ) (t : ℕ × ℕ × ℕ) (h : t ∈ loopTriples nx ny nz) :
    dstIdx nx ny t < nx * ny * nz := by
  obtain ⟨hk, hj, hi⟩ := (mem_loopTriples nx ny nz t).1 h
  have h1 : t.1 * ny + (ny - t.2.1 - 1) < nz * ny := mixed_lt _ _ _ _ (by omega) hk
  have h2 := mixed_lt _ _ _ nx hi h1
  have h3 : nz * ny * nx = nx * ny * nz := by ring
  simp only [dstIdx]
  omega

/-- Different passes of the loops write different voxels. -/
theorem dstIdx_inj (nx ny nz : ℕ) (t1 t2 : ℕ × ℕ × ℕ) (h1 : t1 ∈ loopTriples nx ny nz)
    (h2 : t2 ∈ loopTriples nx ny nz) (h : dstIdx nx ny t1 = dstIdx nx ny t2) : t1 = t2 := by
  obtain ⟨_, hj1, hi1⟩ := (mem_loopTriples nx ny nz t1).1 h1
  obtain ⟨_, hj2, hi2⟩ := (mem_loopTriples nx ny nz t2).1 h2
  simp only [dstIdx] at h
  obtain ⟨ha, hi⟩ := mixed_inj _ _ _ _ nx hi1 hi2 h
  obtain ⟨hk, hj⟩ := mixed_inj _ _ _ _ ny (by omega) (by omega) ha
  obtain ⟨k1, j1, i1⟩ := t1
  obtain ⟨k2, j2, i2⟩ := t2
  simp only at hk hj hi hj1 hj2
  have : j1 = j2 := by omega
  rw [hk, hi, this]

theorem storeRaw8_error (nx ny : ℕ) (pb : List (Fin 256)) (e : Stop) :
    ∀ ws : List (ℕ × ℕ × ℕ), ws.foldl (storeRaw8 nx ny pb) (.error e) = .error e := by
  intro ws
  induction ws with
  | nil => rfl
  | cons t ws ih => simpa [storeRaw8] using ih

/-- What a sequence of passes of the `RAW8` body that ends without a stop has done. -/
theorem storeRaw8_fold (nx ny : ℕ) (pb : List (Fin 256)) :
    ∀ (ws : List (ℕ × ℕ × ℕ)) (pf pf1 : List F64),
      ws.foldl (storeRaw8 nx ny pb) (.ok pf) = .ok pf1 →
      pf1.length = pf.length ∧
      (∀ t ∈ ws, srcIdx nx ny t < pb.length ∧ dstIdx nx ny t < pf.length) ∧
      (∀ q, (∀ t ∈ ws, dstIdx nx ny t ≠ q) → pf1[q]? = pf[q]?) ∧
      (∀ t0 ∈ ws, (∀ t ∈ ws, dstIdx nx ny t = dstIdx nx ny t0 → t = t0) →
        ∃ b, pb[srcIdx nx ny t0]? = some b ∧
          pf1[dstIdx nx ny t0]? = some (floatDiv (b : ℕ) 255)) := by
  intro ws
  induction ws with
  | nil =>
    intro pf pf1 h
    simp only [List.foldl_nil, Except.ok.injEq] at h
    subst h
    exact ⟨rfl, by simp, fun q _ => rfl, by simp⟩
  | cons t ws ih =>
    intro pf pf1 h
    simp only [List.foldl_cons] at h
    cases hb : pb[srcIdx nx ny t]? with
    | none =>
      simp only [storeRaw8, hb] at h
      rw [storeRaw8_error] at h
      cases h
    | some b =>
      by_cases hd : dstIdx nx ny t < pf.length
      · simp only [storeRaw8, hb, if_pos hd] at h
        obtain ⟨hl, hall, hout, hval⟩ := ih _ _ h
        rw [List.length_set] at hl hall
        have hsrc : srcIdx nx ny t < pb.length := (List.getElem?_eq_some_iff.1 hb).1
        refine ⟨hl, ?_, ?_, ?_⟩
        · intro t1 ht1
          rcases List.mem_cons.1 ht1 with rfl | ht1
          · exact ⟨hsrc, hd⟩
          · exact hall t1 ht1
        · intro q hq
          rw [hout q (fun t1 ht1 => hq t1 (List.mem_cons_of_mem _ ht1)), List.getElem?_set]
          rw [if_neg (hq t (List.mem_cons_self _ _))]
        · intro t0 ht0 huniq
          rcases List.mem_cons.1 ht0 with rfl | ht0
          · by_cases hin : t0 ∈ ws
            · exact hval t0 hin (fun t1 ht1 h1 => huniq t1 (List.mem_cons_of_mem _ ht1) h1)
            · refine ⟨b, hb, ?_⟩
              rw [hout _ (fun t1 ht1 h1 => hin (huniq t1 (List.mem_cons_of_mem _ ht1) h1 ▸ ht1)),
                List.getElem?_set, if_pos rfl, if_pos hd]
          · exact hval t0 ht0 (fun t1 ht1 h1 => huniq t1 (List.mem_cons_of_mem _ ht1) h1)
      · simp only [storeRaw8, hb, if_neg hd] at h
        rw [storeRaw8_error] at h
        cases h

/-- A sequence of passes of the `RAW8` body whose reads and writes are all in range ends
without a stop. -/
theorem storeRaw8_runs (nx ny : ℕ) (pb : List (Fin 256)) :
    ∀ (ws : List (ℕ × ℕ × ℕ)) (pf : List F64),
      (∀ t ∈ ws, srcIdx nx ny t < pb.length ∧ dstIdx nx ny t < pf.length) →
      ∃ pf1, ws.foldl (storeRaw8 nx ny pb) (.ok pf) = .ok pf1 := by
  intro ws
  induction ws with
  | nil => intro pf _; exact ⟨pf, rfl⟩
  | cons t ws ih =>
    intro pf h
    obtain ⟨hs, hd⟩ := h t (List.mem_cons_self _ _)
    simp only [List.foldl_cons, storeRaw8, List.getElem?_eq_getElem hs, if_pos hd]
    apply ih
    intro t1 ht1
    rw [List.length_set]
    exact h t1 (List.mem_cons_of_mem _ ht1)

/-- The buffer after `fread` has `nsize` entries: the bytes of the file, then what the
buffer held before. -/
theorem readBuffer_length (nsize : ℕ) (bytes : List (Fin 256)) (junk : ℕ → Fin 256) :
    (readBuffer nsize bytes junk).length = nsize := by
  simp [readBuffer]

theorem readBuffer_getElem? (nsize : ℕ) (bytes : List (Fin 256)) (junk : ℕ → Fin 256)
    (i : ℕ) (hi : i < nsize) :
    (readBuffer nsize bytes junk)[i]? = some (bytes.getD i (junk i)) := by
  simp [readBuffer, List.getElem?_map, List.getElem?_range hi]

/-- The `RAW8` branch of `Load` on an opened file. -/
theorem Load_raw8_eq (im : Image) (bytes : List (Fin 256)) (endianess hostLittle : Bool)
    (junk : ℕ → Fin 256) :
    im.Load (some bytes) .RAW8 endianess hostLittle junk
      = if INT_MAX < im.m_nx * im.m_ny * im.m_nz then .error .intOverflow
        else
          match (loopTriples im.m_nx im.m_ny im.m_nz).foldl
              (storeRaw8 im.m_nx im.m_ny
                (readBuffer (im.m_nx * im.m_ny * im.m_nz) bytes junk))
              (.ok im.m_pf) with
          | .error e => .error e
          | .ok pf => .ok (true, { im with m_pf := pf }) := by
  simp only [Image.Load, if_true, mul_one, loadLoops_eq]

/-- Every voxel is the destination of exactly one pass of the loops. -/
theorem dstIdx_count (nx ny nz : ℕ) (t0 : ℕ × ℕ × ℕ) (h0 : t0 ∈ loopTriples nx ny nz) :
    ((loopTriples nx ny nz).map (dstIdx nx ny)).count (dstIdx nx ny t0) = 1 := by
  rw [List.count_eq_countP, List.countP_map]
  rw [List.countP_congr (q := fun t => decide (t = t0))]
  · exact List.count_eq_one_of_mem (nodup_loopTriples nx ny nz) h0
  · intro t ht
    simp only [Function.comp, beq_iff_eq, decide_eq_true_eq]
    constructor
    · intro h
      exact dstIdx_inj nx ny nz t t0 ht h0 h
    · intro h
      rw [h]

/-- The quotient `(float) b / 255.f` of a byte is a number between 0 and 1 and differs
from `b/255` by the rounding to `float`, at most `2^-25`. -/
theorem floatDiv_byte : ∀ b : Fin 256, 0 ≤ F64.val (floatDiv (b : ℕ) 255) ∧
    F64.val (floatDiv (b : ℕ) 255) ≤ 1 ∧
    F64.val (floatDiv (b : ℕ) 255) - ((b : ℕ) : ℚ) / 255 ≤ 1 / 2 ^ 25 ∧
    ((b : ℕ) : ℚ) / 255 - F64.val (floatDiv (b : ℕ) 255) ≤ 1 / 2 ^ 25 := by
  decide!

/-- What a `Load` with format `RAW8` does.  Into an `nx*ny*nz` image (an image whose voxel
array has `nx*ny*nz` entries, with `nx*ny*nz` fitting an `int`) every `Load` of a file that
can be opened returns true, whatever the file holds.  After it, for all `i < nx`, `j < ny`,
`k < nz` the voxel `(i, ny-1-j, k)` holds the `float` `(float) b / 255.f`, where `b` is
`byte[(k*ny + j)*nx + i]` of the file if the file has that byte and otherwise what the fresh
buffer held at that place; so the file rows are flipped in `y`, every voxel value lies in
`[0,1]` and is `b/255` up to the rounding to `float`; and every voxel is written exactly
once.  A format other than `RAW8` or `RAW16U` makes `Load` return false without changing
the image. -/
theorem Image_Load_raw8 (im : Image) (bytes : List (Fin 256)) (endianess hostLittle : Bool)
    (junk : ℕ → Fin 256)
    (hwf : im.m_pf.length = im.m_nx * im.m_ny * im.m_nz)
    (hmax : im.m_nx * im.m_ny * im.m_nz ≤ INT_MAX) :
    (∃ im1, im.Load (some bytes) .RAW8 endianess hostLittle junk = .ok (true, im1) ∧
      im1.m_nx = im.m_nx ∧ im1.m_ny = im.m_ny ∧ im1.m_nz = im.m_nz ∧
      im1.m_pf.length = im.m_nx * im.m_ny * im.m_nz ∧
      (∀ i j k, i < im.m_nx → j < im.m_ny → k < im.m_nz →
        im1.value i (im.m_ny - 1 - j) k
          = some (floatDiv
              ((bytes.getD ((k * im.m_ny + j) * im.m_nx + i)
                (junk ((k * im.m_ny + j) * im.m_nx + i)) : Fin 256) : ℕ) 255)) ∧
      (∀ i j k b, i < im.m_nx → j < im.m_ny → k < im.m_nz →
        bytes[(k * im.m_ny + j) * im.m_nx + i]? = some b →
        im1.value i (im.m_ny - 1 - j) k = some (floatDiv (b : ℕ) 255)) ∧
      (∀ i j k, i < im.m_nx → j < im.m_ny → k < im.m_nz →
        ∃ v, im1.value i j k = some v ∧ 0 ≤ F64.val v ∧ F64.val v ≤ 1) ∧
      (∀ i j k, i < im.m_nx → j < im.m_ny → k < im.m_nz →
        ((loopTriples im.m_nx im.m_ny im.m_nz).map (dstIdx im.m_nx im.m_ny)).count
          ((k * im.m_ny + j) * im.m_nx + i) = 1)) ∧
    (∀ file, im.Load file .other endianess hostLittle junk = .ok (false, im)) := by
  refine ⟨?_, fun file => rfl⟩
  obtain ⟨pf, hfold⟩ := storeRaw8_runs im.m_nx im.m_ny
    (readBuffer (im.m_nx * im.m_ny * im.m_nz) bytes junk)
    (loopTriples im.m_nx im.m_ny im.m_nz) im.m_pf
    (by
      intro t ht
      rw [readBuffer_length, hwf]
      exact ⟨srcIdx_lt _ _ _ t ht, dstIdx_lt _ _ _ t ht⟩)
  refine ⟨{ im with m_pf := pf }, ?_, rfl, rfl, rfl, ?_⟩
  · rw [Load_raw8_eq, if_neg (by omega), hfold]
  obtain ⟨hl, _, _, hval⟩ := storeRaw8_fold _ _ _ _ _ _ hfold
  have key : ∀ i j k, i < im.m_nx → j < im.m_ny → k < im.m_nz →
      pf[dstIdx im.m_nx im.m_ny (k, j, i)]?
        = some (floatDiv
            ((bytes.getD (srcIdx im.m_nx im.m_ny (k, j, i))
              (junk (srcIdx im.m_nx im.m_ny (k, j, i))) : Fin 256) : ℕ) 255) := by
    intro i j k hi hj hk
    have hmem : (k, j, i) ∈ loopTriples im.m_nx im.m_ny im.m_nz :=
      (mem_loopTriples _ _ _ _).2 ⟨hk, hj, hi⟩
    obtain ⟨b, hb, hv⟩ := hval (k, j, i) hmem
      (fun t ht h => dstIdx_inj _ _ _ t _ ht hmem h)
    rw [readBuffer_getElem? _ _ _ _ (srcIdx_lt _ _ _ _ hmem)] at hb
    cases hb
    exact hv
  have key2 : ∀ i j k, i < im.m_nx → j < im.m_ny → k < im.m_nz →
      Image.value { im with m_pf := pf } i (im.m_ny - 1 - j) k
        = some (floatDiv
            ((bytes.getD ((k * im.m_ny + j) * im.m_nx + i)
              (junk ((k * im.m_ny + j) * im.m_nx + i)) : Fin 256) : ℕ) 255) := by
    intro i j k hi hj hk
    have e1 : im.m_ny - 1 - j = im.m_ny - j - 1 := by omega
    simp only [Image.value, e1]
    exact key i j k hi hj hk
  refine ⟨by rw [← hwf]; exact hl, key2, ?_, ?_, ?_⟩
  · intro i j k b hi hj hk hb
    rw [key2 i j k hi hj hk]
    have hlt : (k * im.m_ny + j) * im.m_nx + i < bytes.length :=
      (List.getElem?_eq_some_iff.1 hb).1
    have hget : bytes.getD ((k * im.m_ny + j) * im.m_nx + i)
        (junk ((k * im.m_ny + j) * im.m_nx + i)) = b := by
      rw [List.getD_eq_getElem?_getD, hb]
      rfl
    rw [hget]
  · intro i j k hi hj hk
    have hv := key i (im.m_ny - 1 - j) k hi (by omega) hk
    have e1 : im.m_ny - (im.m_ny - 1 - j) - 1 = j := by omega
    simp only [dstIdx, e1] at hv
    exact ⟨_, hv, (floatDiv_byte _).1, (floatDiv_byte _).2.1⟩
  · intro i j k hi hj hk
    have hmem : (k, im.m_ny - 1 - j, i) ∈ loopTriples im.m_nx im.m_ny im.m_nz :=
      (mem_loopTriples _ _ _ _).2 ⟨hk, by simp only; omega, hi⟩
    have h1 := dstIdx_count _ _ _ _ hmem
    have e1 : im.m_ny - (im.m_ny - 1 - j) - 1 = j := by omega
    simp only [dstIdx, e1] at h1
    exact h1

/-- C18. A file that is shorter than the image makes `Load` return true as well: the empty
file loaded with format `RAW8` into a 2 x 2 x 1 image is reported as a success, and the
four voxels then hold what the fresh buffer held before `fread`, divided by 255, and no
byte of a file; two buffers with different content give two different images for the same
file. -/
theorem Image_Load_short_file :
    (∀ junk : ℕ → Fin 256,
      sampleImage.Load (some []) .RAW8 false true junk
        = .ok (true, ⟨2, 2, 1, [floatDiv (junk 2 : ℕ) 255, floatDiv (junk 3 : ℕ) 255,
            floatDiv (junk 0 : ℕ) 255, floatDiv (junk 1 : ℕ) 255]⟩)) ∧
    sampleImage.Load (some []) .RAW8 false true (fun _ => 0)
      ≠ sampleImage.Load (some []) .RAW8 false true (fun _ => 255) := by
  have h : ∀ junk : ℕ → Fin 256,
      sampleImage.Load (some []) .RAW8 false true junk
        = .ok (true, ⟨2, 2, 1, [floatDiv (junk 2 : ℕ) 255, floatDiv (junk 3 : ℕ) 255,
            floatDiv (junk 0 : ℕ) 255, floatDiv (junk 1 : ℕ) 255]⟩) := fun junk => rfl
  refine ⟨h, ?_⟩
  rw [h, h]
  intro heq
  injection heq with heq
  injection heq with _ heq
  injection heq with _ _ _ heq
  injection heq with heq _
  revert heq
  decide!

/-! ## C21: the Newton matrix of a triangle -/

/-- The length of a vector whose squared length is the square of `L >= 0` is `L`. -/
theorem norm_eq_of_sq (a : Vec3) (L : ℚ) (hL : 0 ≤ L) (h : a.norm2 = L * L) :
    a.norm = (L : ℝ) := by
  unfold Vec3.norm
  rw [h]
  push_cast
  exact Real.sqrt_mul_self (by exact_mod_cast hL)

/-- The coordinates of a vector are its length times the coordinates of its unit vector. -/
theorem unit_scaled (a : Vec3) (h : a.norm ≠ 0) :
    (a.x : ℝ) = a.norm * a.unit.x ∧ (a.y : ℝ) = a.norm * a.unit.y ∧
      (a.z : ℝ) = a.norm * a.unit.z := by
  have h2 : a.norm2 ≠ 0 := by
    intro h0
    apply h
    unfold Vec3.norm
    rw [h0]
    simp
  simp only [Vec3.unit, if_neg h2]
  refine ⟨?_, ?_, ?_⟩ <;> field_simp

/-- For a spring of current length `Lt > 0` the block `A` of `StiffnessMatrix` is built on
the vector `e = rt2 - rt1` of length `Lt`, not on the unit vector `n` that `InternalForces`
uses: `A = (E - F/Lt) * Lt^2 * (n (x) n) + (F/Lt) * I`, while `InternalForces` assembles
`fe = (F n, -F n)` and the element stiffness of that force is
`(E - F/Lt) * (n (x) n) + (F/Lt) * I`. -/
theorem springBlock_scaled (mat : FESpringMaterial) (n1 n2 : FENode)
    (hLt : 0 < (n2.m_rt - n1.m_rt).norm) :
    let Lt : ℝ := (n2.m_rt - n1.m_rt).norm
    let F : ℝ := mat.force (Lt - (n2.m_r0 - n1.m_r0).norm)
    let E : ℝ := mat.stiffness (Lt - (n2.m_r0 - n1.m_r0).norm)
    let n : Vec3R := (n2.m_rt - n1.m_rt).unit
    springForce mat n1 n2 = [F * n.x, F * n.y, F * n.z, -F * n.x, -F * n.y, -F * n.z] ∧
    (springBlock mat n1 n2).a00 = (E - F / Lt) * Lt ^ 2 * (n.x * n.x) + F / Lt ∧
    (springBlock mat n1 n2).a01 = (E - F / Lt) * Lt ^ 2 * (n.x * n.y) ∧
    (springBlock mat n1 n2).a02 = (E - F / Lt) * Lt ^ 2 * (n.x * n.z) ∧
    (springBlock mat n1 n2).a10 = (E - F / Lt) * Lt ^ 2 * (n.y * n.x) ∧
    (springBlock mat n1 n2).a11 = (E - F / Lt) * Lt ^ 2 * (n.y * n.y) + F / Lt ∧
    (springBlock mat n1 n2).a12 = (E - F / Lt) * Lt ^ 2 * (n.y * n.z) ∧
    (springBlock mat n1 n2).a20 = (E - F / Lt) * Lt ^ 2 * (n.z * n.x) ∧
    (springBlock mat n1 n2).a21 = (E - F / Lt) * Lt ^ 2 * (n.z * n.y) ∧
    (springBlock mat n1 n2).a22 = (E - F / Lt) * Lt ^ 2 * (n.z * n.z) + F / Lt ∧
    (springTangent mat n1 n2).a00 = (E - F / Lt) * (n.x * n.x) + F / Lt ∧
    (springTangent mat n1 n2).a01 = (E - F / Lt) * (n.x * n.y) ∧
    (springTangent mat n1 n2).a02 = (E - F / Lt) * (n.x * n.z) ∧
    (springTangent mat n1 n2).a10 = (E - F / Lt) * (n.y * n.x) ∧
    (springTangent mat n1 n2).a11 = (E - F / Lt) * (n.y * n.y) + F / Lt ∧
    (springTangent mat n1 n2).a12 = (E - F / Lt) * (n.y * n.z) ∧
    (springTangent mat n1 n2).a20 = (E - F / Lt) * (n.z * n.x) ∧
    (springTangent mat n1 n2).a21 = (E - F / Lt) * (n.z * n.y) ∧
    (springTangent mat n1 n2).a22 = (E - F / Lt) * (n.z * n.z) + F / Lt := by
  intro Lt F E n
  have hne : (n2.m_rt - n1.m_rt).norm ≠ 0 := ne_of_gt hLt
  obtain ⟨hx, hy, hz⟩ := unit_scaled (n2.m_rt - n1.m_rt) hne
  have hx1 : n.x = ((n2.m_rt - n1.m_rt).x : ℝ) / Lt := by
    rw [hx]; simp only [n, Lt]; field_simp
  have hy1 : n.y = ((n2.m_rt - n1.m_rt).y : ℝ) / Lt := by
    rw [hy]; simp only [n, Lt]; field_simp
  have hz1 : n.z = ((n2.m_rt - n1.m_rt).z : ℝ) / Lt := by
    rw [hz]; simp only [n, Lt]; field_simp
  refine ⟨rfl, ?_, ?_, ?_, ?_, ?_, ?_, ?_, ?_, ?_, ?_, ?_, ?_, ?_, ?_, ?_, ?_, ?_, ?_⟩
  · simp only [springBlock, if_neg hne, Vec3.toReal]; rw [hx]; ring
  · simp only [springBlock, if_neg hne, Vec3.toReal]; rw [hx, hy]; ring
  · simp only [springBlock, if_neg hne, Vec3.toReal]; rw [hx, hz]; ring
  · simp only [springBlock, if_neg hne, Vec3.toReal]; rw [hx, hy]; ring
  · simp only [springBlock, if_neg hne, Vec3.toReal]; rw [hy]; ring
  · simp only [springBlock, if_neg hne, Vec3.toReal]; rw [hy, hz]; ring
  · simp only [springBlock, if_neg hne, Vec3.toReal]; rw [hx, hz]; ring
  · simp only [springBlock, if_neg hne, Vec3.toReal]; rw [hy, hz]; ring
  · simp only [springBlock, if_neg hne, Vec3.toReal]; rw [hz]; ring
  all_goals
    simp only [springTangent]
    try rw [hx1]
    try rw [hy1]
    try rw [hz1]

/-- The nodes of the stretched spring and their lengths: rest length 1, current length 2. -/
theorem stretchedSpring_lengths :
    ((⟨1, 0, 0⟩ : Vec3) - ⟨0, 0, 0⟩).norm = 1 ∧ ((⟨2, 0, 0⟩ : Vec3) - ⟨0, 0, 0⟩).norm = 2 := by
  constructor
  · have h := norm_eq_of_sq ((⟨1, 0, 0⟩ : Vec3) - ⟨0, 0, 0⟩) 1 (by norm_num)
      (by norm_num [vec3_sub_def, Vec3.norm2, Vec3.dot])
    rw [h]
    norm_num
  · have h := norm_eq_of_sq ((⟨2, 0, 0⟩ : Vec3) - ⟨0, 0, 0⟩) 2 (by norm_num)
      (by norm_num [vec3_sub_def, Vec3.norm2, Vec3.dot])
    rw [h]
    norm_num

/-- C24 (failing input). One linear spring with spring constant 1 and rest length 1 along
the x axis, stretched to the current length `Lt = 2`, so that `F = 1` and `E = 1`.
`InternalForces` assembles the force `F n` with the unit direction `n = (1,0,0)`, and the
element stiffness of that force, `(E - F/Lt) * (n (x) n) + (F/Lt) * I`, has the entry
`A[0][0] = 1`.  `StiffnessMatrix` builds its block on the vector `e = rt2 - rt1 = (2,0,0)`,
which it does not normalise, and assembles `A[0][0] = (E - F/Lt)*4 + F/Lt = 5/2`; the other
entries agree (`A[1][1] = A[2][2] = 1/2`, the rest 0). -/
theorem StiffnessMatrix_direction_not_unit :
    stretchedSpring.InternalForces = .ok [([0, 1], [1, 0, 0, -1, 0, 0])] ∧
      (∃ k, stretchedSpring.StiffnessMatrix = .ok [k] ∧ k.en = [0, 1] ∧
        k.ke = elementMatrix k.A ∧
        k.A.a00 = 5/2 ∧ k.A.a01 = 0 ∧ k.A.a02 = 0 ∧ k.A.a10 = 0 ∧ k.A.a11 = 1/2 ∧
        k.A.a12 = 0 ∧ k.A.a20 = 0 ∧ k.A.a21 = 0 ∧ k.A.a22 = 1/2 ∧
        (springTangent linearSpring ⟨⟨0, 0, 0⟩, ⟨0, 0, 0⟩⟩ ⟨⟨1, 0, 0⟩, ⟨2, 0, 0⟩⟩).a00 = 1 ∧
        (springTangent linearSpring ⟨⟨0, 0, 0⟩, ⟨0, 0, 0⟩⟩ ⟨⟨1, 0, 0⟩, ⟨2, 0, 0⟩⟩).a11 = 1/2 ∧
        (springTangent linearSpring ⟨⟨0, 0, 0⟩, ⟨0, 0, 0⟩⟩ ⟨⟨1, 0, 0⟩, ⟨2, 0, 0⟩⟩).a22 = 1/2 ∧
        k.A.a00 ≠
          (springTangent linearSpring ⟨⟨0, 0, 0⟩, ⟨0, 0, 0⟩⟩ ⟨⟨1, 0, 0⟩, ⟨2, 0, 0⟩⟩).a00) := by
  obtain ⟨hL0, hLt⟩ := stretchedSpring_lengths
  have hn2 : (((⟨2, 0, 0⟩ : Vec3) - ⟨0, 0, 0⟩).norm2 = 0) = False := by
    norm_num [vec3_sub_def, Vec3.norm2, Vec3.dot]
  have hx : (((⟨2, 0, 0⟩ : Vec3) - ⟨0, 0, 0⟩).x : ℝ) = 2 := by norm_num [vec3_sub_def]
  have hy : (((⟨2, 0, 0⟩ : Vec3) - ⟨0, 0, 0⟩).y : ℝ) = 0 := by norm_num [vec3_sub_def]
  have hz : (((⟨2, 0, 0⟩ : Vec3) - ⟨0, 0, 0⟩).z : ℝ) = 0 := by norm_num [vec3_sub_def]
  constructor
  · simp only [FEDiscreteSpringDomain.InternalForces, stretchedSpring, forceLoop]
    rw [show springNodes ⟨⟨[⟨⟨0, 0, 0⟩, ⟨0, 0, 0⟩⟩, ⟨⟨1, 0, 0⟩, ⟨2, 0, 0⟩⟩]⟩, [springElement],
      linearSpring⟩ springElement = .ok (0, 1, ⟨⟨0, 0, 0⟩, ⟨0, 0, 0⟩⟩, ⟨⟨1, 0, 0⟩, ⟨2, 0, 0⟩⟩)
      from rfl]
    simp only [springForce, linearSpring, Vec3.unit, hn2, if_false, hL0, hLt, hx, hy, hz]
    norm_num
  · refine ⟨⟨[0, 1], springBlock linearSpring ⟨⟨0, 0, 0⟩, ⟨0, 0, 0⟩⟩ ⟨⟨1, 0, 0⟩, ⟨2, 0, 0⟩⟩,
      elementMatrix (springBlock linearSpring ⟨⟨0, 0, 0⟩, ⟨0, 0, 0⟩⟩ ⟨⟨1, 0, 0⟩, ⟨2, 0, 0⟩⟩)⟩,
      ?_, rfl, rfl, ?_⟩
    · simp only [FEDiscreteSpringDomain.StiffnessMatrix, stretchedSpring, stiffnessLoop]
      rw [show springNodes ⟨⟨[⟨⟨0, 0, 0⟩, ⟨0, 0, 0⟩⟩, ⟨⟨1, 0, 0⟩, ⟨2, 0, 0⟩⟩]⟩, [springElement],
        linearSpring⟩ springElement
        = .ok (0, 1, ⟨⟨0, 0, 0⟩, ⟨0, 0, 0⟩⟩, ⟨⟨1, 0, 0⟩, ⟨2, 0, 0⟩⟩) from rfl]
    · simp only [springBlock, springTangent, linearSpring, Vec3.toReal, hL0, hLt, hx, hy, hz]
      norm_num

end FEBio
